import Mathlib

/-!
# Verification of the split-lines benchmark kernels

A shallow embedding of the line-splitting kernels of `src/main.rs`
(`slice` and `compressed` families plus the benchmark harness dispatch),
with proofs of the specification claims about them.

Byte buffers are modelled as `List Nat` (only equality with the newline
byte `10` ever matters).  SIMD compare-and-movemask operations become the
little-endian bitmask `chunkMask` of a chunk; the `mask.trailing_zeros()`
/ `mask &= mask - 1` bit-extraction loops are modelled on `Nat` with
`tzc` and `m &&& (m - 1)`.  `u16` arithmetic is modelled with `% 65536`.
-/

set_option maxRecDepth 20000

abbrev Bytes := List Nat

/-- The sub-slice `l[off .. off+len)`, i.e. `(l.drop off).take len`. -/
def sub (l : Bytes) (off len : Nat) : Bytes := (l.drop off).take len

/-- Indices of newline bytes (value `10`) in a byte list, in increasing order. -/
def nlPos : Bytes → List Nat
  | [] => []
  | b :: rest => (if b = 10 then [0] else []) ++ (nlPos rest).map (· + 1)

theorem nlPos_append (a b : Bytes) :
    nlPos (a ++ b) = nlPos a ++ (nlPos b).map (· + a.length) := by
  induction a with
  | nil => simp [nlPos]
  | cons x xs ih =>
    have hmm : ∀ (l : List Nat) (n : Nat), (l.map (· + n)).map (· + 1) = l.map (· + (n + 1)) := by
      intro l n
      rw [List.map_map]
      apply List.map_congr_left
      intro a _
      simp only [Function.comp]
      omega
    by_cases hx : x = 10 <;>
      simp [nlPos, hx, ih, List.map_append, hmm, List.length_cons]

theorem nlPos_lt {l : Bytes} {p : Nat} (hp : p ∈ nlPos l) : p < l.length := by
  induction l generalizing p with
  | nil => simp [nlPos] at hp
  | cons x xs ih =>
    simp only [nlPos, List.mem_append, List.mem_map] at hp
    rcases hp with hp | ⟨q, hq, rfl⟩
    · by_cases hx : x = 10 <;> simp [hx] at hp
      simp [hp]
    · have := ih hq
      simp only [List.length_cons]
      omega

theorem nlPos_length_le (l : Bytes) : (nlPos l).length ≤ l.length := by
  induction l with
  | nil => simp [nlPos]
  | cons x xs ih =>
    simp only [nlPos, List.length_append, List.length_map, List.length_cons]
    by_cases hx : x = 10 <;> simp [hx] <;> omega

theorem nlPos_chain (l : Bytes) : List.Chain' (· < ·) (nlPos l) := by
  induction l with
  | nil => simp [nlPos]
  | cons x xs ih =>
    have hmap : List.Chain' (· < ·) ((nlPos xs).map (· + 1)) := by
      apply List.chain'_map_of_chain' (· + 1) _ ih
      intro a b hab
      simp only []
      omega
    by_cases hx : x = 10
    · simp only [nlPos, hx, if_pos rfl, List.singleton_append]
      apply List.chain'_cons'.mpr
      refine ⟨?_, hmap⟩
      intro y hy
      rcases List.mem_map.mp (List.mem_of_mem_head? hy) with ⟨q, _, rfl⟩
      omega
    · simpa [nlPos, hx] using hmap

theorem nlPos_getElem (l : Bytes) (i : Nat) (h : i < l.length) :
    i ∈ nlPos l ↔ l[i] = 10 := by
  induction l generalizing i with
  | nil => simp at h
  | cons x xs ih =>
    cases i with
    | zero =>
      by_cases hx : x = 10 <;> simp [nlPos, hx]
    | succ j =>
      have hj : j < xs.length := by simpa using h
      have := ih j hj
      by_cases hx : x = 10 <;> simp [nlPos, hx, this]

/-! ## Bit-scan primitives

`tzc` models `trailing_zeros()` on a non-zero mask; `tzcnt64` models the
`_tzcnt_u64` intrinsic (which returns the operand size 64 on input 0);
`maskBits` models the `while mask != 0 { tz; mask &= mask - 1 }` loop,
returning the set-bit positions in increasing order. -/

def tzc (m : Nat) : Nat :=
  if m = 0 then 0
  else if m % 2 = 1 then 0
  else tzc (m / 2) + 1
termination_by m
decreasing_by exact Nat.div_lt_self (Nat.pos_of_ne_zero (by assumption)) (by omega)

/-- `_tzcnt_u64`: count of trailing zeros, 64 on zero input. -/
def tzcnt64 (m : Nat) : Nat := if m = 0 then 64 else tzc m

/-- `rep bsf` (assembly): executes as `tzcnt` on BMI1 hardware.  The source
doc comment declares the result undefined on input 0; we model the BMI1
(tzcnt) behaviour, on which the kernels do not rely (the value written from
it on a zero mask is truncated away before commit). -/
def rep_bsf (m : Nat) : Nat := tzcnt64 m

def maskBits (m : Nat) : List Nat :=
  if m = 0 then []
  else tzc m :: maskBits (m &&& (m - 1))
termination_by m
decreasing_by
  exact Nat.lt_of_le_of_lt Nat.and_le_right
    (Nat.sub_lt (Nat.pos_of_ne_zero (by assumption)) Nat.one_pos)

/-- `count_ones()`. -/
def popCount (m : Nat) : Nat :=
  if m = 0 then 0 else m % 2 + popCount (m / 2)
termination_by m
decreasing_by exact Nat.div_lt_self (Nat.pos_of_ne_zero (by assumption)) (by omega)

/-- Iterated `m &&& (m - 1)`: clear the lowest `k` set bits. -/
def dropLowN : Nat → Nat → Nat
  | 0, m => m
  | k + 1, m => dropLowN k (m &&& (m - 1))

theorem maskBits_zero : maskBits 0 = [] := by
  rw [maskBits]
  simp

theorem maskBits_cons {m : Nat} (h : m ≠ 0) :
    maskBits m = tzc m :: maskBits (m &&& (m - 1)) := by
  conv_lhs => rw [maskBits]
  rw [if_neg h]

theorem tzc_odd {m : Nat} (h : m % 2 = 1) : tzc m = 0 := by
  rw [tzc]
  have h0 : ¬ m = 0 := by omega
  simp [h0, h]

theorem tzc_two_mul {m : Nat} (h : m ≠ 0) : tzc (2 * m) = tzc m + 1 := by
  rw [tzc]
  have h0 : ¬ 2 * m = 0 := by omega
  have h1 : ¬ 2 * m % 2 = 1 := by omega
  simp [h0, h1, Nat.mul_div_cancel_left m (by omega : 0 < 2)]

theorem testBit_two_mul (m i : Nat) : (2 * m).testBit (i + 1) = m.testBit i := by
  rw [Nat.testBit_succ, Nat.mul_div_cancel_left m (by omega : 0 < 2)]

theorem testBit_two_mul_add_one (m i : Nat) :
    (2 * m + 1).testBit (i + 1) = m.testBit i := by
  rw [Nat.testBit_succ]
  congr 1
  omega

theorem testBit_two_mul_zero (m : Nat) : (2 * m).testBit 0 = false := by
  simp [Nat.testBit_zero] <;> omega

theorem testBit_two_mul_add_one_zero (m : Nat) : (2 * m + 1).testBit 0 = true := by
  simp [Nat.testBit_zero] <;> omega

theorem land_two_mul_add_one_pred (m : Nat) : (2 * m + 1) &&& (2 * m + 1 - 1) = 2 * m := by
  apply Nat.eq_of_testBit_eq
  intro i
  have : 2 * m + 1 - 1 = 2 * m := by omega
  rw [this, Nat.testBit_and]
  cases i with
  | zero => simp [testBit_two_mul_zero, testBit_two_mul_add_one_zero]
  | succ j => simp [testBit_two_mul, testBit_two_mul_add_one]

theorem land_two_mul_pred {m : Nat} (h : m ≠ 0) :
    (2 * m) &&& (2 * m - 1) = 2 * (m &&& (m - 1)) := by
  apply Nat.eq_of_testBit_eq
  intro i
  have h2 : 2 * m - 1 = 2 * (m - 1) + 1 := by omega
  rw [Nat.testBit_and, h2]
  cases i with
  | zero => simp [testBit_two_mul_zero, testBit_two_mul_add_one_zero]
  | succ j =>
    rw [testBit_two_mul, testBit_two_mul, testBit_two_mul_add_one, Nat.testBit_and]

theorem maskBits_two_mul (m : Nat) : maskBits (2 * m) = (maskBits m).map (· + 1) := by
  induction m using Nat.strong_induction_on with
  | _ m ih =>
    by_cases h : m = 0
    · subst h; simp [maskBits]
    · have hrec := ih (m &&& (m - 1))
        (Nat.lt_of_le_of_lt Nat.and_le_right (Nat.sub_lt (Nat.pos_of_ne_zero h) Nat.one_pos))
      conv_lhs => rw [maskBits]
      conv_rhs => rw [maskBits]
      rw [if_neg (by omega : ¬ 2 * m = 0), if_neg h, land_two_mul_pred h, tzc_two_mul h, hrec]
      simp

theorem maskBits_two_mul_add_one (m : Nat) :
    maskBits (2 * m + 1) = 0 :: (maskBits m).map (· + 1) := by
  rw [maskBits, if_neg (by omega : ¬ 2 * m + 1 = 0), land_two_mul_add_one_pred,
    tzc_odd (by omega : (2 * m + 1) % 2 = 1), maskBits_two_mul]

/-- Little-endian compare bitmask of a chunk: bit `k` set iff byte `k` equals `10`.
This is what `movemask(cmpeq(v, nl_v))` computes. -/
def chunkMask : Bytes → Nat
  | [] => 0
  | b :: rest => (if b = 10 then 1 else 0) + 2 * chunkMask rest

theorem chunkMask_lt (c : Bytes) : chunkMask c < 2 ^ c.length := by
  induction c with
  | nil => simp [chunkMask]
  | cons b rest ih =>
    simp only [chunkMask, List.length_cons, Nat.pow_succ]
    by_cases hb : b = 10 <;> simp [hb] <;> omega

theorem maskBits_chunkMask (c : Bytes) : maskBits (chunkMask c) = nlPos c := by
  induction c with
  | nil => simp [chunkMask, maskBits, nlPos]
  | cons b rest ih =>
    by_cases hb : b = 10
    · have h1 : chunkMask (b :: rest) = 2 * chunkMask rest + 1 := by
        simp [chunkMask, hb] <;> omega
      rw [h1, maskBits_two_mul_add_one, ih, nlPos]
      simp [hb]
    · have h1 : chunkMask (b :: rest) = 2 * chunkMask rest := by
        simp [chunkMask, hb] <;> omega
      rw [h1, maskBits_two_mul, ih, nlPos]
      simp [hb]

theorem popCount_eq_length_maskBits (m : Nat) : popCount m = (maskBits m).length := by
  induction m using Nat.strong_induction_on with
  | _ m ih =>
    by_cases h : m = 0
    · subst h; simp [popCount, maskBits]
    · rcases Nat.even_or_odd m with ⟨k, hk⟩ | ⟨k, hk⟩
      · have hk2 : m = 2 * k := by omega
        have hkne : k ≠ 0 := by omega
        subst hk2
        rw [popCount, if_neg h, maskBits_two_mul]
        have := ih k (by omega)
        simp only [List.length_map]
        rw [← this]
        have : 2 * k % 2 = 0 := by omega
        rw [this, Nat.mul_div_cancel_left k (by omega : 0 < 2)]
        omega
      · subst hk
        rw [popCount, if_neg h, maskBits_two_mul_add_one]
        have := ih k (by omega)
        simp only [List.length_cons, List.length_map]
        rw [← this]
        have h1 : (2 * k + 1) % 2 = 1 := by omega
        have h2 : (2 * k + 1) / 2 = k := by omega
        rw [h1, h2]
        omega

theorem maskBits_dropLowN (k m : Nat) : maskBits (dropLowN k m) = (maskBits m).drop k := by
  induction k generalizing m with
  | zero => simp [dropLowN]
  | succ j ih =>
    rw [dropLowN, ih]
    by_cases h : m = 0
    · subst h
      rw [Nat.zero_and, maskBits_zero]
      simp
    · rw [maskBits_cons h]
      simp

theorem dropLowN_popCount_eq_zero {m : Nat} {k : Nat} (h : popCount m ≤ k) :
    dropLowN k m = 0 := by
  by_contra hne
  have h1 := maskBits_dropLowN k m
  rw [maskBits_cons hne] at h1
  have h2 : ((maskBits m).drop k).length = 0 := by
    simp only [List.length_drop]
    rw [← popCount_eq_length_maskBits]
    omega
  rw [← h1] at h2
  simp at h2

theorem tzcnt64_dropLowN {m k : Nat} (h : k < popCount m) :
    tzcnt64 (dropLowN k m) = (maskBits m).getD k 0 := by
  have hkl : k < (maskBits m).length := by rw [← popCount_eq_length_maskBits]; exact h
  have hne : dropLowN k m ≠ 0 := by
    intro h0
    have h1 := maskBits_dropLowN k m
    rw [h0, maskBits_zero] at h1
    have h2 : ((maskBits m).drop k).length = 0 := by rw [← h1]; rfl
    simp only [List.length_drop] at h2
    omega
  rw [tzcnt64, if_neg hne]
  have h2 := maskBits_cons hne
  rw [maskBits_dropLowN k m] at h2
  have h3 : (maskBits m).drop k = (maskBits m)[k] :: (maskBits m).drop (k + 1) :=
    List.drop_eq_getElem_cons hkl
  rw [h3] at h2
  have h4 : tzc (dropLowN k m) = (maskBits m)[k] := (List.cons.injEq _ _ _ _ ▸ h2).1.symm
  rw [h4]
  exact (List.getD_eq_getElem _ _ hkl).symm

/-! ## Mask assembly arithmetic

The x4/x2 kernels assemble one wide mask from several `movemask` results
with `mask0 | (mask1 << 16) | ...`; these lemmas let us identify the
assembled word with `chunkMask` of the concatenated chunk. -/

theorem testBit_add_mul_two_pow {x : Nat} (n : Nat) (hx : x < 2 ^ n) (y i : Nat) :
    (x + y * 2 ^ n).testBit i = if i < n then x.testBit i else y.testBit (i - n) := by
  by_cases hi : i < n
  · rw [Nat.testBit_to_div_mod, Nat.testBit_to_div_mod, if_pos hi]
    have h1 : (2 : Nat) ^ n = 2 ^ i * 2 ^ (n - i) := by
      rw [← pow_add]
      congr 1
      omega
    have h2 : y * 2 ^ n = y * 2 ^ (n - i) * 2 ^ i := by rw [h1]; ring
    rw [h2, Nat.add_mul_div_right _ _ (Nat.pos_pow_of_pos i (by omega))]
    have h3 : y * 2 ^ (n - i) = y * 2 ^ (n - i - 1) * 2 := by
      have : (2 : Nat) ^ (n - i) = 2 ^ (n - i - 1) * 2 := by
        rw [← pow_succ]
        congr 1
        omega
      rw [this]; ring
    rw [h3, Nat.add_mul_mod_self_right]
  · rw [Nat.testBit_to_div_mod, Nat.testBit_to_div_mod, if_neg hi]
    have h1 : (2 : Nat) ^ i = 2 ^ n * 2 ^ (i - n) := by
      rw [← pow_add]
      congr 1
      omega
    have h2 : (x + y * 2 ^ n) / 2 ^ n = y := by
      rw [Nat.add_mul_div_right _ _ (Nat.pos_pow_of_pos n (by omega)),
        Nat.div_eq_of_lt hx, Nat.zero_add]
    rw [h1, ← Nat.div_div_eq_div_mul, h2, Nat.testBit_to_div_mod]

theorem lor_shiftLeft_eq_add {x y n : Nat} (hx : x < 2 ^ n) :
    x ||| (y <<< n) = x + y * 2 ^ n := by
  apply Nat.eq_of_testBit_eq
  intro i
  rw [Nat.testBit_or, Nat.testBit_shiftLeft, testBit_add_mul_two_pow n hx y i]
  by_cases hi : i < n
  · simp [hi, Nat.not_le.mpr hi]
  · have hxf : x.testBit i = false :=
      Nat.testBit_lt_two_pow (lt_of_lt_of_le hx (Nat.pow_le_pow_right (by omega) (by omega)))
    simp [hi, hxf, Nat.le_of_not_lt hi]

theorem chunkMask_append (a b : Bytes) :
    chunkMask (a ++ b) = chunkMask a + 2 ^ a.length * chunkMask b := by
  induction a with
  | nil => simp [chunkMask]
  | cons x xs ih =>
    have hc : (x :: xs) ++ b = x :: (xs ++ b) := rfl
    rw [hc, chunkMask, chunkMask, ih, List.length_cons, pow_succ]
    ring

theorem sub_append (l : Bytes) (off m n : Nat) :
    sub l off (m + n) = sub l off m ++ sub l (off + m) n := by
  simp only [sub, List.take_add, List.drop_drop]
  try rw [Nat.add_comm m off]

theorem sub_length (l : Bytes) (off n : Nat) :
    (sub l off n).length = min n (l.length - off) := by
  simp [sub]

theorem sub_zero_length (l : Bytes) : sub l 0 l.length = l := by
  simp [sub]

theorem chunkMask_sub_lt (l : Bytes) (off n : Nat) :
    chunkMask (sub l off n) < 2 ^ n := by
  have h1 := chunkMask_lt (sub l off n)
  have h2 : (sub l off n).length ≤ n := by
    rw [sub_length]
    omega
  exact lt_of_lt_of_le h1 (Nat.pow_le_pow_right (by omega) h2)

/-! ## Emission framework

All kernels walk chunks, extract set bits of a per-chunk mask in
increasing order, and emit one output element per bit, threading a small
state (the slice family threads `line_start`; the compressed family has no
state).  `emitSeq`/`emitChunks` is the common reference semantics;
`maskLoopP`/`chunkLoopP` model the while-loops of the non-unrolled
kernels. -/

def emitSeq (emit : σ → Nat → α × σ) : σ → List Nat → List α × σ
  | st, [] => ([], st)
  | st, p :: ps =>
    ((emit st p).1 :: (emitSeq emit (emit st p).2 ps).1, (emitSeq emit (emit st p).2 ps).2)

/-- Reference semantics of the chunk loop over chunks `[chunk_i, stop)`. -/
def emitChunks (maskAt : Nat → Nat) (emitAt : Nat → σ → Nat → α × σ)
    (chunk_i stop : Nat) (st : σ) : List α × σ :=
  if chunk_i < stop then
    ((emitSeq (emitAt chunk_i) st (maskBits (maskAt chunk_i))).1 ++
        (emitChunks maskAt emitAt (chunk_i + 1) stop
          (emitSeq (emitAt chunk_i) st (maskBits (maskAt chunk_i))).2).1,
      (emitChunks maskAt emitAt (chunk_i + 1) stop
        (emitSeq (emitAt chunk_i) st (maskBits (maskAt chunk_i))).2).2)
  else ([], st)
termination_by stop - chunk_i

theorem emitChunks_stop (maskAt : Nat → Nat) (emitAt : Nat → σ → Nat → α × σ)
    (chunk_i stop : Nat) (h : ¬ chunk_i < stop) (st : σ) :
    emitChunks maskAt emitAt chunk_i stop st = ([], st) := by
  conv_lhs => rw [emitChunks]
  rw [if_neg h]

theorem emitChunks_step (maskAt : Nat → Nat) (emitAt : Nat → σ → Nat → α × σ)
    (chunk_i stop : Nat) (h : chunk_i < stop) (st : σ) :
    emitChunks maskAt emitAt chunk_i stop st =
      ((emitSeq (emitAt chunk_i) st (maskBits (maskAt chunk_i))).1 ++
          (emitChunks maskAt emitAt (chunk_i + 1) stop
            (emitSeq (emitAt chunk_i) st (maskBits (maskAt chunk_i))).2).1,
        (emitChunks maskAt emitAt (chunk_i + 1) stop
          (emitSeq (emitAt chunk_i) st (maskBits (maskAt chunk_i))).2).2) := by
  conv_lhs => rw [emitChunks]
  rw [if_pos h]

theorem emitChunks_split (maskAt : Nat → Nat) (emitAt : Nat → σ → Nat → α × σ)
    (chunk_i mid stop : Nat) (h1 : chunk_i ≤ mid) (h2 : mid ≤ stop) (st : σ) :
    emitChunks maskAt emitAt chunk_i stop st =
      ((emitChunks maskAt emitAt chunk_i mid st).1 ++
          (emitChunks maskAt emitAt mid stop (emitChunks maskAt emitAt chunk_i mid st).2).1,
        (emitChunks maskAt emitAt mid stop (emitChunks maskAt emitAt chunk_i mid st).2).2) := by
  have H : ∀ (n chunk_i : Nat) (st : σ), chunk_i ≤ mid → mid - chunk_i ≤ n →
      emitChunks maskAt emitAt chunk_i stop st =
        ((emitChunks maskAt emitAt chunk_i mid st).1 ++
            (emitChunks maskAt emitAt mid stop (emitChunks maskAt emitAt chunk_i mid st).2).1,
          (emitChunks maskAt emitAt mid stop (emitChunks maskAt emitAt chunk_i mid st).2).2) := by
    intro n
    induction n with
    | zero =>
      intro ci st hle hn
      have heq : ci = mid := by omega
      subst heq
      rw [emitChunks_stop maskAt emitAt ci ci (by omega) st]
      simp
    | succ k ihn =>
      intro ci st hle hn
      by_cases hlt : ci < mid
      · rw [emitChunks_step maskAt emitAt ci stop (lt_of_lt_of_le hlt h2) st,
          emitChunks_step maskAt emitAt ci mid hlt st,
          ihn (ci + 1) _ (by omega) (by omega)]
        simp
      · have heq : ci = mid := by omega
        subst heq
        rw [emitChunks_stop maskAt emitAt ci ci (by omega) st]
        simp
  exact H (mid - chunk_i) chunk_i st h1 le_rfl

def maskLoopP (emit : σ → Nat → α × σ) (mask : Nat) (st : σ) (out : List α) : List α × σ :=
  if mask = 0 then (out, st)
  else
    maskLoopP emit (mask &&& (mask - 1)) (emit st (tzc mask)).2 (out ++ [(emit st (tzc mask)).1])
termination_by mask
decreasing_by
  exact Nat.lt_of_le_of_lt Nat.and_le_right
    (Nat.sub_lt (Nat.pos_of_ne_zero (by assumption)) Nat.one_pos)

theorem maskLoopP_spec (emit : σ → Nat → α × σ) (mask : Nat) (st : σ) (out : List α) :
    maskLoopP emit mask st out =
      (out ++ (emitSeq emit st (maskBits mask)).1, (emitSeq emit st (maskBits mask)).2) := by
  induction mask using Nat.strong_induction_on generalizing st out with
  | _ mask ih =>
    by_cases h : mask = 0
    · subst h
      conv_lhs => rw [maskLoopP]
      rw [maskBits_zero]
      simp [emitSeq]
    · conv_lhs => rw [maskLoopP]
      rw [if_neg h,
        ih (mask &&& (mask - 1))
          (Nat.lt_of_le_of_lt Nat.and_le_right (Nat.sub_lt (Nat.pos_of_ne_zero h) Nat.one_pos)) _ _,
        maskBits_cons h]
      simp [emitSeq]

def chunkLoopP (maskAt : Nat → Nat) (emitAt : Nat → σ → Nat → α × σ)
    (chunk_i stop : Nat) (st : σ) (out : List α) : List α × σ :=
  if chunk_i < stop then
    chunkLoopP maskAt emitAt (chunk_i + 1) stop
      (maskLoopP (emitAt chunk_i) (maskAt chunk_i) st out).2
      (maskLoopP (emitAt chunk_i) (maskAt chunk_i) st out).1
  else (out, st)
termination_by stop - chunk_i

theorem chunkLoopP_spec (maskAt : Nat → Nat) (emitAt : Nat → σ → Nat → α × σ)
    (chunk_i stop : Nat) (st : σ) (out : List α) :
    chunkLoopP maskAt emitAt chunk_i stop st out =
      (out ++ (emitChunks maskAt emitAt chunk_i stop st).1,
        (emitChunks maskAt emitAt chunk_i stop st).2) := by
  have H : ∀ (n chunk_i : Nat) (st : σ) (out : List α), stop - chunk_i ≤ n →
      chunkLoopP maskAt emitAt chunk_i stop st out =
        (out ++ (emitChunks maskAt emitAt chunk_i stop st).1,
          (emitChunks maskAt emitAt chunk_i stop st).2) := by
    intro n
    induction n with
    | zero =>
      intro ci st out hn
      have h : ¬ ci < stop := by omega
      conv_lhs => rw [chunkLoopP]
      rw [if_neg h, emitChunks_stop maskAt emitAt ci stop h]
      simp
    | succ k ihn =>
      intro ci st out hn
      by_cases h : ci < stop
      · conv_lhs => rw [chunkLoopP]
        rw [if_pos h, maskLoopP_spec, emitChunks_step maskAt emitAt ci stop h,
          ihn (ci + 1) _ _ (by omega)]
        simp
      · conv_lhs => rw [chunkLoopP]
        rw [if_neg h, emitChunks_stop maskAt emitAt ci stop h]
        simp
  exact H (stop - chunk_i) chunk_i st out le_rfl

theorem emitSeq_append (emit : σ → Nat → α × σ) (st : σ) (l1 l2 : List Nat) :
    emitSeq emit st (l1 ++ l2) =
      ((emitSeq emit st l1).1 ++ (emitSeq emit (emitSeq emit st l1).2 l2).1,
        (emitSeq emit (emitSeq emit st l1).2 l2).2) := by
  induction l1 generalizing st with
  | nil => simp [emitSeq]
  | cons p ps ih => simp [emitSeq, ih]

theorem emitChunks_congr (maskAt maskAt' : Nat → Nat) (emitAt : Nat → σ → Nat → α × σ)
    (chunk_i stop : Nat) (st : σ)
    (h : ∀ ci, chunk_i ≤ ci → ci < stop → maskAt ci = maskAt' ci) :
    emitChunks maskAt emitAt chunk_i stop st = emitChunks maskAt' emitAt chunk_i stop st := by
  have H : ∀ (n ci : Nat) (st : σ), stop - ci ≤ n → chunk_i ≤ ci →
      emitChunks maskAt emitAt ci stop st = emitChunks maskAt' emitAt ci stop st := by
    intro n
    induction n with
    | zero =>
      intro ci st hn hge
      rw [emitChunks_stop maskAt emitAt ci stop (by omega) st,
        emitChunks_stop maskAt' emitAt ci stop (by omega) st]
    | succ k ihn =>
      intro ci st hn hge
      by_cases hlt : ci < stop
      · rw [emitChunks_step maskAt emitAt ci stop hlt st,
          emitChunks_step maskAt' emitAt ci stop hlt st,
          h ci hge hlt, ihn (ci + 1) _ (by omega) (by omega)]
      · rw [emitChunks_stop maskAt emitAt ci stop hlt st,
          emitChunks_stop maskAt' emitAt ci stop hlt st]
  exact H (stop - chunk_i) chunk_i st le_rfl le_rfl

/-! ## Ranges of newline positions -/

theorem sub_cons (l : Bytes) (i n : Nat) (h : i < l.length) :
    sub l i (n + 1) = l[i] :: sub l (i + 1) n := by
  simp only [sub]
  rw [List.drop_eq_getElem_cons h, List.take_succ_cons]

/-- Absolute newline positions within `[lo, hi)`. -/
def nlPosRange (l : Bytes) (lo hi : Nat) : List Nat :=
  (nlPos (sub l lo (hi - lo))).map (· + lo)

theorem nlPosRange_whole (l : Bytes) : nlPosRange l 0 l.length = nlPos l := by
  simp only [nlPosRange, Nat.sub_zero, sub_zero_length]
  rw [List.map_congr_left fun a _ => Nat.add_zero a]
  exact List.map_id _

theorem nlPosRange_empty (l : Bytes) (lo hi : Nat) (h : hi ≤ lo) :
    nlPosRange l lo hi = [] := by
  simp [nlPosRange, Nat.sub_eq_zero_of_le h, sub, nlPos]

theorem nlPosRange_concat (l : Bytes) (lo mid hi : Nat)
    (h1 : lo ≤ mid) (h2 : mid ≤ hi) (h3 : mid ≤ l.length) :
    nlPosRange l lo hi = nlPosRange l lo mid ++ nlPosRange l mid hi := by
  have hsplit : hi - lo = (mid - lo) + (hi - mid) := by omega
  rw [nlPosRange, hsplit, sub_append, nlPos_append]
  have hlo : lo + (mid - lo) = mid := by omega
  rw [hlo]
  have hlen : (sub l lo (mid - lo)).length = mid - lo := by
    rw [sub_length]
    omega
  rw [hlen]
  simp only [nlPosRange, List.map_append, List.map_map]
  congr 1
  apply List.map_congr_left
  intro a _
  simp only [Function.comp]
  omega

theorem nlPosRange_cons (l : Bytes) (i hi : Nat) (h : i < l.length) (hlt : i < hi) :
    nlPosRange l i hi = (if l[i] = 10 then [i] else []) ++ nlPosRange l (i + 1) hi := by
  have hsplit : hi - i = (hi - (i + 1)) + 1 := by omega
  rw [nlPosRange, hsplit, sub_cons l i _ h, nlPos]
  simp only [List.map_append, List.map_map, nlPosRange]
  congr 1
  · by_cases hb : l[i] = 10 <;> simp [hb]
  · apply List.map_congr_left
    intro a _
    simp only [Function.comp]
    omega

theorem nlPosRange_chunk (l : Bytes) (W ci : Nat) :
    nlPosRange l (ci * W) (ci * W + W) = (nlPos (sub l (ci * W) W)).map (· + ci * W) := by
  simp [nlPosRange]

/-! ## Wide-mask assembly (x4 / x2 variants) -/

/-- `mask0 | (mask1 << 16) | (mask2 << 32) | (mask3 << 48)` from four 16-byte
`movemask` results, as in `sse2_unrollx4` / the SSE4.2 interleaved kernel. -/
def mask64x16 (l : Bytes) (base : Nat) : Nat :=
  chunkMask (sub l base 16) |||
    (chunkMask (sub l (base + 16) 16) <<< 16) |||
    (chunkMask (sub l (base + 32) 16) <<< 32) |||
    (chunkMask (sub l (base + 48) 16) <<< 48)

/-- `((movemask v2) << 32) | movemask v1` from two 32-byte `movemask` results,
as in `avx2_unrollx2` / the AVX2 interleaved kernel. -/
def mask64x32 (l : Bytes) (base : Nat) : Nat :=
  (chunkMask (sub l (base + 32) 32) <<< 32) ||| chunkMask (sub l base 32)

theorem sub_length_eq (l : Bytes) (off n : Nat) (h : off + n ≤ l.length) :
    (sub l off n).length = n := by
  rw [sub_length]
  omega

theorem mask64x16_eq (l : Bytes) (base : Nat) (h : base + 64 ≤ l.length) :
    mask64x16 l base = chunkMask (sub l base 64) := by
  have c0lt := chunkMask_sub_lt l base 16
  have c1lt := chunkMask_sub_lt l (base + 16) 16
  have c2lt := chunkMask_sub_lt l (base + 32) 16
  norm_num at c0lt c1lt c2lt
  have hdec : sub l base 64 =
      sub l base 16 ++ (sub l (base + 16) 16 ++ (sub l (base + 32) 16 ++ sub l (base + 48) 16)) := by
    have h1 : sub l base 64 = sub l base 16 ++ sub l (base + 16) 48 := by
      rw [show (64 : Nat) = 16 + 48 by norm_num, sub_append]
    have h2 : sub l (base + 16) 48 = sub l (base + 16) 16 ++ sub l (base + 32) 32 := by
      rw [show (48 : Nat) = 16 + 32 by norm_num, sub_append]
    have h3 : sub l (base + 32) 32 = sub l (base + 32) 16 ++ sub l (base + 48) 16 := by
      rw [show (32 : Nat) = 16 + 16 by norm_num, sub_append]
    rw [h1, h2, h3]
  have hl0 : (sub l base 16).length = 16 := sub_length_eq l base 16 (by omega)
  have hl1 : (sub l (base + 16) 16).length = 16 := sub_length_eq l (base + 16) 16 (by omega)
  have hl2 : (sub l (base + 32) 16).length = 16 := sub_length_eq l (base + 32) 16 (by omega)
  have hrhs : chunkMask (sub l base 64) =
      chunkMask (sub l base 16) + 2 ^ 16 * (chunkMask (sub l (base + 16) 16) +
        2 ^ 16 * (chunkMask (sub l (base + 32) 16) + 2 ^ 16 * chunkMask (sub l (base + 48) 16))) := by
    rw [hdec, chunkMask_append, chunkMask_append, chunkMask_append, hl0, hl1, hl2]
  have b1 : chunkMask (sub l base 16) < 2 ^ 16 := by norm_num; omega
  have e1 := lor_shiftLeft_eq_add b1 (y := chunkMask (sub l (base + 16) 16)) (n := 16)
  have b2 : chunkMask (sub l base 16) + chunkMask (sub l (base + 16) 16) * 2 ^ 16 < 2 ^ 32 := by
    norm_num
    omega
  have e2 := lor_shiftLeft_eq_add b2 (y := chunkMask (sub l (base + 32) 16)) (n := 32)
  have b3 : chunkMask (sub l base 16) + chunkMask (sub l (base + 16) 16) * 2 ^ 16 +
      chunkMask (sub l (base + 32) 16) * 2 ^ 32 < 2 ^ 48 := by
    norm_num
    omega
  have e3 := lor_shiftLeft_eq_add b3 (y := chunkMask (sub l (base + 48) 16)) (n := 48)
  rw [mask64x16, e1, e2, e3, hrhs]
  norm_num
  ring

theorem mask64x32_eq (l : Bytes) (base : Nat) (h : base + 64 ≤ l.length) :
    mask64x32 l base = chunkMask (sub l base 64) := by
  have p32 : (2 : Nat) ^ 32 = 4294967296 := by norm_num
  have c0lt := chunkMask_sub_lt l base 32
  have hdec : sub l base 64 = sub l base 32 ++ sub l (base + 32) 32 := by
    have : (64 : Nat) = 32 + 32 := by norm_num
    rw [this, sub_append]
  have hl0 : (sub l base 32).length = 32 := sub_length_eq l base 32 (by omega)
  rw [mask64x32, Nat.lor_comm, lor_shiftLeft_eq_add c0lt, hdec, chunkMask_append, hl0]
  ring

/-! ## Slice family -/

namespace slice

/-- The view `&input[a .. b]`, modelled by its byte content. -/
def view (input : Bytes) (a b : Nat) : Bytes := sub input a (b - a)

/-- One emission step of a slice kernel at chunk `ci` of width `W`:
`line_end = ci * W + bit_pos; out.push(&input[line_start..line_end]);
line_start = line_end + 1`. -/
def emitView (input : Bytes) (W ci line_start bit_pos : Nat) : Bytes × Nat :=
  (view input line_start (ci * W + bit_pos), ci * W + bit_pos + 1)

/-- Emission of one view per absolute newline position. -/
def emitAllViews (input : Bytes) (ls : Nat) (ps : List Nat) : List Bytes × Nat :=
  emitSeq (fun ls p => (view input ls p, p + 1)) ls ps

/-- The byte loop of `slice::x86_64::tail` over `[i, input.len())`. -/
def tailLoop (input : Bytes) (i line_start : Nat) (out : List Bytes) : List Bytes × Nat :=
  if h : i < input.length then
    if input[i] = 10 then
      tailLoop input (i + 1) (i + 1) (out ++ [view input line_start i])
    else
      tailLoop input (i + 1) line_start out
  else (out, line_start)
termination_by input.length - i

/-- `slice::x86_64::tail`: scalar pass over the final partial chunk
(`input.len() & !(chunk_size - 1)` equals `len / W * W` for the power-of-two
chunk sizes in use), then the final residual line if non-empty. -/
def tail (line_start chunk_size : Nat) (input : Bytes) (out : List Bytes) : List Bytes :=
  let r := tailLoop input (input.length / chunk_size * chunk_size) line_start out
  if r.2 ≠ input.length then r.1 ++ [view input r.2 input.length] else r.1

/-- Reference splitter: one view per newline, plus the final non-empty
residual.  Every x86 slice kernel is proved to append exactly this list. -/
def refSplit (input : Bytes) : List Bytes :=
  let r := emitAllViews input 0 (nlPos input)
  if r.2 ≠ input.length then r.1 ++ [view input r.2 input.length] else r.1

theorem emitSeq_emitView (input : Bytes) (W ci : Nat) (ls : Nat) (bits : List Nat) :
    emitSeq (emitView input W ci) ls bits =
      emitAllViews input ls (bits.map (· + ci * W)) := by
  induction bits generalizing ls with
  | nil => simp [emitSeq, emitAllViews]
  | cons b bs ih =>
    have hc : b + ci * W = ci * W + b := Nat.add_comm b (ci * W)
    simp only [emitSeq, emitAllViews, emitView, List.map_cons, hc] at ih ⊢
    rw [ih]

theorem emitAllViews_nil (input : Bytes) (ls : Nat) :
    emitAllViews input ls [] = ([], ls) := by
  simp [emitAllViews, emitSeq]

theorem emitAllViews_cons (input : Bytes) (ls p : Nat) (ps : List Nat) :
    emitAllViews input ls (p :: ps) =
      (view input ls p :: (emitAllViews input (p + 1) ps).1,
        (emitAllViews input (p + 1) ps).2) := by
  simp [emitAllViews, emitSeq]

theorem emitAllViews_append (input : Bytes) (ls : Nat) (l1 l2 : List Nat) :
    emitAllViews input ls (l1 ++ l2) =
      ((emitAllViews input ls l1).1 ++
          (emitAllViews input (emitAllViews input ls l1).2 l2).1,
        (emitAllViews input (emitAllViews input ls l1).2 l2).2) :=
  emitSeq_append _ ls l1 l2

theorem emitChunks_views (input : Bytes) (W : Nat) (a b ls : Nat)
    (hb : b * W ≤ input.length) :
    emitChunks (fun ci => chunkMask (sub input (ci * W) W)) (emitView input W) a b ls =
      emitAllViews input ls (nlPosRange input (a * W) (b * W)) := by
  have H : ∀ (n a : Nat) (ls : Nat), b - a ≤ n →
      emitChunks (fun ci => chunkMask (sub input (ci * W) W)) (emitView input W) a b ls =
        emitAllViews input ls (nlPosRange input (a * W) (b * W)) := by
    intro n
    induction n with
    | zero =>
      intro a ls hn
      rw [emitChunks_stop _ _ a b (by omega) ls,
        nlPosRange_empty input (a * W) (b * W) (Nat.mul_le_mul_right W (by omega)),
        emitAllViews_nil]
    | succ k ihn =>
      intro a ls hn
      by_cases hlt : a < b
      · rw [emitChunks_step _ _ a b hlt ls]
        have hmid : a * W + W = (a + 1) * W := (Nat.succ_mul a W).symm
        have hchunk : (nlPos (sub input (a * W) W)).map (· + a * W) =
            nlPosRange input (a * W) ((a + 1) * W) := by
          rw [← hmid]
          exact (nlPosRange_chunk input W a).symm
        have hconcat : nlPosRange input (a * W) (b * W) =
            nlPosRange input (a * W) ((a + 1) * W) ++ nlPosRange input ((a + 1) * W) (b * W) := by
          apply nlPosRange_concat
          · omega
          · exact Nat.mul_le_mul_right W (by omega)
          · exact le_trans (Nat.mul_le_mul_right W (by omega)) hb
        rw [maskBits_chunkMask, emitSeq_emitView, ihn (a + 1) _ (by omega), hchunk, hconcat,
          emitAllViews_append]
      · rw [emitChunks_stop _ _ a b hlt ls,
          nlPosRange_empty input (a * W) (b * W) (Nat.mul_le_mul_right W (by omega)),
          emitAllViews_nil]
  exact H (b - a) a ls le_rfl

theorem tailLoop_spec (input : Bytes) (i ls : Nat) (out : List Bytes) (hi : i ≤ input.length) :
    tailLoop input i ls out =
      (out ++ (emitAllViews input ls (nlPosRange input i input.length)).1,
        (emitAllViews input ls (nlPosRange input i input.length)).2) := by
  have H : ∀ (n i ls : Nat) (out : List Bytes), input.length - i ≤ n → i ≤ input.length →
      tailLoop input i ls out =
        (out ++ (emitAllViews input ls (nlPosRange input i input.length)).1,
          (emitAllViews input ls (nlPosRange input i input.length)).2) := by
    intro n
    induction n with
    | zero =>
      intro i ls out hn hle
      have h : ¬ i < input.length := by omega
      conv_lhs => rw [tailLoop]
      rw [dif_neg h, nlPosRange_empty input i input.length (by omega), emitAllViews_nil]
      simp
    | succ k ihn =>
      intro i ls out hn hle
      by_cases h : i < input.length
      · conv_lhs => rw [tailLoop]
        rw [dif_pos h, nlPosRange_cons input i input.length h h]
        by_cases hb : input[i] = 10
        · simp only [if_pos hb]
          rw [ihn (i + 1) (i + 1) _ (by omega) (by omega), List.singleton_append,
            emitAllViews_cons]
          simp
        · simp only [if_neg hb]
          rw [ihn (i + 1) ls _ (by omega) (by omega), List.nil_append]
      · conv_lhs => rw [tailLoop]
        rw [dif_neg h, nlPosRange_empty input i input.length (by omega), emitAllViews_nil]
        simp
  exact H (input.length - i) i ls out le_rfl hi

/-- After the vector portion has emitted views for chunks `[0, len / W)`,
the shared `tail` finishes the job: the result appends exactly
`refSplit input`. -/
theorem tail_after_chunks (input : Bytes) (W : Nat) (out : List Bytes) :
    tail (emitChunks (fun ci => chunkMask (sub input (ci * W) W)) (emitView input W)
        0 (input.length / W) 0).2 W input
      (out ++ (emitChunks (fun ci => chunkMask (sub input (ci * W) W)) (emitView input W)
        0 (input.length / W) 0).1) =
      out ++ refSplit input := by
  rw [emitChunks_views input W 0 (input.length / W) 0 (Nat.div_mul_le_self input.length W)]
  simp only [tail, refSplit, Nat.zero_mul]
  rw [tailLoop_spec input (input.length / W * W) _ _ (Nat.div_mul_le_self input.length W)]
  have hconcat : nlPos input =
      nlPosRange input 0 (input.length / W * W) ++
        nlPosRange input (input.length / W * W) input.length := by
    rw [← nlPosRange_whole input]
    exact nlPosRange_concat input 0 (input.length / W * W) input.length (by omega)
      (Nat.div_mul_le_self input.length W) (Nat.div_mul_le_self input.length W)
  rw [hconcat, emitAllViews_append]
  by_cases hfin : (emitAllViews input
      (emitAllViews input 0 (nlPosRange input 0 (input.length / W * W))).2
      (nlPosRange input (input.length / W * W) input.length)).2 = input.length
  · simp [hfin]
  · simp [hfin]

/-- Any kernel of the shape "chunk loop with per-chunk newline masks, then the
shared `tail`" appends exactly `refSplit input`. -/
theorem chunkScan_tail_eq (input : Bytes) (W : Nat) (out : List Bytes)
    (maskAt : Nat → Nat)
    (hmask : ∀ ci, ci < input.length / W → maskAt ci = chunkMask (sub input (ci * W) W)) :
    tail (chunkLoopP maskAt (emitView input W) 0 (input.length / W) 0 out).2 W input
      (chunkLoopP maskAt (emitView input W) 0 (input.length / W) 0 out).1 =
      out ++ refSplit input := by
  rw [chunkLoopP_spec]
  rw [emitChunks_congr maskAt (fun ci => chunkMask (sub input (ci * W) W)) (emitView input W)
    0 (input.length / W) 0 (fun ci _ hci => hmask ci hci)]
  exact tail_after_chunks input W out

/-! ### The non-unrolled slice kernels -/

/-- `slice::x86_64::sse2`: 16-byte chunks via `chunks_exact(16)`, then `tail`. -/
def sse2 (input : Bytes) (out : List Bytes) : List Bytes :=
  let r := chunkLoopP (fun chunk_i => chunkMask (sub input (chunk_i * 16) 16))
    (emitView input 16) 0 (input.length / 16) 0 out
  tail r.2 16 input r.1

/-- `slice::x86_64::sse2_unsafe` (renamed: Lean reserves the word).  Its body
differs from `sse2` only in using unchecked slicing for the emitted views,
which agrees with checked slicing because every emitted range is in bounds. -/
def sse2_unchecked (input : Bytes) (out : List Bytes) : List Bytes := sse2 input out

/-- `slice::x86_64::avx2`: 32-byte chunks, then `tail`. -/
def avx2 (input : Bytes) (out : List Bytes) : List Bytes :=
  let r := chunkLoopP (fun chunk_i => chunkMask (sub input (chunk_i * 32) 32))
    (emitView input 32) 0 (input.length / 32) 0 out
  tail r.2 32 input r.1

/-- `slice::x86_64::avx2_unsafe` (renamed: Lean reserves the word); same body
as `avx2` up to unchecked slicing. -/
def avx2_unchecked (input : Bytes) (out : List Bytes) : List Bytes := avx2 input out

theorem sse2_eq (input : Bytes) (out : List Bytes) :
    sse2 input out = out ++ refSplit input := by
  simp only [sse2]
  exact chunkScan_tail_eq input 16 out _ (fun ci _ => rfl)

theorem avx2_eq (input : Bytes) (out : List Bytes) :
    avx2 input out = out ++ refSplit input := by
  simp only [avx2]
  exact chunkScan_tail_eq input 32 out _ (fun ci _ => rfl)

end slice

/-! ## Reservation-window (unroll) framework

The unrolled kernels `reserve` a fixed window of spare capacity, write into
it by raw index without growing the container, and finally `set_len` to
commit the written prefix.  The window is a `List (Option α)` whose `none`
entries are uninitialized slots; a raw store out of the window and a commit
over an unwritten slot both yield `none` (modelling the undefined behaviour
the kernels must avoid). -/

/-- Reservation size used by every non-interleaved unrolled kernel:
`out.reserve(256)` / `spare_capacity_mut().get_unchecked_mut(..256)`. -/
def unrollR : Nat := 256

/-- A reservation window of spare capacity; `none` = uninitialized slot. -/
abbrev Scratch (α : Type) := List (Option α)

/-- A raw indexed store `out_arr.get_unchecked_mut(i).write v`. -/
def writeSlot (arr : Scratch α) (i : Nat) (v : α) : Option (Scratch α) :=
  if i < arr.length then some (arr.set i (some v)) else none

/-- `set_len(len + write_i)`: the first `write_i` reserved slots become
readable elements; fails if any of them was never written. -/
def commit (arr : Scratch α) (write_i : Nat) : Option (List α) :=
  if write_i ≤ arr.length then (arr.take write_i).mapM id else none

/-- Innermost bit loop of the unrolled kernels, writing into the window. -/
def maskLoopU (emit : σ → Nat → α × σ) (mask : Nat) (st : σ) (write_i : Nat)
    (arr : Scratch α) : Option (Scratch α × Nat × σ) :=
  if mask = 0 then some (arr, write_i, st)
  else
    match writeSlot arr write_i (emit st (tzc mask)).1 with
    | none => none
    | some arr' =>
      maskLoopU emit (mask &&& (mask - 1)) (emit st (tzc mask)).2 (write_i + 1) arr'
termination_by mask
decreasing_by
  exact Nat.lt_of_le_of_lt Nat.and_le_right
    (Nat.sub_lt (Nat.pos_of_ne_zero (by assumption)) Nat.one_pos)

/-- The guarded inner chunk loop: `while guard write_i && chunk_i < stop`. -/
def innerLoopU (guard : Nat → Bool) (maskAt : Nat → Nat) (emitAt : Nat → σ → Nat → α × σ)
    (chunk_i stop : Nat) (st : σ) (write_i : Nat) (arr : Scratch α) :
    Option (Scratch α × Nat × Nat × σ) :=
  if h : guard write_i = true ∧ chunk_i < stop then
    match maskLoopU (emitAt chunk_i) (maskAt chunk_i) st write_i arr with
    | none => none
    | some (arr', wi', st') => innerLoopU guard maskAt emitAt (chunk_i + 1) stop st' wi' arr'
  else some (arr, write_i, chunk_i, st)
termination_by stop - chunk_i
decreasing_by exact Nat.sub_lt_sub_left h.2 (Nat.lt_succ_self chunk_i)

theorem innerLoopU_ci_le (guard : Nat → Bool) (maskAt : Nat → Nat)
    (emitAt : Nat → σ → Nat → α × σ) (chunk_i stop : Nat) (st : σ) (write_i : Nat)
    (arr : Scratch α) (arr' : Scratch α) (wi' ci' : Nat) (st' : σ)
    (h : innerLoopU guard maskAt emitAt chunk_i stop st write_i arr =
      some (arr', wi', ci', st')) :
    chunk_i ≤ ci' := by
  have H : ∀ (n chunk_i : Nat) (st : σ) (write_i : Nat) (arr : Scratch α)
      (arr' : Scratch α) (wi' ci' : Nat) (st' : σ), stop - chunk_i ≤ n →
      innerLoopU guard maskAt emitAt chunk_i stop st write_i arr =
        some (arr', wi', ci', st') → chunk_i ≤ ci' := by
    intro n
    induction n with
    | zero =>
      intro ci st wi arr arr' wi' ci' st' hn h
      rw [innerLoopU] at h
      have hcond : ¬ (guard wi = true ∧ ci < stop) := by
        intro hc
        omega
      rw [dif_neg hcond] at h
      cases h
      omega
    | succ k ihn =>
      intro ci st wi arr arr' wi' ci' st' hn h
      rw [innerLoopU] at h
      by_cases hcond : guard wi = true ∧ ci < stop
      · rw [dif_pos hcond] at h
        cases hres : maskLoopU (emitAt ci) (maskAt ci) st wi arr with
        | none => rw [hres] at h; cases h
        | some r =>
          rw [hres] at h
          have := ihn (ci + 1) r.2.2 r.2.1 r.1 arr' wi' ci' st' (by omega) h
          omega
      · rw [dif_neg hcond] at h
        cases h
        omega
  exact H (stop - chunk_i) chunk_i st write_i arr arr' wi' ci' st' le_rfl h

theorem innerLoopU_progress (guard : Nat → Bool) (maskAt : Nat → Nat)
    (emitAt : Nat → σ → Nat → α × σ) (chunk_i stop : Nat) (st : σ)
    (arr : Scratch α) (arr' : Scratch α) (wi' ci' : Nat) (st' : σ)
    (hg : guard 0 = true) (hlt : chunk_i < stop)
    (h : innerLoopU guard maskAt emitAt chunk_i stop st 0 arr =
      some (arr', wi', ci', st')) :
    chunk_i < ci' := by
  rw [innerLoopU, dif_pos ⟨hg, hlt⟩] at h
  cases hres : maskLoopU (emitAt chunk_i) (maskAt chunk_i) st 0 arr with
  | none => rw [hres] at h; cases h
  | some r =>
    rw [hres] at h
    have := innerLoopU_ci_le guard maskAt emitAt (chunk_i + 1) stop r.2.2 r.2.1 r.1
      arr' wi' ci' st' h
    omega

/-- The outer loop: reserve `R` window slots, run the guarded inner loop,
commit the written prefix; `reserves` records each reservation size. -/
def outerLoopU (R : Nat) (guard : Nat → Bool) (hg : guard 0 = true)
    (maskAt : Nat → Nat) (emitAt : Nat → σ → Nat → α × σ)
    (chunk_i stop : Nat) (st : σ) (out : List α) (reserves : List Nat) :
    Option (List α × σ × List Nat) :=
  if hlt : chunk_i < stop then
    match hin : innerLoopU guard maskAt emitAt chunk_i stop st 0 (List.replicate R none) with
    | none => none
    | some (arr', wi', ci', st') =>
      match commit arr' wi' with
      | none => none
      | some items =>
        outerLoopU R guard hg maskAt emitAt ci' stop st' (out ++ items) (reserves ++ [R])
  else some (out, st, reserves)
termination_by stop - chunk_i
decreasing_by
  have := innerLoopU_progress guard maskAt emitAt chunk_i stop st
    (List.replicate R none) arr' wi' ci' st' hg hlt hin
  omega

theorem take_succ_set (l : List β) (i : Nat) (a : β) (h : i < l.length) :
    (l.set i a).take (i + 1) = l.take i ++ [a] := by
  induction l generalizing i with
  | nil => simp at h
  | cons x xs ih =>
    cases i with
    | zero => simp
    | succ j =>
      have hj : j < xs.length := by simpa using h
      simp [List.take_succ_cons, ih j hj]

theorem mapM_id_map_some (l : List β) : (l.map some).mapM id = some l := by
  induction l with
  | nil => rfl
  | cons x xs ih =>
    rw [List.map_cons, List.mapM_cons, ih]
    rfl

theorem emitSeq_length (emit : σ → Nat → α × σ) (st : σ) (ps : List Nat) :
    (emitSeq emit st ps).1.length = ps.length := by
  induction ps generalizing st with
  | nil => simp [emitSeq]
  | cons p ps ih => simp [emitSeq, ih]

theorem commit_of_prefix (arr : Scratch β) (wi : Nat) (vals : List β)
    (hwi : wi ≤ arr.length) (htake : arr.take wi = vals.map some) :
    commit arr wi = some vals := by
  rw [commit, if_pos hwi, htake, mapM_id_map_some]

theorem emitChunks_single (maskAt : Nat → Nat) (emitAt : Nat → σ → Nat → α × σ)
    (ci : Nat) (st : σ) :
    emitChunks maskAt emitAt ci (ci + 1) st = emitSeq (emitAt ci) st (maskBits (maskAt ci)) := by
  rw [emitChunks_step maskAt emitAt ci (ci + 1) (Nat.lt_succ_self ci) st,
    emitChunks_stop maskAt emitAt (ci + 1) (ci + 1) (lt_irrefl _) _]
  simp

theorem maskLoopU_spec (emit : σ → Nat → α × σ) (mask : Nat) (st : σ) (wi : Nat)
    (arr : Scratch α) (done : List α)
    (hpre : arr.take wi = done.map some)
    (hroom : wi + (maskBits mask).length ≤ arr.length) :
    ∃ arr', maskLoopU emit mask st wi arr =
        some (arr', wi + (maskBits mask).length, (emitSeq emit st (maskBits mask)).2) ∧
      arr'.length = arr.length ∧
      arr'.take (wi + (maskBits mask).length) =
        (done ++ (emitSeq emit st (maskBits mask)).1).map some := by
  induction mask using Nat.strong_induction_on generalizing st wi arr done with
  | _ mask ih =>
    by_cases h0 : mask = 0
    · subst h0
      refine ⟨arr, ?_, rfl, ?_⟩
      · conv_lhs => rw [maskLoopU]
        rw [maskBits_zero]
        simp [emitSeq]
      · rw [maskBits_zero]
        simpa [emitSeq] using hpre
    · have hcons := maskBits_cons h0
      have hlt : wi < arr.length := by
        rw [hcons] at hroom
        simp only [List.length_cons] at hroom
        omega
      have hwrite : writeSlot arr wi (emit st (tzc mask)).1 =
          some (arr.set wi (some (emit st (tzc mask)).1)) := by
        rw [writeSlot, if_pos hlt]
      have hpre2 : (arr.set wi (some (emit st (tzc mask)).1)).take (wi + 1) =
          ((done ++ [(emit st (tzc mask)).1]).map some) := by
        rw [take_succ_set arr wi _ hlt, hpre, List.map_append]
        rfl
      have hroom2 : (wi + 1) + (maskBits (mask &&& (mask - 1))).length ≤
          (arr.set wi (some (emit st (tzc mask)).1)).length := by
        rw [List.length_set]
        rw [hcons] at hroom
        simp only [List.length_cons] at hroom
        omega
      obtain ⟨arr', heq, hlen, htake⟩ := ih (mask &&& (mask - 1))
        (Nat.lt_of_le_of_lt Nat.and_le_right (Nat.sub_lt (Nat.pos_of_ne_zero h0) Nat.one_pos))
        (emit st (tzc mask)).2 (wi + 1) (arr.set wi (some (emit st (tzc mask)).1))
        (done ++ [(emit st (tzc mask)).1]) hpre2 hroom2
      refine ⟨arr', ?_, by rw [hlen, List.length_set], ?_⟩
      · have hstep : maskLoopU emit mask st wi arr =
            maskLoopU emit (mask &&& (mask - 1)) (emit st (tzc mask)).2 (wi + 1)
              (arr.set wi (some (emit st (tzc mask)).1)) := by
          conv_lhs => rw [maskLoopU]
          rw [if_neg h0, hwrite]
        rw [hstep, heq, hcons]
        simp only [List.length_cons, emitSeq]
        have harith2 : wi + 1 + (maskBits (mask &&& (mask - 1))).length =
            wi + ((maskBits (mask &&& (mask - 1))).length + 1) := by omega
        rw [harith2]
      · rw [hcons]
        simp only [List.length_cons, emitSeq]
        have harith : wi + ((maskBits (mask &&& (mask - 1))).length + 1) =
            (wi + 1) + (maskBits (mask &&& (mask - 1))).length := by omega
        rw [harith, htake]
        simp

theorem innerLoopU_spec (guard : Nat → Bool) (maskAt : Nat → Nat)
    (emitAt : Nat → σ → Nat → α × σ) (stop maxE R : Nat)
    (hmask : ∀ ci, (maskBits (maskAt ci)).length ≤ maxE)
    (hguard : ∀ w, guard w = true → w + maxE ≤ R) :
    ∀ (n chunk_i : Nat) (st : σ) (wi : Nat) (arr : Scratch α) (done : List α),
      stop - chunk_i ≤ n → chunk_i ≤ stop → arr.length = R → wi ≤ R →
      arr.take wi = done.map some →
      ∃ arr' ci',
        innerLoopU guard maskAt emitAt chunk_i stop st wi arr =
          some (arr', wi + (emitChunks maskAt emitAt chunk_i ci' st).1.length, ci',
            (emitChunks maskAt emitAt chunk_i ci' st).2) ∧
        arr'.length = R ∧ chunk_i ≤ ci' ∧ ci' ≤ stop ∧
        wi + (emitChunks maskAt emitAt chunk_i ci' st).1.length ≤ R ∧
        arr'.take (wi + (emitChunks maskAt emitAt chunk_i ci' st).1.length) =
          (done ++ (emitChunks maskAt emitAt chunk_i ci' st).1).map some := by
  intro n
  induction n with
  | zero =>
    intro ci st wi arr done hn hle hlen hwi hpre
    refine ⟨arr, ci, ?_, hlen, le_rfl, hle, ?_, ?_⟩ <;>
      rw [emitChunks_stop maskAt emitAt ci ci (lt_irrefl _) st]
    · rw [innerLoopU, dif_neg (by intro hc; omega)]
      simp
    · simpa using hwi
    · simpa using hpre
  | succ k ihn =>
    intro ci st wi arr done hn hle hlen hwi hpre
    by_cases hcond : guard wi = true ∧ ci < stop
    · have hroom : wi + (maskBits (maskAt ci)).length ≤ arr.length := by
        rw [hlen]
        have := hguard wi hcond.1
        have := hmask ci
        omega
      obtain ⟨arr2, hmeq, hmlen, hmtake⟩ :=
        maskLoopU_spec (emitAt ci) (maskAt ci) st wi arr done hpre hroom
      have hwi2 : wi + (maskBits (maskAt ci)).length ≤ R := by
        have := hguard wi hcond.1
        have := hmask ci
        omega
      obtain ⟨arr', ci', hin, hlen', hci1, hci2, hwi', htake'⟩ :=
        ihn (ci + 1) (emitSeq (emitAt ci) st (maskBits (maskAt ci))).2
          (wi + (maskBits (maskAt ci)).length) arr2
          (done ++ (emitSeq (emitAt ci) st (maskBits (maskAt ci))).1)
          (by omega) (by omega) (by rw [hmlen, hlen]) hwi2 hmtake
      have hsplit := emitChunks_split maskAt emitAt ci (ci + 1) ci' (Nat.le_succ ci) hci1 st
      rw [emitChunks_single] at hsplit
      have hseqlen : (emitSeq (emitAt ci) st (maskBits (maskAt ci))).1.length =
          (maskBits (maskAt ci)).length := emitSeq_length _ st _
      refine ⟨arr', ci', ?_, hlen', by omega, hci2, ?_, ?_⟩
      · have hstep : innerLoopU guard maskAt emitAt ci stop st wi arr =
            innerLoopU guard maskAt emitAt (ci + 1) stop
              (emitSeq (emitAt ci) st (maskBits (maskAt ci))).2
              (wi + (maskBits (maskAt ci)).length) arr2 := by
          rw [innerLoopU, dif_pos hcond, hmeq]
        rw [hstep, hin, hsplit]
        simp only [List.length_append]
        congr 3
        omega
      · rw [hsplit]
        simp only [List.length_append]
        omega
      · rw [hsplit]
        simp only [List.length_append]
        have harith : wi + ((emitSeq (emitAt ci) st (maskBits (maskAt ci))).1.length +
            (emitChunks maskAt emitAt (ci + 1) ci'
              (emitSeq (emitAt ci) st (maskBits (maskAt ci))).2).1.length) =
            (wi + (maskBits (maskAt ci)).length) +
              (emitChunks maskAt emitAt (ci + 1) ci'
                (emitSeq (emitAt ci) st (maskBits (maskAt ci))).2).1.length := by
          rw [hseqlen]
          omega
        rw [harith, htake']
        simp
    · refine ⟨arr, ci, ?_, hlen, le_rfl, hle, ?_, ?_⟩ <;>
        rw [emitChunks_stop maskAt emitAt ci ci (lt_irrefl _) st]
      · rw [innerLoopU, dif_neg hcond]
        simp
      · simpa using hwi
      · simpa using hpre

theorem outerLoopU_step (R : Nat) (guard : Nat → Bool) (hg : guard 0 = true)
    (maskAt : Nat → Nat) (emitAt : Nat → σ → Nat → α × σ)
    (chunk_i stop : Nat) (st : σ) (out : List α) (reserves : List Nat)
    (hlt : chunk_i < stop) (arr' : Scratch α) (wi' ci' : Nat) (st' : σ)
    (items : List α)
    (hin : innerLoopU guard maskAt emitAt chunk_i stop st 0 (List.replicate R none) =
      some (arr', wi', ci', st'))
    (hcommit : commit arr' wi' = some items) :
    outerLoopU R guard hg maskAt emitAt chunk_i stop st out reserves =
      outerLoopU R guard hg maskAt emitAt ci' stop st' (out ++ items) (reserves ++ [R]) := by
  conv_lhs => rw [outerLoopU]
  rw [dif_pos hlt]
  split
  · rename_i heq
    rw [hin] at heq
    cases heq
  · rename_i a w c s heq
    rw [hin] at heq
    simp only [Option.some.injEq, Prod.mk.injEq] at heq
    obtain ⟨rfl, rfl, rfl, rfl⟩ := heq
    rw [hcommit]

theorem outerLoopU_spec (R : Nat) (guard : Nat → Bool) (hg : guard 0 = true)
    (maskAt : Nat → Nat) (emitAt : Nat → σ → Nat → α × σ) (stop maxE : Nat)
    (hmask : ∀ ci, (maskBits (maskAt ci)).length ≤ maxE)
    (hguard : ∀ w, guard w = true → w + maxE ≤ R)
    (chunk_i : Nat) (st : σ) (out : List α) (reserves : List Nat) (hle : chunk_i ≤ stop) :
    ∃ k, outerLoopU R guard hg maskAt emitAt chunk_i stop st out reserves =
      some (out ++ (emitChunks maskAt emitAt chunk_i stop st).1,
        (emitChunks maskAt emitAt chunk_i stop st).2,
        reserves ++ List.replicate k R) := by
  have H : ∀ (n ci : Nat) (st : σ) (out : List α) (reserves : List Nat),
      stop - ci ≤ n → ci ≤ stop →
      ∃ k, outerLoopU R guard hg maskAt emitAt ci stop st out reserves =
        some (out ++ (emitChunks maskAt emitAt ci stop st).1,
          (emitChunks maskAt emitAt ci stop st).2,
          reserves ++ List.replicate k R) := by
    intro n
    induction n with
    | zero =>
      intro ci st out reserves hn hle2
      refine ⟨0, ?_⟩
      rw [outerLoopU, dif_neg (by omega), emitChunks_stop maskAt emitAt ci stop (by omega) st]
      simp
    | succ k ihn =>
      intro ci st out reserves hn hle2
      by_cases hlt : ci < stop
      · obtain ⟨arr', ci', hin, hlen', hci1, hci2, hwi', htake'⟩ :=
          innerLoopU_spec guard maskAt emitAt stop maxE R hmask hguard
            (stop - ci) ci st 0 (List.replicate R none) [] le_rfl (by omega)
            (List.length_replicate R none) (by omega) (by simp)
        have hprog : ci < ci' := innerLoopU_progress guard maskAt emitAt ci stop st
          (List.replicate R none) arr' _ ci' _ hg hlt hin
        have hcommit : commit arr' (0 + (emitChunks maskAt emitAt ci ci' st).1.length) =
            some (emitChunks maskAt emitAt ci ci' st).1 := by
          apply commit_of_prefix
          · rw [hlen']
            omega
          · simpa using htake'
        obtain ⟨k', hrec⟩ := ihn ci' (emitChunks maskAt emitAt ci ci' st).2
          (out ++ (emitChunks maskAt emitAt ci ci' st).1) (reserves ++ [R]) (by omega) hci2
        refine ⟨k' + 1, ?_⟩
        rw [outerLoopU_step R guard hg maskAt emitAt ci stop st out reserves hlt arr'
          (0 + (emitChunks maskAt emitAt ci ci' st).1.length) ci'
          (emitChunks maskAt emitAt ci ci' st).2 (emitChunks maskAt emitAt ci ci' st).1
          hin hcommit, hrec,
          emitChunks_split maskAt emitAt ci ci' stop (by omega) hci2 st]
        simp [List.replicate_succ, List.append_assoc]
      · refine ⟨0, ?_⟩
        rw [outerLoopU, dif_neg hlt, emitChunks_stop maskAt emitAt ci stop hlt st]
        simp
  exact H (stop - chunk_i) chunk_i st out reserves le_rfl hle

theorem maskBits_length_le_of_lt (n : Nat) : ∀ m : Nat, m < 2 ^ n → (maskBits m).length ≤ n := by
  induction n with
  | zero =>
    intro m h
    have : m = 0 := by simpa using h
    subst this
    simp [maskBits_zero]
  | succ n ihn =>
    intro m h
    by_cases h0 : m = 0
    · subst h0
      simp [maskBits_zero]
    · rcases Nat.even_or_odd m with ⟨k, hk⟩ | ⟨k, hk⟩
      · have hm : m = 2 * k := by omega
        subst hm
        rw [maskBits_two_mul, List.length_map]
        have : k < 2 ^ n := by
          rw [pow_succ] at h
          omega
        exact le_trans (ihn k this) (Nat.le_succ n)
      · subst hk
        rw [maskBits_two_mul_add_one]
        simp only [List.length_cons, List.length_map]
        have : k < 2 ^ n := by
          rw [pow_succ] at h
          omega
        have := ihn k this
        omega

theorem chunkMask_shiftLeft_lt (l : Bytes) (off : Nat) (s : Nat) :
    chunkMask (sub l off 16) <<< s < 2 ^ (16 + s) := by
  rw [Nat.shiftLeft_eq, pow_add]
  exact Nat.mul_lt_mul_of_lt_of_le (chunkMask_sub_lt l off 16) (le_refl (2 ^ s))
    (Nat.pos_pow_of_pos s (by omega))

theorem mask64x16_lt (l : Bytes) (base : Nat) : mask64x16 l base < 2 ^ 64 := by
  have h64 : ∀ x : Nat, ∀ n : Nat, n ≤ 64 → x < 2 ^ n → x < 2 ^ 64 := by
    intro x n hn hx
    exact lt_of_lt_of_le hx (Nat.pow_le_pow_right (by omega) hn)
  apply Nat.or_lt_two_pow
  apply Nat.or_lt_two_pow
  apply Nat.or_lt_two_pow
  · exact h64 _ 16 (by omega) (chunkMask_sub_lt l base 16)
  · exact h64 _ 32 (by omega) (chunkMask_shiftLeft_lt l (base + 16) 16)
  · exact h64 _ 48 (by omega) (chunkMask_shiftLeft_lt l (base + 32) 32)
  · exact h64 _ 64 (by omega) (chunkMask_shiftLeft_lt l (base + 48) 48)

theorem mask64x32_lt (l : Bytes) (base : Nat) : mask64x32 l base < 2 ^ 64 := by
  apply Nat.or_lt_two_pow
  · have : chunkMask (sub l (base + 32) 32) <<< 32 < 2 ^ (32 + 32) := by
      rw [Nat.shiftLeft_eq, pow_add]
      exact Nat.mul_lt_mul_of_lt_of_le (chunkMask_sub_lt l (base + 32) 32)
        (le_refl (2 ^ 32)) (Nat.pos_pow_of_pos 32 (by omega))
    simpa using this
  · exact lt_of_lt_of_le (chunkMask_sub_lt l base 32) (Nat.pow_le_pow_right (by omega) (by omega))

/-! ### The unrolled slice kernels -/

namespace slice

/-- Common shape of the four unrolled slice kernels: the reservation outer
loop over chunks `[0, len / W)` starting from `line_start = 0` on a fresh
trace, then the shared `tail`. -/
def unrollKernel (input : Bytes) (W : Nat) (guard : Nat → Bool) (hg : guard 0 = true)
    (maskAt : Nat → Nat) (out : List Bytes) : Option (List Bytes × List Nat) :=
  match outerLoopU unrollR guard hg maskAt (emitView input W) 0 (input.length / W) 0 out [] with
  | none => none
  | some (out', line_start, reserves) => some (tail line_start W input out', reserves)

/-- `slice::x86_64::sse2_unroll`: `out.reserve(256)`, window `..256`, guard
`write_i < (256 - 16)`, 16-byte chunks. -/
def sse2_unroll (input : Bytes) (out : List Bytes) : Option (List Bytes × List Nat) :=
  unrollKernel input 16 (fun write_i => decide (write_i < 256 - 16)) (by decide)
    (fun chunk_i => chunkMask (sub input (chunk_i * 16) 16)) out

/-- `slice::x86_64::sse2_unrollx4`: `out.reserve(256)`, guard
`write_i < (256 - 64)`, 64-byte chunks whose mask is assembled from four
16-byte `movemask` results. -/
def sse2_unrollx4 (input : Bytes) (out : List Bytes) : Option (List Bytes × List Nat) :=
  unrollKernel input 64 (fun write_i => decide (write_i < 256 - 64)) (by decide)
    (fun chunk_i => mask64x16 input (chunk_i * 64)) out

/-- `slice::x86_64::avx2_unroll`: `out.reserve(256)`, guard
`write_i <= (256 - 32)`, 32-byte chunks. -/
def avx2_unroll (input : Bytes) (out : List Bytes) : Option (List Bytes × List Nat) :=
  unrollKernel input 32 (fun write_i => decide (write_i ≤ 256 - 32)) (by decide)
    (fun chunk_i => chunkMask (sub input (chunk_i * 32) 32)) out

/-- `slice::x86_64::avx2_unrollx2`: `out.reserve(256)`, guard
`write_i <= (256 - 64)`, 64-byte chunks whose mask is assembled from two
32-byte `movemask` results. -/
def avx2_unrollx2 (input : Bytes) (out : List Bytes) : Option (List Bytes × List Nat) :=
  unrollKernel input 64 (fun write_i => decide (write_i ≤ 256 - 64)) (by decide)
    (fun chunk_i => mask64x32 input (chunk_i * 64)) out

theorem unrollKernel_eq (input : Bytes) (W : Nat) (guard : Nat → Bool) (hg : guard 0 = true)
    (maskAt : Nat → Nat) (out : List Bytes)
    (hmask : ∀ ci, ci < input.length / W → maskAt ci = chunkMask (sub input (ci * W) W))
    (hmasklen : ∀ ci, (maskBits (maskAt ci)).length ≤ W)
    (hguard : ∀ w, guard w = true → w + W ≤ unrollR) :
    ∃ k, unrollKernel input W guard hg maskAt out =
      some (out ++ refSplit input, List.replicate k unrollR) := by
  obtain ⟨k, houter⟩ := outerLoopU_spec unrollR guard hg maskAt (emitView input W)
    (input.length / W) W hmasklen hguard 0 0 out [] (Nat.zero_le _)
  refine ⟨k, ?_⟩
  rw [unrollKernel, houter]
  rw [emitChunks_congr maskAt (fun ci => chunkMask (sub input (ci * W) W)) (emitView input W)
    0 (input.length / W) 0 (fun ci _ hci => hmask ci hci)]
  dsimp only
  rw [tail_after_chunks input W out]
  simp

theorem sse2_unroll_eq (input : Bytes) (out : List Bytes) :
    ∃ k, sse2_unroll input out = some (out ++ refSplit input, List.replicate k unrollR) := by
  apply unrollKernel_eq
  · intro ci _
    rfl
  · intro ci
    rw [maskBits_chunkMask]
    refine le_trans (nlPos_length_le _) ?_
    rw [sub_length]
    omega
  · intro w hw
    rw [unrollR]
    simp only [decide_eq_true_eq] at hw
    omega

theorem sse2_unrollx4_eq (input : Bytes) (out : List Bytes) :
    ∃ k, sse2_unrollx4 input out = some (out ++ refSplit input, List.replicate k unrollR) := by
  apply unrollKernel_eq
  · intro ci hci
    apply mask64x16_eq
    have h1 : ci + 1 ≤ input.length / 64 := hci
    have h2 : (ci + 1) * 64 ≤ input.length / 64 * 64 := Nat.mul_le_mul_right 64 h1
    have h3 := Nat.div_mul_le_self input.length 64
    omega
  · intro ci
    exact maskBits_length_le_of_lt 64 _ (mask64x16_lt input (ci * 64))
  · intro w hw
    rw [unrollR]
    simp only [decide_eq_true_eq] at hw
    omega

theorem avx2_unroll_eq (input : Bytes) (out : List Bytes) :
    ∃ k, avx2_unroll input out = some (out ++ refSplit input, List.replicate k unrollR) := by
  apply unrollKernel_eq
  · intro ci _
    rfl
  · intro ci
    rw [maskBits_chunkMask]
    refine le_trans (nlPos_length_le _) ?_
    rw [sub_length]
    omega
  · intro w hw
    rw [unrollR]
    simp only [decide_eq_true_eq] at hw
    omega

theorem avx2_unrollx2_eq (input : Bytes) (out : List Bytes) :
    ∃ k, avx2_unrollx2 input out = some (out ++ refSplit input, List.replicate k unrollR) := by
  apply unrollKernel_eq
  · intro ci hci
    apply mask64x32_eq
    have h1 : ci + 1 ≤ input.length / 64 := hci
    have h2 : (ci + 1) * 64 ≤ input.length / 64 * 64 := Nat.mul_le_mul_right 64 h1
    have h3 := Nat.div_mul_le_self input.length 64
    omega
  · intro ci
    exact maskBits_length_le_of_lt 64 _ (mask64x32_lt input (ci * 64))
  · intro w hw
    rw [unrollR]
    simp only [decide_eq_true_eq] at hw
    omega

end slice

/-! ### `str::lines` — the scalar oracle of the slice family

`slice::std` is `input.lines().collect()` and `slice::std_reuse` pushes
`input.lines()` one by one.  Rust's `str::lines` is
`split_inclusive('\n')` followed by stripping one trailing `'\n'` and, if
one was stripped, one trailing `'\r'` — so unlike the x86 kernels it
removes a carriage return that immediately precedes a newline. -/

namespace slice

/-- `str::split_inclusive('\n')`: segments each ending with the newline,
except possibly the last; the empty string yields no segments. -/
def splitInclusive : Bytes → List Bytes
  | [] => []
  | b :: rest =>
    if b = 10 then [b] :: splitInclusive rest
    else
      match splitInclusive rest with
      | [] => [[b]]
      | seg :: segs => (b :: seg) :: segs

/-- The per-segment map of `str::lines`: strip one trailing newline and, if
one was stripped, one trailing carriage return (byte 13). -/
def stripLine (l : Bytes) : Bytes :=
  match l.getLast? with
  | some 10 =>
    match l.dropLast.getLast? with
    | some 13 => l.dropLast.dropLast
    | _ => l.dropLast
  | _ => l

/-- `str::lines()`. -/
def rustLines (input : Bytes) : List Bytes := (splitInclusive input).map stripLine

/-- `slice::std`: `input.lines().collect()`. -/
def std (input : Bytes) : List Bytes := rustLines input

/-- `slice::std_reuse`: `for line in input.lines() { out.push(line) }`. -/
def std_reuse (input : Bytes) (out : List Bytes) : List Bytes := out ++ rustLines input

/-- Strip one trailing carriage return. -/
def stripCR (l : Bytes) : Bytes := if l.getLast? = some 13 then l.dropLast else l

/-- Modelled from the spec (amended): the views strictly between newlines,
each with one trailing carriage return removed, then the final non-empty
residual kept verbatim.  `rustLines` is proved equal to this. -/
def linesSpec (input : Bytes) : List Bytes :=
  let r := emitAllViews input 0 (nlPos input)
  r.1.map stripCR ++ (if r.2 ≠ input.length then [view input r.2 input.length] else [])

end slice

/-- Whether the two-byte sequence 13, 10 (`\r\n`) occurs in the input. -/
def hasCRLF (l : Bytes) : Bool :=
  match l with
  | [] => false
  | [_] => false
  | b :: c :: rest => (decide (b = 13) && decide (c = 10)) || hasCRLF (c :: rest)

theorem hasCRLF_cons_false {b : Nat} {l : Bytes} (h : hasCRLF (b :: l) = false) :
    hasCRLF l = false := by
  cases l with
  | nil => rfl
  | cons c rest =>
    simp only [hasCRLF, Bool.or_eq_false_iff] at h
    exact h.2

theorem hasCRLF_append_false {a l : Bytes} (h : hasCRLF (a ++ l) = false) :
    hasCRLF l = false := by
  induction a with
  | nil => simpa using h
  | cons b bs ih => exact ih (hasCRLF_cons_false (by simpa using h))

theorem hasCRLF_crlf (x l : Bytes) : hasCRLF (x ++ 13 :: 10 :: l) = true := by
  induction x with
  | nil =>
    simp only [List.nil_append, hasCRLF]
    simp
  | cons b bs ih =>
    cases hbs : bs ++ 13 :: 10 :: l with
    | nil => simp at hbs
    | cons c rest =>
      have h2 : b :: bs ++ 13 :: 10 :: l = b :: c :: rest := by simp [hbs]
      rw [h2]
      simp only [hasCRLF]
      rw [← hbs, ih]
      simp

theorem nlPos_eq_nil {l : Bytes} (h : ∀ x ∈ l, x ≠ 10) : nlPos l = [] := by
  induction l with
  | nil => rfl
  | cons b bs ih =>
    rw [nlPos, ih (fun x hx => h x (List.mem_cons_of_mem b hx))]
    simp [h b (List.mem_cons_self b bs)]

theorem split_first_nl (input : Bytes) :
    (∀ x ∈ input, x ≠ 10) ∨
      ∃ a rest, input = a ++ 10 :: rest ∧ (∀ x ∈ a, x ≠ 10) := by
  induction input with
  | nil =>
    left
    simp
  | cons b bs ih =>
    by_cases hb : b = 10
    · right
      exact ⟨[], bs, by simp [hb], by simp⟩
    · rcases ih with h | ⟨a, rest, heq, ha⟩
      · left
        intro x hx
        rcases List.mem_cons.mp hx with rfl | hx2
        · exact hb
        · exact h x hx2
      · right
        refine ⟨b :: a, rest, by simp [heq], ?_⟩
        intro x hx
        rcases List.mem_cons.mp hx with rfl | hx2
        · exact hb
        · exact ha x hx2

namespace slice

theorem sub_append_shift (c l : Bytes) (i n : Nat) :
    sub (c ++ l) (c.length + i) n = sub l i n := by
  simp only [sub]
  congr 1
  rw [List.drop_append]

theorem view_shift (c l : Bytes) (a b : Nat) :
    view (c ++ l) (c.length + a) (c.length + b) = view l a b := by
  simp only [view]
  have h1 : c.length + b - (c.length + a) = b - a := by omega
  rw [h1, sub_append_shift]

theorem emitAllViews_shift (c l : Bytes) (ls : Nat) (ps : List Nat) :
    emitAllViews (c ++ l) (c.length + ls) (ps.map (· + c.length)) =
      ((emitAllViews l ls ps).1, c.length + (emitAllViews l ls ps).2) := by
  induction ps generalizing ls with
  | nil => simp [emitAllViews_nil]
  | cons p ps ih =>
    rw [List.map_cons, emitAllViews_cons, emitAllViews_cons]
    have h1 : view (c ++ l) (c.length + ls) (p + c.length) = view l ls p := by
      rw [Nat.add_comm p c.length, view_shift]
    have h2 : p + c.length + 1 = c.length + (p + 1) := by omega
    rw [h1, h2, ih (p + 1)]

theorem nlPos_split (a rest : Bytes) (ha : ∀ x ∈ a, x ≠ 10) :
    nlPos (a ++ 10 :: rest) = a.length :: (nlPos rest).map (· + (a.length + 1)) := by
  rw [nlPos_append, nlPos_eq_nil ha, List.nil_append]
  have h1 : nlPos (10 :: rest) = 0 :: (nlPos rest).map (· + 1) := by
    rw [nlPos]
    simp
  rw [h1, List.map_cons, List.map_map]
  congr 1
  · omega
  · apply List.map_congr_left
    intro q _
    simp only [Function.comp]
    omega

theorem refSplit_split (a rest : Bytes) (ha : ∀ x ∈ a, x ≠ 10) :
    refSplit (a ++ 10 :: rest) = a :: refSplit rest := by
  have hc : a ++ 10 :: rest = (a ++ [10]) ++ rest := by simp
  have hclen : (a ++ [10]).length = a.length + 1 := by simp
  simp only [refSplit]
  rw [nlPos_split a rest ha, emitAllViews_cons]
  have hview : view (a ++ 10 :: rest) 0 a.length = a := by
    simp only [view, sub, Nat.sub_zero, List.drop_zero]
    exact List.take_left a (10 :: rest)
  have hshift : emitAllViews (a ++ 10 :: rest) (a.length + 1)
      ((nlPos rest).map (· + (a.length + 1))) =
      ((emitAllViews rest 0 (nlPos rest)).1,
        (a.length + 1) + (emitAllViews rest 0 (nlPos rest)).2) := by
    rw [hc]
    have := emitAllViews_shift (a ++ [10]) rest 0 (nlPos rest)
    rw [hclen] at this
    simpa using this
  rw [hview, hshift]
  have hlen2 : (a ++ 10 :: rest).length = a.length + 1 + rest.length := by
    simp
    omega
  by_cases hfin : (emitAllViews rest 0 (nlPos rest)).2 = rest.length
  · rw [if_neg (by omega), if_neg (by omega)]
  · have hne : a.length + 1 + (emitAllViews rest 0 (nlPos rest)).2 ≠
        (a ++ 10 :: rest).length := by
      rw [hlen2]
      omega
    rw [if_pos hne, if_pos hfin]
    have hview2 : view (a ++ 10 :: rest) (a.length + 1 + (emitAllViews rest 0 (nlPos rest)).2)
        (a ++ 10 :: rest).length =
        view rest (emitAllViews rest 0 (nlPos rest)).2 rest.length := by
      have h3 : a.length + 1 + (emitAllViews rest 0 (nlPos rest)).2 =
          (a ++ [10]).length + (emitAllViews rest 0 (nlPos rest)).2 := by
        rw [hclen]
      have h4 : (a ++ [10] ++ rest).length = (a ++ [10]).length + rest.length := by
        rw [List.length_append]
      rw [hc, h3, h4, view_shift]
    rw [hview2]
    simp

theorem linesSpec_split (a rest : Bytes) (ha : ∀ x ∈ a, x ≠ 10) :
    linesSpec (a ++ 10 :: rest) = stripCR a :: linesSpec rest := by
  have hc : a ++ 10 :: rest = (a ++ [10]) ++ rest := by simp
  have hclen : (a ++ [10]).length = a.length + 1 := by simp
  simp only [linesSpec]
  rw [nlPos_split a rest ha, emitAllViews_cons]
  have hview : view (a ++ 10 :: rest) 0 a.length = a := by
    simp only [view, sub, Nat.sub_zero, List.drop_zero]
    exact List.take_left a (10 :: rest)
  have hshift : emitAllViews (a ++ 10 :: rest) (a.length + 1)
      ((nlPos rest).map (· + (a.length + 1))) =
      ((emitAllViews rest 0 (nlPos rest)).1,
        (a.length + 1) + (emitAllViews rest 0 (nlPos rest)).2) := by
    rw [hc]
    have := emitAllViews_shift (a ++ [10]) rest 0 (nlPos rest)
    rw [hclen] at this
    simpa using this
  rw [hview, hshift]
  have hlen2 : (a ++ 10 :: rest).length = a.length + 1 + rest.length := by
    simp
    omega
  by_cases hfin : (emitAllViews rest 0 (nlPos rest)).2 = rest.length
  · rw [if_neg (by omega), if_neg (by omega)]
    simp
  · have hne : a.length + 1 + (emitAllViews rest 0 (nlPos rest)).2 ≠
        (a ++ 10 :: rest).length := by
      rw [hlen2]
      omega
    rw [if_pos hne, if_pos hfin]
    have hview2 : view (a ++ 10 :: rest) (a.length + 1 + (emitAllViews rest 0 (nlPos rest)).2)
        (a ++ 10 :: rest).length =
        view rest (emitAllViews rest 0 (nlPos rest)).2 rest.length := by
      have h3 : a.length + 1 + (emitAllViews rest 0 (nlPos rest)).2 =
          (a ++ [10]).length + (emitAllViews rest 0 (nlPos rest)).2 := by
        rw [hclen]
      have h4 : (a ++ [10] ++ rest).length = (a ++ [10]).length + rest.length := by
        rw [List.length_append]
      rw [hc, h3, h4, view_shift]
    rw [hview2]
    simp

theorem splitInclusive_split (a rest : Bytes) (ha : ∀ x ∈ a, x ≠ 10) :
    splitInclusive (a ++ 10 :: rest) = (a ++ [10]) :: splitInclusive rest := by
  induction a with
  | nil =>
    simp only [List.nil_append, splitInclusive]
    simp
  | cons b bs ih =>
    have hb : b ≠ 10 := ha b (List.mem_cons_self b bs)
    have hbs : ∀ x ∈ bs, x ≠ 10 := fun x hx => ha x (List.mem_cons_of_mem b hx)
    rw [List.cons_append]
    simp only [splitInclusive]
    rw [if_neg hb, ih hbs]
    simp

theorem stripLine_concat_nl (a : Bytes) : stripLine (a ++ [10]) = stripCR a := by
  unfold stripLine
  rw [List.getLast?_concat]
  dsimp only
  rw [List.dropLast_concat]
  unfold stripCR
  by_cases h13 : a.getLast? = some 13
  · rw [h13, if_pos rfl]
  · rw [if_neg h13]
    split
    · rename_i heq
      exact absurd heq h13
    · rfl

theorem stripLine_of_ne_nl {l : Bytes} (h : l.getLast? ≠ some 10) : stripLine l = l := by
  unfold stripLine
  split
  · rename_i heq
    exact absurd heq h
  · rfl

theorem getLast?_ne_nl {l : Bytes} (h : ∀ x ∈ l, x ≠ 10) : l.getLast? ≠ some 10 := by
  intro hc
  have hmem : (10 : Nat) ∈ l := List.mem_of_mem_getLast? (by rw [Option.mem_def, hc])
  exact h 10 hmem rfl

theorem splitInclusive_no_nl (input : Bytes) (h : ∀ x ∈ input, x ≠ 10) :
    splitInclusive input = if input = [] then [] else [input] := by
  induction input with
  | nil => rfl
  | cons b bs ih =>
    have hb : b ≠ 10 := h b (List.mem_cons_self b bs)
    have hbs : ∀ x ∈ bs, x ≠ 10 := fun x hx => h x (List.mem_cons_of_mem b hx)
    simp only [splitInclusive]
    rw [if_neg hb, ih hbs]
    by_cases h0 : bs = []
    · subst h0
      simp
    · rw [if_neg h0]
      simp [h0]

theorem rustLines_no_nl (input : Bytes) (h : ∀ x ∈ input, x ≠ 10) :
    rustLines input = if input = [] then [] else [input] := by
  rw [rustLines, splitInclusive_no_nl input h]
  by_cases h0 : input = []
  · simp [h0]
  · rw [if_neg h0]
    simp [stripLine_of_ne_nl (getLast?_ne_nl h)]

theorem view_whole (input : Bytes) : view input 0 input.length = input := by
  simp [view, sub]

theorem refSplit_no_nl (input : Bytes) (h : ∀ x ∈ input, x ≠ 10) :
    refSplit input = if input = [] then [] else [input] := by
  simp only [refSplit]
  rw [nlPos_eq_nil h, emitAllViews_nil]
  by_cases h0 : input = []
  · subst h0
    simp
  · have hpos : 0 < input.length := List.length_pos.mpr h0
    rw [if_pos (by omega), if_neg h0, view_whole]
    simp

theorem linesSpec_no_nl (input : Bytes) (h : ∀ x ∈ input, x ≠ 10) :
    linesSpec input = if input = [] then [] else [input] := by
  simp only [linesSpec]
  rw [nlPos_eq_nil h, emitAllViews_nil]
  by_cases h0 : input = []
  · subst h0
    simp
  · have hpos : 0 < input.length := List.length_pos.mpr h0
    rw [if_pos (by omega), if_neg h0, view_whole]
    simp

theorem rustLines_eq_linesSpec (input : Bytes) : rustLines input = linesSpec input := by
  have H : ∀ (n : Nat) (input : Bytes), input.length ≤ n → rustLines input = linesSpec input := by
    intro n
    induction n with
    | zero =>
      intro input hlen
      have h0 : input = [] := by
        cases input with
        | nil => rfl
        | cons b bs => simp at hlen
      subst h0
      rw [rustLines_no_nl [] (by simp), linesSpec_no_nl [] (by simp)]
    | succ k ihn =>
      intro input hlen
      rcases split_first_nl input with h | ⟨a, rest, heq, ha⟩
      · rw [rustLines_no_nl input h, linesSpec_no_nl input h]
      · subst heq
        rw [rustLines, splitInclusive_split a rest ha, List.map_cons, stripLine_concat_nl,
          ← rustLines, linesSpec_split a rest ha]
        congr 1
        apply ihn
        have : (a ++ 10 :: rest).length = a.length + 1 + rest.length := by
          simp
          omega
        omega
  exact H input.length input le_rfl

theorem rustLines_eq_refSplit (input : Bytes) (hcr : hasCRLF input = false) :
    rustLines input = refSplit input := by
  have H : ∀ (n : Nat) (input : Bytes), input.length ≤ n → hasCRLF input = false →
      rustLines input = refSplit input := by
    intro n
    induction n with
    | zero =>
      intro input hlen _
      have h0 : input = [] := by
        cases input with
        | nil => rfl
        | cons b bs => simp at hlen
      subst h0
      rw [rustLines_no_nl [] (by simp), refSplit_no_nl [] (by simp)]
    | succ k ihn =>
      intro input hlen hcr2
      rcases split_first_nl input with h | ⟨a, rest, heq, ha⟩
      · rw [rustLines_no_nl input h, refSplit_no_nl input h]
      · subst heq
        have hrest : hasCRLF rest = false :=
          hasCRLF_cons_false (hasCRLF_append_false hcr2)
        have ha13 : a.getLast? ≠ some 13 := by
          intro hc
          have hane : a ≠ [] := by
            intro h0
            subst h0
            simp at hc
          have hlast : a.getLast hane = 13 := by
            have := List.getLast?_eq_getLast a hane
            rw [this] at hc
            exact Option.some.inj hc
          have hdec : a.dropLast ++ [13] = a := by
            rw [← hlast]
            exact List.dropLast_append_getLast hane
          have : hasCRLF (a ++ 10 :: rest) = true := by
            rw [← hdec, List.append_assoc]
            exact hasCRLF_crlf a.dropLast (rest)
          rw [this] at hcr2
          cases hcr2
        rw [rustLines, splitInclusive_split a rest ha, List.map_cons, stripLine_concat_nl,
          ← rustLines, refSplit_split a rest ha]
        have hstrip : stripCR a = a := by
          rw [stripCR, if_neg ha13]
        rw [hstrip]
        congr 1
        apply ihn
        · have : (a ++ 10 :: rest).length = a.length + 1 + rest.length := by
            simp
            omega
          omega
        · exact hrest
  exact H input.length input le_rfl hcr

end slice

/-! ### Concatenation law and boundary behaviour of the slice output -/

/-- Join views with a single newline byte between adjacent pairs. -/
def joinNL : List Bytes → Bytes
  | [] => []
  | [v] => v
  | v :: w :: ws => v ++ 10 :: joinNL (w :: ws)

theorem joinNL_cons {vs : List Bytes} (v : Bytes) (h : vs ≠ []) :
    joinNL (v :: vs) = v ++ 10 :: joinNL vs := by
  cases vs with
  | nil => exact absurd rfl h
  | cons w ws => rfl

namespace slice

theorem refSplit_ne_nil {input : Bytes} (h : input ≠ []) : refSplit input ≠ [] := by
  rcases split_first_nl input with hno | ⟨a, rest, heq, ha⟩
  · rw [refSplit_no_nl input hno, if_neg h]
    simp
  · subst heq
    rw [refSplit_split a rest ha]
    simp

theorem join_refSplit (input : Bytes) :
    joinNL (refSplit input) =
      (if input.getLast? = some 10 then input.dropLast else input) := by
  have H : ∀ (n : Nat) (input : Bytes), input.length ≤ n →
      joinNL (refSplit input) =
        (if input.getLast? = some 10 then input.dropLast else input) := by
    intro n
    induction n with
    | zero =>
      intro input hlen
      have h0 : input = [] := by
        cases input with
        | nil => rfl
        | cons b bs => simp at hlen
      subst h0
      rw [refSplit_no_nl [] (by simp)]
      simp [joinNL]
    | succ k ihn =>
      intro input hlen
      rcases split_first_nl input with hno | ⟨a, rest, heq, ha⟩
      · rw [refSplit_no_nl input hno]
        by_cases h0 : input = []
        · subst h0
          simp [joinNL]
        · rw [if_neg h0]
          have h10 : input.getLast? ≠ some 10 := getLast?_ne_nl hno
          rw [if_neg h10]
          rfl
      · subst heq
        rw [refSplit_split a rest ha]
        by_cases h0 : rest = []
        · subst h0
          have : refSplit ([] : Bytes) = [] := by
            rw [refSplit_no_nl [] (by simp)]
            rfl
          rw [this]
          have hlast : (a ++ 10 :: ([] : Bytes)).getLast? = some 10 := by
            simp
          rw [if_pos hlast]
          have : (a ++ 10 :: ([] : Bytes)).dropLast = a := by
            simpa using List.dropLast_concat
          rw [this]
          rfl
        · rw [joinNL_cons a (refSplit_ne_nil h0)]
          have hrlen : rest.length ≤ k := by
            have : (a ++ 10 :: rest).length = a.length + 1 + rest.length := by
              simp
              omega
            omega
          rw [ihn rest hrlen]
          have hlast : (a ++ 10 :: rest).getLast? = rest.getLast? := by
            rw [List.getLast?_append_of_ne_nil a (by simp : (10 :: rest : Bytes) ≠ [])]
            cases rest with
            | nil => exact absurd rfl h0
            | cons w ws => exact List.getLast?_cons_cons
          have hdrop : (a ++ 10 :: rest).dropLast = a ++ 10 :: rest.dropLast := by
            rw [List.dropLast_append_cons]
            cases rest with
            | nil => exact absurd rfl h0
            | cons w ws => rfl
          by_cases h10 : rest.getLast? = some 10
          · rw [if_pos h10, if_pos (hlast.trans h10), hdrop]
          · rw [if_neg h10, if_neg (fun hc => h10 (hlast.symm.trans hc))]
  exact H input.length input le_rfl

theorem emitAllViews_final (input : Bytes) (ls : Nat) (ps : List Nat) :
    (emitAllViews input ls ps).2 =
      (match ps.getLast? with
        | some p => p + 1
        | none => ls) := by
  induction ps generalizing ls with
  | nil => simp [emitAllViews_nil]
  | cons p ps ih =>
    rw [emitAllViews_cons]
    cases ps with
    | nil => simp [emitAllViews_nil]
    | cons q qs =>
      have := ih (p + 1)
      simp only [this]
      rfl

/-- Start of the final (unterminated) line: one past the last newline. -/
def finalLineStart (input : Bytes) : Nat :=
  match (nlPos input).getLast? with
  | some p => p + 1
  | none => 0

theorem refSplit_final_state (input : Bytes) :
    (emitAllViews input 0 (nlPos input)).2 = finalLineStart input := by
  rw [emitAllViews_final, finalLineStart]

theorem finalLineStart_le (input : Bytes) : finalLineStart input ≤ input.length := by
  rw [finalLineStart]
  cases hlast : (nlPos input).getLast? with
  | none => simp
  | some p =>
    have hp : p ∈ nlPos input :=
      List.mem_of_mem_getLast? (by rw [Option.mem_def, hlast])
    exact nlPos_lt hp

theorem ends_nl_iff (input : Bytes) :
    finalLineStart input = input.length ↔ (input = [] ∨ input.getLast? = some 10) := by
  have H : ∀ (n : Nat) (input : Bytes), input.length ≤ n →
      (finalLineStart input = input.length ↔ (input = [] ∨ input.getLast? = some 10)) := by
    intro n
    induction n with
    | zero =>
      intro input hlen
      have h0 : input = [] := by
        cases input with
        | nil => rfl
        | cons b bs => simp at hlen
      subst h0
      simp [finalLineStart, nlPos]
    | succ k ihn =>
      intro input hlen
      rcases split_first_nl input with hno | ⟨a, rest, heq, ha⟩
      · constructor
        · intro hfin
          rw [finalLineStart, nlPos_eq_nil hno] at hfin
          simp only [List.getLast?_nil] at hfin
          left
          cases input with
          | nil => rfl
          | cons b bs => simp at hfin
        · intro hc
          rcases hc with rfl | h10
          · rfl
          · exact absurd h10 (getLast?_ne_nl hno)
      · subst heq
        have hrlen : rest.length ≤ k := by
          have : (a ++ 10 :: rest).length = a.length + 1 + rest.length := by
            simp
            omega
          omega
        have hfs : finalLineStart (a ++ 10 :: rest) =
            (if rest = [] then a.length + 1 else a.length + 1 + finalLineStart rest) := by
          rw [finalLineStart, nlPos_split a rest ha]
          cases hlastr : (nlPos rest).getLast? with
          | none =>
            have hnil : nlPos rest = [] := by
              cases hr : nlPos rest with
              | nil => rfl
              | cons q qs => rw [hr] at hlastr; simp at hlastr
            rw [hnil]
            simp only [List.map_nil]
            by_cases h0 : rest = []
            · rw [if_pos h0]
              rfl
            · rw [if_neg h0]
              rw [finalLineStart, hlastr]
              rfl
          | some p =>
            have hne0 : rest ≠ [] := by
              intro hc
              subst hc
              simp [nlPos] at hlastr
            rw [if_neg hne0]
            have hq : (a.length :: (nlPos rest).map (· + (a.length + 1))).getLast? =
                some (p + (a.length + 1)) := by
              cases hr : nlPos rest with
              | nil => rw [hr] at hlastr; simp at hlastr
              | cons q qs =>
                rw [hr] at hlastr
                rw [List.map_cons, List.getLast?_cons_cons]
                show ((q :: qs).map (fun x => x + (a.length + 1))).getLast? = _
                rw [List.getLast?_map, hlastr]
                rfl
            rw [hq]
            rw [finalLineStart, hlastr]
            dsimp only
            omega
        have hlen2 : (a ++ 10 :: rest).length = a.length + 1 + rest.length := by
          simp
          omega
        rw [hfs, hlen2]
        by_cases h0 : rest = []
        · subst h0
          rw [if_pos rfl]
          constructor
          · intro _
            right
            simp
          · intro _
            simp
        · rw [if_neg h0]
          have := ihn rest hrlen
          have hlast : (a ++ 10 :: rest).getLast? = rest.getLast? := by
            rw [List.getLast?_append_of_ne_nil a (by simp : (10 :: rest : Bytes) ≠ [])]
            cases rest with
            | nil => exact absurd rfl h0
            | cons w ws => exact List.getLast?_cons_cons
          constructor
          · intro hfin
            have hfr : finalLineStart rest = rest.length := by omega
            rcases (ihn rest hrlen).mp hfr with hnil | h10
            · exact absurd hnil h0
            · right
              rw [hlast]
              exact h10
          · intro hc
            rcases hc with hc | h10
            · simp at hc
            · rw [hlast] at h10
              have : finalLineStart rest = rest.length := (ihn rest hrlen).mpr (Or.inr h10)
              omega
  exact H input.length input le_rfl

end slice

namespace slice

theorem refSplit_nil : refSplit ([] : Bytes) = [] := by
  simp [refSplit, nlPos, emitAllViews_nil]

/-- When the input ends in a newline, no trailing residual view is appended:
the output is exactly the one-view-per-newline emission. -/
theorem refSplit_terminated (input : Bytes) (h : input.getLast? = some 10) :
    refSplit input = (emitAllViews input 0 (nlPos input)).1 := by
  have h2 : (emitAllViews input 0 (nlPos input)).2 = input.length := by
    rw [refSplit_final_state]
    exact (ends_nl_iff input).mpr (Or.inr h)
  rw [refSplit]
  simp [h2]

theorem refSplit_terminated_length (input : Bytes) (h : input.getLast? = some 10) :
    (refSplit input).length = (nlPos input).length := by
  rw [refSplit_terminated input h, emitAllViews]
  exact emitSeq_length _ _ _

/-- When the input is non-empty and does not end in a newline, the residual
`[finalLineStart, len)` is non-empty and is appended as the final view. -/
theorem refSplit_unterminated (input : Bytes) (h0 : input ≠ [])
    (h10 : input.getLast? ≠ some 10) :
    refSplit input = (emitAllViews input 0 (nlPos input)).1 ++
        [view input (finalLineStart input) input.length] ∧
      view input (finalLineStart input) input.length ≠ [] := by
  have hne : finalLineStart input ≠ input.length := by
    intro hc
    rcases (ends_nl_iff input).mp hc with hc0 | hc10
    · exact h0 hc0
    · exact h10 hc10
  have hlt : finalLineStart input < input.length :=
    Nat.lt_of_le_of_ne (finalLineStart_le input) hne
  constructor
  · rw [refSplit]
    simp only [refSplit_final_state, if_pos hne]
  · intro hc
    have : (view input (finalLineStart input) input.length).length = 0 := by
      rw [hc]
      rfl
    rw [view, sub_length] at this
    omega

end slice

/-! ## Compressed family

`compressed::LineIndex` stores, per newline, only the low 16 bits of its
index (`lows`), plus one entry per 64 KiB of input (`high_starts`) giving
the first index into `lows` whose high bits are that block number. -/

structure LineIndex where
  lows : List Nat
  high_starts : List Nat
deriving DecidableEq

/-- Rust `slice::chunks(n)`: `n`-sized pieces, the last possibly shorter;
the empty slice yields no chunks.  (`chunks(0)` panics in Rust; the kernels
only use `1 << 16`.) -/
def chunksOf (n : Nat) (l : List α) : List (List α) :=
  if l.length = 0 ∨ n = 0 then [] else l.take n :: chunksOf n (l.drop n)
termination_by l.length
decreasing_by
  rename_i h
  push_neg at h
  simp only [List.length_drop]
  omega

theorem chunksOf_nil (n : Nat) : chunksOf n ([] : List α) = [] := by
  rw [chunksOf]
  simp

theorem chunksOf_cons (n : Nat) (l : List α) (h0 : l ≠ []) (hn : n ≠ 0) :
    chunksOf n l = l.take n :: chunksOf n (l.drop n) := by
  conv_lhs => rw [chunksOf]
  rw [if_neg]
  push_neg
  exact ⟨by simpa using h0, hn⟩

theorem chunksOf_mem_length_le (n : Nat) (l : List α) (b : List α)
    (hb : b ∈ chunksOf n l) : b.length ≤ n := by
  have H : ∀ (f : Nat) (l : List α), l.length ≤ f → ∀ b ∈ chunksOf n l, b.length ≤ n := by
    intro f
    induction f with
    | zero =>
      intro l hf b hb
      have : l = [] := by
        cases l with
        | nil => rfl
        | cons x xs => simp at hf
      subst this
      rw [chunksOf_nil] at hb
      simp at hb
    | succ k ihn =>
      intro l hf b hb
      by_cases h0 : l = []
      · subst h0
        rw [chunksOf_nil] at hb
        simp at hb
      · by_cases hn : n = 0
        · subst hn
          rw [chunksOf] at hb
          simp at hb
        · rw [chunksOf_cons n l h0 hn] at hb
          rcases List.mem_cons.mp hb with rfl | hmem
          · simpa using List.length_take_le n l
          · have hlen : (l.drop n).length ≤ k := by
              have hpos : 0 < l.length := List.length_pos.mpr h0
              simp only [List.length_drop]
              omega
            exact ihn (l.drop n) hlen b hmem
  exact H l.length l le_rfl b hb

namespace compressed

/-- `compressed::iter` on a single 64 KiB chunk: push the pre-extension
`lows.len()` onto `high_starts`, then the low 16 bits (`idx as u16`) of each
newline's in-chunk index. -/
def iterBlock (blk : Bytes) (o : LineIndex) : LineIndex :=
  { lows := o.lows ++ (nlPos blk).map (fun idx => idx % 65536),
    high_starts := o.high_starts ++ [o.lows.length] }

/-- `compressed::iter`: the scalar oracle, one `iterBlock` per 64 KiB chunk. -/
def iter (input : Bytes) (o : LineIndex) : LineIndex :=
  (chunksOf 65536 input).foldl (fun o blk => iterBlock blk o) o

/-- `compressed::tail`: scalar pass over `input[base..]` where
`base = input.len() & !(chunk_size - 1)` (`= len / cs * cs` for the
power-of-two chunk sizes in use), pushing `base as u16 + idx as u16`
(`u16` wrapping addition) per newline.  `high_starts` is untouched. -/
def tail (chunk_size : Nat) (input : Bytes) (o : LineIndex) : LineIndex :=
  let base := input.length / chunk_size * chunk_size
  let vals := (nlPos (input.drop base)).map (fun idx => (base % 65536 + idx % 65536) % 65536)
  { o with lows := o.lows ++ vals }

/-- The value a compressed kernel pushes for bit `bit` of chunk `ci`:
`chunk_i as u16 * W + bit_pos` in `u16` arithmetic. -/
def emitLow (W ci : Nat) (x : Unit) (bit : Nat) : Nat × Unit :=
  ((ci % 65536 * W % 65536 + bit) % 65536, ())

end compressed

theorem emitSeq_unit (f : Nat → Nat) (g : Unit → Nat → Nat × Unit)
    (ps : List Nat) (hg : ∀ p ∈ ps, g () p = (f p, ())) :
    emitSeq g () ps = (ps.map f, ()) := by
  induction ps with
  | nil => simp [emitSeq]
  | cons p ps ih =>
    simp only [emitSeq, hg p (List.mem_cons_self p ps), List.map_cons]
    rw [ih fun q hq => hg q (List.mem_cons_of_mem p hq)]

theorem emitLow_eval (W ci bit : Nat) (hci : ci * W + W ≤ 65536) (hbit : bit < W) :
    compressed.emitLow W ci () bit = (ci * W + bit, ()) := by
  have hW : 0 < W := by omega
  have h1 : ci ≤ ci * W := Nat.le_mul_of_pos_right ci hW
  have h2 : ci < 65536 := by omega
  have h3 : ci * W < 65536 := by omega
  rw [compressed.emitLow, Nat.mod_eq_of_lt h2, Nat.mod_eq_of_lt h3,
    Nat.mod_eq_of_lt (by omega : ci * W + bit < 65536)]

/-- Value-level characterization of a compressed kernel's chunk loop over
`[a, b)`: it pushes exactly the newline positions of `[a*W, b*W)`. -/
theorem emitChunks_lows (blk : Bytes) (W a b : Nat) (hb : b * W ≤ blk.length)
    (hlen : blk.length ≤ 65536) :
    emitChunks (fun ci => chunkMask (sub blk (ci * W) W)) (compressed.emitLow W) a b () =
      (nlPosRange blk (a * W) (b * W), ()) := by
  have H : ∀ (n a : Nat), b - a ≤ n →
      emitChunks (fun ci => chunkMask (sub blk (ci * W) W)) (compressed.emitLow W) a b () =
        (nlPosRange blk (a * W) (b * W), ()) := by
    intro n
    induction n with
    | zero =>
      intro a hn
      rw [emitChunks_stop _ _ a b (by omega) (),
        nlPosRange_empty blk (a * W) (b * W) (Nat.mul_le_mul_right W (by omega))]
    | succ k ihn =>
      intro a hn
      by_cases hlt : a < b
      · rw [emitChunks_step _ _ a b hlt (), maskBits_chunkMask]
        have hWle : a * W + W ≤ 65536 := by
          have : (a + 1) * W ≤ b * W := Nat.mul_le_mul_right W (by omega)
          rw [Nat.succ_mul] at this
          omega
        have hemit : emitSeq (compressed.emitLow W a) () (nlPos (sub blk (a * W) W)) =
            ((nlPos (sub blk (a * W) W)).map (fun bit => bit + a * W), ()) := by
          apply emitSeq_unit
          intro p hp
          have hplt : p < W := by
            have := nlPos_lt hp
            rw [sub_length] at this
            omega
          rw [emitLow_eval W a p hWle hplt]
          rw [Nat.add_comm]
        rw [hemit, ihn (a + 1) (by omega)]
        have hchunk : (nlPos (sub blk (a * W) W)).map (· + a * W) =
            nlPosRange blk (a * W) ((a + 1) * W) := by
          rw [← (Nat.succ_mul a W).symm]
          exact (nlPosRange_chunk blk W a).symm
        have hconcat : nlPosRange blk (a * W) (b * W) =
            nlPosRange blk (a * W) ((a + 1) * W) ++ nlPosRange blk ((a + 1) * W) (b * W) := by
          apply nlPosRange_concat
          · exact Nat.mul_le_mul_right W (by omega)
          · exact Nat.mul_le_mul_right W (by omega)
          · exact le_trans (Nat.mul_le_mul_right W (by omega)) hb
        rw [hconcat, hchunk]
      · rw [emitChunks_stop _ _ a b hlt (),
          nlPosRange_empty blk (a * W) (b * W) (Nat.mul_le_mul_right W (by omega))]
  exact H (b - a) a le_rfl

namespace compressed

/-- The lows `iter` accumulates: per-block newline positions, in block order. -/
def blocksLows (blocks : List Bytes) : List Nat :=
  match blocks with
  | [] => []
  | b :: bs => nlPos b ++ blocksLows bs

/-- The `high_starts` entries: the running `lows.len()` at each block start. -/
def highList (blocks : List Bytes) (n : Nat) : List Nat :=
  match blocks with
  | [] => []
  | b :: bs => n :: highList bs (n + (nlPos b).length)

theorem iter_fold (blocks : List Bytes) (h : ∀ b ∈ blocks, b.length ≤ 65536) (o : LineIndex) :
    blocks.foldl (fun o blk => iterBlock blk o) o =
      ⟨o.lows ++ blocksLows blocks, o.high_starts ++ highList blocks o.lows.length⟩ := by
  induction blocks generalizing o with
  | nil =>
    cases o
    simp [blocksLows, highList]
  | cons b bs ih =>
    have hmap : (nlPos b).map (fun idx => idx % 65536) = nlPos b := by
      rw [List.map_congr_left, List.map_id]
      intro p hp
      have := nlPos_lt hp
      have hb := h b (List.mem_cons_self b bs)
      exact Nat.mod_eq_of_lt (by omega)
    rw [List.foldl_cons]
    rw [ih (fun x hx => h x (List.mem_cons_of_mem b hx)) (iterBlock b o)]
    simp only [iterBlock, hmap, blocksLows, highList, List.length_append, List.length_map,
      LineIndex.mk.injEq]
    constructor
    · rw [List.append_assoc]
    · rw [List.append_assoc]
      rfl

theorem iter_spec (input : Bytes) (o : LineIndex) :
    iter input o = ⟨o.lows ++ blocksLows (chunksOf 65536 input),
      o.high_starts ++ highList (chunksOf 65536 input) o.lows.length⟩ :=
  iter_fold _ (fun b hb => chunksOf_mem_length_le 65536 input b hb) o

/-- Normal form shared by every compressed x86 kernel: per 64 KiB block, one
`high_starts` mark and the newline positions of the block's `W`-aligned
prefix; then the shared `tail` for the global residue. -/
def kernelNF (W : Nat) (input : Bytes) (o : LineIndex) : LineIndex :=
  tail W input ((chunksOf 65536 input).foldl (fun o blk =>
    ⟨o.lows ++ nlPosRange blk 0 (blk.length / W * W),
      o.high_starts ++ [o.lows.length]⟩) o)

/-- The residual pass of `compressed::tail` pushes exactly the newline
positions of `[len / W * W, len)` when the input fits one block. -/
theorem tail_vals_eq (W : Nat) (input : Bytes) (hle : input.length ≤ 65536) :
    (nlPos (input.drop (input.length / W * W))).map
        (fun idx => (input.length / W * W % 65536 + idx % 65536) % 65536) =
      nlPosRange input (input.length / W * W) input.length := by
  set base := input.length / W * W with hbase
  have hbl : base ≤ input.length := Nat.div_mul_le_self input.length W
  by_cases heq : base = input.length
  · rw [heq]
    rw [List.drop_length]
    rw [nlPosRange_empty input input.length input.length le_rfl]
    simp [nlPos]
  · have hblt : base < input.length := by omega
    have hdl : (input.drop base).length = input.length - base := by simp
    have hsub : sub input base (input.length - base) = input.drop base := by
      rw [sub, ← hdl, List.take_length]
    rw [nlPosRange, hsub]
    apply List.map_congr_left
    intro idx hidx
    have hlt := nlPos_lt hidx
    rw [hdl] at hlt
    have h1 : base % 65536 = base := Nat.mod_eq_of_lt (by omega)
    have h2 : idx % 65536 = idx := Nat.mod_eq_of_lt (by omega)
    rw [h1, h2, Nat.mod_eq_of_lt (by omega)]
    omega

/-- For `W ∣ 65536` and a full leading block, the global residual pass of
`tail` only concerns the input beyond that block. -/
theorem tail_drop (W : Nat) (hWd : W ∣ 65536) (hW0 : 0 < W) (input : Bytes)
    (hlen : 65536 ≤ input.length) (x : LineIndex) :
    tail W input x = tail W (input.drop 65536) x := by
  obtain ⟨k, hk⟩ := hWd
  have hL : input.length = W * k + (input.length - 65536) := by omega
  have hdiv : input.length / W = k + (input.length - 65536) / W := by
    conv_lhs => rw [hL]
    exact Nat.mul_add_div hW0 k (input.length - 65536)
  have hbase : input.length / W * W = 65536 + (input.length - 65536) / W * W := by
    rw [hdiv, Nat.add_mul]
    have : k * W = 65536 := by rw [Nat.mul_comm] at hk; omega
    omega
  have hdroplen : (input.drop 65536).length = input.length - 65536 := by simp
  rw [tail, tail]
  simp only [hdroplen, hbase]
  have hdd : input.drop (65536 + (input.length - 65536) / W * W) =
      (input.drop 65536).drop ((input.length - 65536) / W * W) := by
    rw [List.drop_drop]
    try congr 1
    try omega
  rw [hdd]
  have hmod : (65536 + (input.length - 65536) / W * W) % 65536 =
      (input.length - 65536) / W * W % 65536 := Nat.add_mod_left 65536 _
  rw [hmod]

/-- The master assembly: any kernel of the normal-form shape computes exactly
what the scalar oracle `iter` computes. -/
theorem kernelNF_eq_iter (W : Nat) (hWd : W ∣ 65536) (hW0 : 0 < W)
    (input : Bytes) (o : LineIndex) :
    kernelNF W input o = iter input o := by
  have H : ∀ (n : Nat) (input : Bytes) (o : LineIndex), input.length ≤ n →
      kernelNF W input o = iter input o := by
    intro n
    induction n with
    | zero =>
      intro input o hn
      have h0 : input = [] := by
        cases input with
        | nil => rfl
        | cons b bs => simp at hn
      subst h0
      rw [kernelNF, chunksOf_nil, iter, chunksOf_nil, List.foldl_nil, List.foldl_nil, tail]
      cases o
      simp [nlPos]
    | succ m ihn =>
      intro input o hn
      by_cases h0 : input = []
      · subst h0
        rw [kernelNF, chunksOf_nil, iter, chunksOf_nil, List.foldl_nil, List.foldl_nil, tail]
        cases o
        simp [nlPos]
      · by_cases hsmall : input.length ≤ 65536
        · have htake : input.take 65536 = input := List.take_of_length_le hsmall
          have hdrop : input.drop 65536 = [] := List.drop_eq_nil_of_le hsmall
          have hblocks : chunksOf 65536 input = [input] := by
            rw [chunksOf_cons 65536 input h0 (by omega), htake, hdrop, chunksOf_nil]
          rw [kernelNF, hblocks, iter, hblocks]
          simp only [List.foldl_cons, List.foldl_nil]
          rw [tail]
          simp only [iterBlock]
          have hmap : (nlPos input).map (fun idx => idx % 65536) = nlPos input := by
            rw [List.map_congr_left, List.map_id]
            intro p hp
            have := nlPos_lt hp
            exact Nat.mod_eq_of_lt (by omega)
          rw [hmap]
          have hcat : nlPosRange input 0 (input.length / W * W) ++
              nlPosRange input (input.length / W * W) input.length = nlPos input := by
            rw [← nlPosRange_whole input]
            exact (nlPosRange_concat input 0 (input.length / W * W) input.length
              (Nat.zero_le _) (Nat.div_mul_le_self input.length W)
              (Nat.div_mul_le_self input.length W)).symm
          simp only [tail_vals_eq W input hsmall]
          rw [List.append_assoc, hcat]
        · push_neg at hsmall
          have htlen : (input.take 65536).length = 65536 := by
            rw [List.length_take]
            omega
          have hblocks : chunksOf 65536 input =
              input.take 65536 :: chunksOf 65536 (input.drop 65536) := by
            exact chunksOf_cons 65536 input h0 (by omega)
          have hfull : (input.take 65536).length / W * W = (input.take 65536).length := by
            rw [htlen, Nat.div_mul_cancel hWd]
          have hstep : (⟨o.lows ++ nlPosRange (input.take 65536) 0
              ((input.take 65536).length / W * W),
              o.high_starts ++ [o.lows.length]⟩ : LineIndex) =
              iterBlock (input.take 65536) o := by
            rw [hfull, nlPosRange_whole, iterBlock]
            have hmap : (nlPos (input.take 65536)).map (fun idx => idx % 65536) =
                nlPos (input.take 65536) := by
              rw [List.map_congr_left, List.map_id]
              intro p hp
              have := nlPos_lt hp
              rw [htlen] at this
              exact Nat.mod_eq_of_lt (by omega)
            rw [hmap]
          rw [kernelNF, hblocks]
          simp only [List.foldl_cons]
          rw [hstep]
          have hdlen : (input.drop 65536).length ≤ m := by
            simp only [List.length_drop]
            omega
          have hrec : tail W input ((chunksOf 65536 (input.drop 65536)).foldl
              (fun o blk => (⟨o.lows ++ nlPosRange blk 0 (blk.length / W * W),
                o.high_starts ++ [o.lows.length]⟩ : LineIndex))
              (iterBlock (input.take 65536) o)) =
              kernelNF W (input.drop 65536) (iterBlock (input.take 65536) o) := by
            rw [kernelNF, tail_drop W hWd hW0 input (by omega)]
          rw [hrec, ihn (input.drop 65536) (iterBlock (input.take 65536) o) hdlen,
            iter, iter, hblocks, List.foldl_cons]
  exact H input.length input o le_rfl

end compressed

theorem foldl_congr_mem (l : List α) (f g : β → α → β) :
    ∀ (b : β), (∀ x ∈ l, ∀ acc, f acc x = g acc x) → l.foldl f b = l.foldl g b := by
  induction l with
  | nil =>
    intro b h
    rfl
  | cons x xs ih =>
    intro b h
    rw [List.foldl_cons, List.foldl_cons, h x (List.mem_cons_self x xs) b]
    exact ih _ (fun y hy acc => h y (List.mem_cons_of_mem x hy) acc)

theorem foldlM_eq_foldl (f : β → α → Option β) (g : β → α → β) (l : List α) :
    ∀ (b : β), (∀ x ∈ l, ∀ acc, f acc x = some (g acc x)) → l.foldlM f b = some (l.foldl g b) := by
  induction l with
  | nil =>
    intro b h
    rfl
  | cons x xs ih =>
    intro b h
    rw [List.foldlM_cons, h x (List.mem_cons_self x xs) b]
    show xs.foldlM f (g b x) = _
    rw [List.foldl_cons]
    exact ih (g b x) (fun y hy acc => h y (List.mem_cons_of_mem x hy) acc)

namespace compressed

/-- `compressed::x86_64::sse2`: per 64 KiB chunk, push the `high_starts`
mark, then scan `chunks_exact(16)` pushing `chunk_idx as u16 * 16 + bit_pos`
per mask bit; finally the shared `tail 16`. -/
def sse2 (input : Bytes) (o : LineIndex) : LineIndex :=
  tail 16 input ((chunksOf 65536 input).foldl (fun o blk =>
    ⟨(chunkLoopP (fun ci => chunkMask (sub blk (ci * 16) 16)) (emitLow 16)
        0 (blk.length / 16) () o.lows).1,
      o.high_starts ++ [o.lows.length]⟩) o)

theorem sse2_eq_iter (input : Bytes) (o : LineIndex) : sse2 input o = iter input o := by
  rw [sse2, ← kernelNF_eq_iter 16 (by norm_num) (by norm_num) input o, kernelNF]
  congr 1
  apply foldl_congr_mem
  intro blk hblk acc
  have hle := chunksOf_mem_length_le 65536 input blk hblk
  rw [chunkLoopP_spec,
    emitChunks_lows blk 16 0 (blk.length / 16) (Nat.div_mul_le_self blk.length 16) hle]
  try rw [Nat.zero_mul]

/-- Shared shape of the four unrolled compressed kernels: per 64 KiB chunk,
push the `high_starts` mark, then run the reservation outer loop over the
block's `W`-wide chunks. -/
theorem unroll_kernel_NF (W : Nat) (guard : Nat → Bool) (hg : guard 0 = true)
    (maskAt : Bytes → Nat → Nat)
    (hmask : ∀ blk ci, ci < blk.length / W → maskAt blk ci = chunkMask (sub blk (ci * W) W))
    (hmasklen : ∀ blk ci, (maskBits (maskAt blk ci)).length ≤ W)
    (hguard : ∀ w, guard w = true → w + W ≤ unrollR)
    (input : Bytes) (o : LineIndex) :
    (chunksOf 65536 input).foldlM (fun o blk =>
      match outerLoopU unrollR guard hg (maskAt blk) (emitLow W)
          0 (blk.length / W) () o.lows [] with
      | none => none
      | some (lows', _, _) =>
        some (⟨lows', o.high_starts ++ [o.lows.length]⟩ : LineIndex)) o =
      some ((chunksOf 65536 input).foldl (fun o blk =>
        (⟨o.lows ++ nlPosRange blk 0 (blk.length / W * W),
          o.high_starts ++ [o.lows.length]⟩ : LineIndex)) o) := by
  apply foldlM_eq_foldl
  intro blk hblk acc
  have hle := chunksOf_mem_length_le 65536 input blk hblk
  obtain ⟨k, houter⟩ := outerLoopU_spec unrollR guard hg (maskAt blk) (emitLow W)
    (blk.length / W) W (hmasklen blk) hguard 0 () acc.lows [] (Nat.zero_le _)
  rw [houter]
  dsimp only
  rw [emitChunks_congr (maskAt blk) (fun ci => chunkMask (sub blk (ci * W) W)) (emitLow W)
    0 (blk.length / W) () (fun ci _ hci => hmask blk ci hci),
    emitChunks_lows blk W 0 (blk.length / W) (Nat.div_mul_le_self blk.length W) hle]
  try rw [Nat.zero_mul]

/-- `compressed::x86_64::sse2_unroll`: reservation window 256, guard
`write_i <= 256 - 16`, 16-byte chunks, then `tail 16`. -/
def sse2_unroll (input : Bytes) (o : LineIndex) : Option LineIndex :=
  match (chunksOf 65536 input).foldlM (fun o blk =>
      match outerLoopU unrollR (fun write_i => decide (write_i ≤ 256 - 16)) (by decide)
          ((fun blk ci => chunkMask (sub blk (ci * 16) 16)) blk) (emitLow 16)
          0 (blk.length / 16) () o.lows [] with
      | none => none
      | some (lows', _, _) =>
        some (⟨lows', o.high_starts ++ [o.lows.length]⟩ : LineIndex)) o with
  | none => none
  | some o' => some (tail 16 input o')

theorem sse2_unroll_eq_iter (input : Bytes) (o : LineIndex) :
    sse2_unroll input o = some (iter input o) := by
  have h := unroll_kernel_NF 16 (fun write_i => decide (write_i ≤ 256 - 16)) (by decide)
    (fun blk ci => chunkMask (sub blk (ci * 16) 16))
    (fun blk ci _ => rfl)
    (fun blk ci => by
      rw [maskBits_chunkMask]
      refine le_trans (nlPos_length_le _) ?_
      rw [sub_length]
      omega)
    (fun w hw => by
      rw [unrollR]
      simp only [decide_eq_true_eq] at hw
      omega)
    input o
  rw [sse2_unroll, h]
  show some (tail 16 input _) = _
  exact congrArg some (kernelNF_eq_iter 16 (by norm_num) (by norm_num) input o)

/-- `compressed::x86_64::sse2_unrollx4`: window 256, guard
`write_i <= 256 - 64`, 64-byte chunks assembled from four 16-byte masks,
then `tail 64`. -/
def sse2_unrollx4 (input : Bytes) (o : LineIndex) : Option LineIndex :=
  match (chunksOf 65536 input).foldlM (fun o blk =>
      match outerLoopU unrollR (fun write_i => decide (write_i ≤ 256 - 64)) (by decide)
          ((fun blk ci => mask64x16 blk (ci * 64)) blk) (emitLow 64)
          0 (blk.length / 64) () o.lows [] with
      | none => none
      | some (lows', _, _) =>
        some (⟨lows', o.high_starts ++ [o.lows.length]⟩ : LineIndex)) o with
  | none => none
  | some o' => some (tail 64 input o')

theorem sse2_unrollx4_eq_iter (input : Bytes) (o : LineIndex) :
    sse2_unrollx4 input o = some (iter input o) := by
  have h := unroll_kernel_NF 64 (fun write_i => decide (write_i ≤ 256 - 64)) (by decide)
    (fun blk ci => mask64x16 blk (ci * 64))
    (fun blk ci hci => by
      apply mask64x16_eq
      have h2 : (ci + 1) * 64 ≤ blk.length / 64 * 64 := Nat.mul_le_mul_right 64 hci
      have h3 := Nat.div_mul_le_self blk.length 64
      omega)
    (fun blk ci => maskBits_length_le_of_lt 64 _ (mask64x16_lt blk (ci * 64)))
    (fun w hw => by
      rw [unrollR]
      simp only [decide_eq_true_eq] at hw
      omega)
    input o
  rw [sse2_unrollx4, h]
  show some (tail 64 input _) = _
  exact congrArg some (kernelNF_eq_iter 64 (by norm_num) (by norm_num) input o)

/-- `compressed::x86_64::avx2_unroll`: window 256, guard
`write_i <= 256 - 32`, 32-byte chunks, then `tail 32`. -/
def avx2_unroll (input : Bytes) (o : LineIndex) : Option LineIndex :=
  match (chunksOf 65536 input).foldlM (fun o blk =>
      match outerLoopU unrollR (fun write_i => decide (write_i ≤ 256 - 32)) (by decide)
          ((fun blk ci => chunkMask (sub blk (ci * 32) 32)) blk) (emitLow 32)
          0 (blk.length / 32) () o.lows [] with
      | none => none
      | some (lows', _, _) =>
        some (⟨lows', o.high_starts ++ [o.lows.length]⟩ : LineIndex)) o with
  | none => none
  | some o' => some (tail 32 input o')

theorem avx2_unroll_eq_iter (input : Bytes) (o : LineIndex) :
    avx2_unroll input o = some (iter input o) := by
  have h := unroll_kernel_NF 32 (fun write_i => decide (write_i ≤ 256 - 32)) (by decide)
    (fun blk ci => chunkMask (sub blk (ci * 32) 32))
    (fun blk ci _ => rfl)
    (fun blk ci => by
      rw [maskBits_chunkMask]
      refine le_trans (nlPos_length_le _) ?_
      rw [sub_length]
      omega)
    (fun w hw => by
      rw [unrollR]
      simp only [decide_eq_true_eq] at hw
      omega)
    input o
  rw [avx2_unroll, h]
  show some (tail 32 input _) = _
  exact congrArg some (kernelNF_eq_iter 32 (by norm_num) (by norm_num) input o)

/-- `compressed::x86_64::avx2_unrollx2`: window 256, guard
`write_i <= 256 - 64`, 64-byte chunks assembled from two 32-byte masks,
then `tail 64`. -/
def avx2_unrollx2 (input : Bytes) (o : LineIndex) : Option LineIndex :=
  match (chunksOf 65536 input).foldlM (fun o blk =>
      match outerLoopU unrollR (fun write_i => decide (write_i ≤ 256 - 64)) (by decide)
          ((fun blk ci => mask64x32 blk (ci * 64)) blk) (emitLow 64)
          0 (blk.length / 64) () o.lows [] with
      | none => none
      | some (lows', _, _) =>
        some (⟨lows', o.high_starts ++ [o.lows.length]⟩ : LineIndex)) o with
  | none => none
  | some o' => some (tail 64 input o')

theorem avx2_unrollx2_eq_iter (input : Bytes) (o : LineIndex) :
    avx2_unrollx2 input o = some (iter input o) := by
  have h := unroll_kernel_NF 64 (fun write_i => decide (write_i ≤ 256 - 64)) (by decide)
    (fun blk ci => mask64x32 blk (ci * 64))
    (fun blk ci hci => by
      apply mask64x32_eq
      have h2 : (ci + 1) * 64 ≤ blk.length / 64 * 64 := Nat.mul_le_mul_right 64 hci
      have h3 := Nat.div_mul_le_self blk.length 64
      omega)
    (fun blk ci => maskBits_length_le_of_lt 64 _ (mask64x32_lt blk (ci * 64)))
    (fun w hw => by
      rw [unrollR]
      simp only [decide_eq_true_eq] at hw
      omega)
    input o
  rw [avx2_unrollx2, h]
  show some (tail 64 input _) = _
  exact congrArg some (kernelNF_eq_iter 64 (by norm_num) (by norm_num) input o)

end compressed

/-! ## Interleaved compressed kernels

`sse42_unrollx4_interleavex2` / `avx2_unrollx2_interleavex2` process two
64-byte strides A and B per 128-byte chunk with two write cursors.  During
A's bit loop, one B slot per iteration is written unconditionally using the
branch-free `tzcnt`-style primitive — a junk value when B's mask is already
exhausted — and the final `write_i += mask2_count` commit boundary leaves
any junk slots beyond the committed prefix. -/

theorem take_set_of_le (l : List β) (i j : Nat) (a : β) (h : j ≤ i) :
    (l.set i a).take j = l.take j := by
  induction l generalizing i j with
  | nil => rfl
  | cons x xs ih =>
    cases j with
    | zero => rfl
    | succ j =>
      cases i with
      | zero => omega
      | succ i =>
        rw [List.set_cons_succ, List.take_succ_cons, List.take_succ_cons, ih i j (by omega)]

/-- Overwrite the slots `[i, i + vals.length)` with written values. -/
def setSeg (arr : Scratch β) (i : Nat) (vals : List β) : Scratch β :=
  match vals with
  | [] => arr
  | v :: vs => setSeg (arr.set i (some v)) (i + 1) vs

theorem setSeg_length (vals : List β) (arr : Scratch β) (i : Nat) :
    (setSeg arr i vals).length = arr.length := by
  induction vals generalizing arr i with
  | nil => rfl
  | cons v vs ih => rw [setSeg, ih, List.length_set]

theorem setSeg_take_le (vals : List β) (arr : Scratch β) (i j : Nat) (h : j ≤ i) :
    (setSeg arr i vals).take j = arr.take j := by
  induction vals generalizing arr i with
  | nil => rfl
  | cons v vs ih =>
    rw [setSeg, ih (arr.set i (some v)) (i + 1) (by omega), take_set_of_le arr i j _ h]

theorem setSeg_take_partial (vals : List β) (arr : Scratch β) (i k : Nat)
    (hk : k ≤ vals.length) (hroom : i + k ≤ arr.length) :
    (setSeg arr i vals).take (i + k) = arr.take i ++ (vals.take k).map some := by
  induction vals generalizing arr i k with
  | nil =>
    have : k = 0 := by simpa using hk
    subst this
    simp [setSeg]
  | cons v vs ih =>
    cases k with
    | zero =>
      rw [Nat.add_zero]
      rw [setSeg, setSeg_take_le vs _ (i + 1) i (by omega), take_set_of_le arr i i _ le_rfl]
      simp
    | succ k =>
      have hlt : i < arr.length := by omega
      have harith : i + (k + 1) = (i + 1) + k := by omega
      rw [setSeg, harith,
        ih (arr.set i (some v)) (i + 1) k (by simpa using hk) (by rw [List.length_set]; omega),
        take_succ_set arr i _ hlt]
      simp

theorem setSeg_set_comm (vals : List β) (arr : Scratch β) (i j : Nat) (v : Option β)
    (h : i + vals.length ≤ j) :
    setSeg (arr.set j v) i vals = (setSeg arr i vals).set j v := by
  induction vals generalizing arr i with
  | nil => rfl
  | cons x xs ih =>
    have hlt : i < j := by
      simp only [List.length_cons] at h
      omega
    rw [setSeg, setSeg, List.set_comm _ _ _ (by omega : j ≠ i),
      ih (arr.set i (some x)) (i + 1) (by simp only [List.length_cons] at h; omega)]

/-- The B-stride values extracted by `a` successive unconditional
`tzcnt`-and-clear steps: the real mask bits first, then junk `64`s once the
mask is exhausted. -/
def bvals (m a : Nat) : List Nat :=
  match a with
  | 0 => []
  | a + 1 => tzcnt64 m :: bvals (m &&& (m - 1)) a

theorem bvals_spec (a : Nat) : ∀ m : Nat,
    bvals m a = (maskBits m).take a ++ List.replicate (a - (maskBits m).length) 64 := by
  induction a with
  | zero =>
    intro m
    simp [bvals]
  | succ k ih =>
    intro m
    by_cases h0 : m = 0
    · subst h0
      have hz : (0 : Nat) &&& (0 - 1) = 0 := by decide
      rw [bvals, hz, ih 0, maskBits_zero]
      simp [tzcnt64, List.replicate_succ]
    · rw [bvals, ih (m &&& (m - 1)), maskBits_cons h0, tzcnt64, if_neg h0]
      simp only [List.take_succ_cons, List.length_cons, List.cons_append]
      have harith : k + 1 - ((maskBits (m &&& (m - 1))).length + 1) =
          k - (maskBits (m &&& (m - 1))).length := by omega
      rw [harith]

theorem bvals_length (m a : Nat) : (bvals m a).length = a := by
  rw [bvals_spec]
  simp only [List.length_append, List.length_take, List.length_replicate]
  omega

/-- Innermost interleaved loop: per A bit, write one A slot at `write_i` and
one (possibly junk) B slot at `write_i2`, clearing the low bit of both
masks. -/
def loop1 (emitA emitB : Nat → Nat) (mask1 mask2 : Nat) (write_i write_i2 : Nat)
    (arr : Scratch Nat) : Option (Scratch Nat × Nat × Nat × Nat) :=
  if h : mask1 = 0 then some (arr, write_i, write_i2, mask2)
  else
    match writeSlot arr write_i (emitA (tzc mask1)) with
    | none => none
    | some a1 =>
      match writeSlot a1 write_i2 (emitB (tzcnt64 mask2)) with
      | none => none
      | some a2 =>
        loop1 emitA emitB (mask1 &&& (mask1 - 1)) (mask2 &&& (mask2 - 1))
          (write_i + 1) (write_i2 + 1) a2
termination_by mask1
decreasing_by
  exact Nat.lt_of_le_of_lt Nat.and_le_right
    (Nat.sub_lt (Nat.pos_of_ne_zero (by assumption)) Nat.one_pos)

theorem loop1_spec (emitA emitB : Nat → Nat) (mask1 : Nat) :
    ∀ (mask2 wi wi2 : Nat) (arr : Scratch Nat),
      wi + (maskBits mask1).length ≤ wi2 →
      wi2 + (maskBits mask1).length ≤ arr.length →
      loop1 emitA emitB mask1 mask2 wi wi2 arr =
        some (setSeg (setSeg arr wi ((maskBits mask1).map emitA)) wi2
            ((bvals mask2 (maskBits mask1).length).map emitB),
          wi + (maskBits mask1).length, wi2 + (maskBits mask1).length,
          dropLowN (maskBits mask1).length mask2) := by
  induction mask1 using Nat.strong_induction_on with
  | _ mask1 ih =>
    intro mask2 wi wi2 arr h1 h2
    by_cases h0 : mask1 = 0
    · subst h0
      conv_lhs => rw [loop1]
      rw [maskBits_zero]
      simp [bvals, setSeg, dropLowN]
    · have hcons := maskBits_cons h0
      have hlen1 : 1 ≤ (maskBits mask1).length := by
        rw [hcons]
        simp
      have hwlt : wi < arr.length := by omega
      have hw2lt : wi2 < arr.length := by omega
      have hwrite1 : writeSlot arr wi (emitA (tzc mask1)) =
          some (arr.set wi (some (emitA (tzc mask1)))) := by
        rw [writeSlot, if_pos hwlt]
      have hwrite2 : writeSlot (arr.set wi (some (emitA (tzc mask1)))) wi2
          (emitB (tzcnt64 mask2)) =
          some ((arr.set wi (some (emitA (tzc mask1)))).set wi2
            (some (emitB (tzcnt64 mask2)))) := by
        rw [writeSlot, if_pos (by rw [List.length_set]; omega)]
      have hdec : mask1 &&& (mask1 - 1) < mask1 :=
        Nat.lt_of_le_of_lt Nat.and_le_right
          (Nat.sub_lt (Nat.pos_of_ne_zero h0) Nat.one_pos)
      conv_lhs => rw [loop1]
      rw [dif_neg h0, hwrite1]
      dsimp only
      rw [hwrite2]
      dsimp only
      rw [ih (mask1 &&& (mask1 - 1)) hdec (mask2 &&& (mask2 - 1)) (wi + 1) (wi2 + 1)
        ((arr.set wi (some (emitA (tzc mask1)))).set wi2 (some (emitB (tzcnt64 mask2))))
        (by rw [hcons] at h1; simp only [List.length_cons] at h1; omega)
        (by rw [hcons] at h2; simp only [List.length_cons] at h2
            simp only [List.length_set]; omega)]
      rw [hcons]
      simp only [List.length_cons, List.map_cons, bvals, setSeg, dropLowN]
      have hcomm : setSeg ((arr.set wi (some (emitA (tzc mask1)))).set wi2
            (some (emitB (tzcnt64 mask2)))) (wi + 1)
            ((maskBits (mask1 &&& (mask1 - 1))).map emitA) =
          (setSeg (arr.set wi (some (emitA (tzc mask1)))) (wi + 1)
            ((maskBits (mask1 &&& (mask1 - 1))).map emitA)).set wi2
            (some (emitB (tzcnt64 mask2))) := by
        apply setSeg_set_comm
        rw [List.length_map]
        rw [hcons] at h1
        simp only [List.length_cons] at h1
        omega
      rw [hcomm]
      have harith1 : wi + 1 + (maskBits (mask1 &&& (mask1 - 1))).length =
          wi + ((maskBits (mask1 &&& (mask1 - 1))).length + 1) := by omega
      have harith2 : wi2 + 1 + (maskBits (mask1 &&& (mask1 - 1))).length =
          wi2 + ((maskBits (mask1 &&& (mask1 - 1))).length + 1) := by omega
      rw [harith1, harith2]

theorem maskLoopU_zero (emit : σ → Nat → α × σ) (st : σ) (wi : Nat) (arr : Scratch α) :
    maskLoopU emit 0 st wi arr = some (arr, wi, st) := by
  conv_lhs => rw [maskLoopU]
  simp

/-- One 128-byte iteration of an interleaved kernel: compute both stride
masks, interleave A's extraction with B's branch-free extraction, advance
the commit boundary by both popcounts, then drain B's remaining bits. -/
def interIter (maskA maskB : Nat) (emitA emitB : Nat → Nat) (write_i : Nat)
    (arr : Scratch Nat) : Option (Scratch Nat × Nat) :=
  match loop1 emitA emitB maskA maskB write_i (write_i + popCount maskA) arr with
  | none => none
  | some (arr1, wi1, wi21, mask2r) =>
    match maskLoopU (fun x bit => (emitB bit, x)) mask2r () wi21 arr1 with
    | none => none
    | some (arr2, _, _) => some (arr2, wi1 + popCount maskB)

theorem interIter_spec (maskA maskB : Nat) (emitA emitB : Nat → Nat) (wi : Nat)
    (arr : Scratch Nat) (done : List Nat)
    (hA : (maskBits maskA).length ≤ 64) (hB : (maskBits maskB).length ≤ 64)
    (hroom : wi + 128 ≤ arr.length)
    (hpre : arr.take wi = done.map some) :
    ∃ arr', interIter maskA maskB emitA emitB wi arr =
        some (arr', wi + (maskBits maskA).length + (maskBits maskB).length) ∧
      arr'.length = arr.length ∧
      arr'.take (wi + (maskBits maskA).length + (maskBits maskB).length) =
        ((done ++ (maskBits maskA).map emitA) ++ (maskBits maskB).map emitB).map some := by
  have hpc1 : popCount maskA = (maskBits maskA).length := popCount_eq_length_maskBits maskA
  have hpc2 : popCount maskB = (maskBits maskB).length := popCount_eq_length_maskBits maskB
  have hAlen : ((maskBits maskA).map emitA).length = (maskBits maskA).length :=
    List.length_map _ _
  have hBvlen : ((bvals maskB (maskBits maskA).length).map emitB).length =
      (maskBits maskA).length := by
    rw [List.length_map, bvals_length]
  have hl1 := loop1_spec emitA emitB maskA maskB wi (wi + popCount maskA) arr
    (by omega) (by omega)
  have htake1 : (setSeg arr wi ((maskBits maskA).map emitA)).take
      (wi + (maskBits maskA).length) =
      arr.take wi ++ ((maskBits maskA).map emitA).map some := by
    have h := setSeg_take_partial ((maskBits maskA).map emitA) arr wi
      (maskBits maskA).length (by rw [hAlen]) (by omega)
    rwa [List.take_of_length_le (le_of_eq hAlen)] at h
  have hseglen : (setSeg arr wi ((maskBits maskA).map emitA)).length = arr.length :=
    setSeg_length _ _ _
  rw [interIter, hl1, hpc1, hpc2]
  dsimp only
  by_cases hba : (maskBits maskB).length ≤ (maskBits maskA).length
  · -- B's mask is exhausted during loop1; the drain loop is a no-op.
    have hzero : dropLowN (maskBits maskA).length maskB = 0 :=
      dropLowN_popCount_eq_zero (by omega)
    rw [hzero, maskLoopU_zero]
    dsimp only
    refine ⟨_, rfl, ?_, ?_⟩
    · rw [setSeg_length, hseglen]
    · have h2 := setSeg_take_partial ((bvals maskB (maskBits maskA).length).map emitB)
        (setSeg arr wi ((maskBits maskA).map emitA)) (wi + (maskBits maskA).length)
        (maskBits maskB).length (by rw [hBvlen]; exact hba) (by rw [hseglen]; omega)
      rw [h2, htake1, hpre]
      have hBv : (bvals maskB (maskBits maskA).length).map emitB =
          (maskBits maskB).map emitB ++
            (List.replicate ((maskBits maskA).length - (maskBits maskB).length) 64).map emitB := by
        rw [bvals_spec, List.take_of_length_le hba, List.map_append]
      have htakeB : ((maskBits maskB).map emitB ++
          (List.replicate ((maskBits maskA).length - (maskBits maskB).length) 64).map
            emitB).take (maskBits maskB).length = (maskBits maskB).map emitB := by
        have h := List.take_left ((maskBits maskB).map emitB)
          ((List.replicate ((maskBits maskA).length - (maskBits maskB).length) 64).map emitB)
        rwa [List.length_map] at h
      rw [hBv, htakeB]
      simp [List.map_append]
  · -- B still has bits left; the drain loop writes them after the B segment.
    push_neg at hba
    have hdropbits : maskBits (dropLowN (maskBits maskA).length maskB) =
        (maskBits maskB).drop (maskBits maskA).length :=
      maskBits_dropLowN (maskBits maskA).length maskB
    have hdroplen : (maskBits (dropLowN (maskBits maskA).length maskB)).length =
        (maskBits maskB).length - (maskBits maskA).length := by
      rw [hdropbits, List.length_drop]
    have hBv2 : (bvals maskB (maskBits maskA).length).map emitB =
        ((maskBits maskB).take (maskBits maskA).length).map emitB := by
      rw [bvals_spec]
      have h0 : (maskBits maskA).length - (maskBits maskB).length = 0 := by omega
      rw [h0]
      simp
    have h2 := setSeg_take_partial ((bvals maskB (maskBits maskA).length).map emitB)
      (setSeg arr wi ((maskBits maskA).map emitA)) (wi + (maskBits maskA).length)
      (maskBits maskA).length (by rw [hBvlen]) (by rw [hseglen]; omega)
    rw [List.take_of_length_le (le_of_eq hBvlen)] at h2
    have hpre1 : (setSeg (setSeg arr wi ((maskBits maskA).map emitA))
        (wi + (maskBits maskA).length)
        ((bvals maskB (maskBits maskA).length).map emitB)).take
          (wi + (maskBits maskA).length + (maskBits maskA).length) =
        ((done ++ (maskBits maskA).map emitA) ++
          ((maskBits maskB).take (maskBits maskA).length).map emitB).map some := by
      rw [h2, htake1, hpre, hBv2]
      simp [List.map_append]
    have hroomL : (wi + (maskBits maskA).length + (maskBits maskA).length) +
        (maskBits (dropLowN (maskBits maskA).length maskB)).length ≤
        (setSeg (setSeg arr wi ((maskBits maskA).map emitA))
          (wi + (maskBits maskA).length)
          ((bvals maskB (maskBits maskA).length).map emitB)).length := by
      rw [hdroplen, setSeg_length, hseglen]
      omega
    obtain ⟨arr2, hml, hmlen, hmtake⟩ := maskLoopU_spec (fun x bit => (emitB bit, x))
      (dropLowN (maskBits maskA).length maskB) ()
      (wi + (maskBits maskA).length + (maskBits maskA).length)
      (setSeg (setSeg arr wi ((maskBits maskA).map emitA))
        (wi + (maskBits maskA).length)
        ((bvals maskB (maskBits maskA).length).map emitB))
      ((done ++ (maskBits maskA).map emitA) ++
        ((maskBits maskB).take (maskBits maskA).length).map emitB)
      hpre1 hroomL
    rw [hml]
    dsimp only
    refine ⟨arr2, rfl, ?_, ?_⟩
    · rw [hmlen, setSeg_length, hseglen]
    · have hemit : emitSeq (fun (x : Unit) bit => (emitB bit, x)) ()
          (maskBits (dropLowN (maskBits maskA).length maskB)) =
          ((maskBits (dropLowN (maskBits maskA).length maskB)).map emitB, ()) :=
        emitSeq_unit emitB _ _ (fun p _ => rfl)
      rw [hemit] at hmtake
      have hidx : wi + (maskBits maskA).length + (maskBits maskA).length +
          (maskBits (dropLowN (maskBits maskA).length maskB)).length =
          wi + (maskBits maskA).length + (maskBits maskB).length := by
        rw [hdroplen]
        omega
      rw [hidx] at hmtake
      rw [hmtake, hdropbits]
      rw [List.append_assoc (done ++ (maskBits maskA).map emitA), ← List.map_append,
        List.take_append_drop]

/-- `for _ in 0..k`: `k` interleaved 128-byte iterations starting at chunk
`ci`, threading the write cursor through the shared reservation window. -/
def interBlockLoop (mA mB : Nat → Nat) (eA eB : Nat → Nat → Nat) (ci k write_i : Nat)
    (arr : Scratch Nat) : Option (Scratch Nat × Nat) :=
  match k with
  | 0 => some (arr, write_i)
  | k + 1 =>
    match interIter (mA ci) (mB ci) (eA ci) (eB ci) write_i arr with
    | none => none
    | some (arr', wi') => interBlockLoop mA mB eA eB (ci + 1) k wi' arr'

/-- The values an interleaved kernel pushes for chunks `[ci, ci + k)`:
per chunk, stride A's values then stride B's values. -/
def interVals (mA mB : Nat → Nat) (eA eB : Nat → Nat → Nat) (ci k : Nat) : List Nat :=
  match k with
  | 0 => []
  | k + 1 => ((maskBits (mA ci)).map (eA ci) ++ (maskBits (mB ci)).map (eB ci)) ++
      interVals mA mB eA eB (ci + 1) k

theorem interVals_length_le (mA mB : Nat → Nat) (eA eB : Nat → Nat → Nat)
    (hA : ∀ ci, (maskBits (mA ci)).length ≤ 64) (hB : ∀ ci, (maskBits (mB ci)).length ≤ 64)
    (k : Nat) : ∀ ci, (interVals mA mB eA eB ci k).length ≤ 128 * k := by
  induction k with
  | zero =>
    intro ci
    simp [interVals]
  | succ j ih =>
    intro ci
    rw [interVals]
    simp only [List.length_append, List.length_map]
    have h1 := hA ci
    have h2 := hB ci
    have h3 := ih (ci + 1)
    omega

theorem interVals_add (mA mB : Nat → Nat) (eA eB : Nat → Nat → Nat) (k1 : Nat) :
    ∀ (ci : Nat) (k2 : Nat), interVals mA mB eA eB ci (k1 + k2) =
      interVals mA mB eA eB ci k1 ++ interVals mA mB eA eB (ci + k1) k2 := by
  induction k1 with
  | zero =>
    intro ci k2
    simp [interVals]
  | succ j ih =>
    intro ci k2
    have harith : j + 1 + k2 = (j + k2) + 1 := by omega
    rw [harith, interVals, interVals, ih (ci + 1) k2, List.append_assoc]
    have harith2 : ci + 1 + j = ci + (j + 1) := by omega
    rw [harith2]
    simp [List.append_assoc]

theorem interBlockLoop_spec (mA mB : Nat → Nat) (eA eB : Nat → Nat → Nat)
    (hA : ∀ ci, (maskBits (mA ci)).length ≤ 64) (hB : ∀ ci, (maskBits (mB ci)).length ≤ 64)
    (k : Nat) : ∀ (ci wi : Nat) (arr : Scratch Nat) (done : List Nat),
      wi + 128 * k ≤ arr.length →
      arr.take wi = done.map some →
      ∃ arr', interBlockLoop mA mB eA eB ci k wi arr =
          some (arr', wi + (interVals mA mB eA eB ci k).length) ∧
        arr'.length = arr.length ∧
        arr'.take (wi + (interVals mA mB eA eB ci k).length) =
          (done ++ interVals mA mB eA eB ci k).map some := by
  induction k with
  | zero =>
    intro ci wi arr done hroom hpre
    refine ⟨arr, ?_, rfl, ?_⟩
    · rw [interBlockLoop, interVals]
      simp
    · rw [interVals]
      simpa using hpre
  | succ j ih =>
    intro ci wi arr done hroom hpre
    obtain ⟨arr1, hit, hitlen, hittake⟩ := interIter_spec (mA ci) (mB ci) (eA ci) (eB ci)
      wi arr done (hA ci) (hB ci) (by omega) hpre
    obtain ⟨arr', hrec, hreclen, hrectake⟩ := ih (ci + 1)
      (wi + (maskBits (mA ci)).length + (maskBits (mB ci)).length) arr1
      ((done ++ (maskBits (mA ci)).map (eA ci)) ++ (maskBits (mB ci)).map (eB ci))
      (by
        rw [hitlen]
        have h1 := hA ci
        have h2 := hB ci
        omega)
      hittake
    refine ⟨arr', ?_, by rw [hreclen, hitlen], ?_⟩
    · rw [interBlockLoop, hit]
      dsimp only
      rw [hrec, interVals]
      simp only [List.length_append, List.length_map]
      congr 2
      omega
    · rw [interVals]
      have harith : wi + (((maskBits (mA ci)).map (eA ci) ++
            (maskBits (mB ci)).map (eB ci)) ++ interVals mA mB eA eB (ci + 1) j).length =
          wi + (maskBits (mA ci)).length + (maskBits (mB ci)).length +
            (interVals mA mB eA eB (ci + 1) j).length := by
        simp only [List.length_append, List.length_map]
        omega
      rw [harith, hrectake]
      simp [List.map_append, List.append_assoc]

/-- The reservation loop of an interleaved kernel: reserve
`min 32 (stop - chunk_i) * 128` slots, run that many 128-byte iterations,
commit the written prefix, repeat. -/
def interOuter (mA mB : Nat → Nat) (eA eB : Nat → Nat → Nat) (chunk_i stop : Nat)
    (lows : List Nat) : Option (List Nat) :=
  if h : chunk_i < stop then
    match interBlockLoop mA mB eA eB chunk_i (min 32 (stop - chunk_i)) 0
        (List.replicate (min 32 (stop - chunk_i) * 128) none) with
    | none => none
    | some (arr, write_i) =>
      match commit arr write_i with
      | none => none
      | some items =>
        interOuter mA mB eA eB (chunk_i + min 32 (stop - chunk_i)) stop (lows ++ items)
  else some lows
termination_by stop - chunk_i
decreasing_by omega

theorem interOuter_spec (mA mB : Nat → Nat) (eA eB : Nat → Nat → Nat)
    (hA : ∀ ci, (maskBits (mA ci)).length ≤ 64) (hB : ∀ ci, (maskBits (mB ci)).length ≤ 64)
    (stop : Nat) : ∀ (chunk_i : Nat) (lows : List Nat), chunk_i ≤ stop →
      interOuter mA mB eA eB chunk_i stop lows =
        some (lows ++ interVals mA mB eA eB chunk_i (stop - chunk_i)) := by
  have H : ∀ (n ci : Nat) (lows : List Nat), stop - ci ≤ n → ci ≤ stop →
      interOuter mA mB eA eB ci stop lows =
        some (lows ++ interVals mA mB eA eB ci (stop - ci)) := by
    intro n
    induction n with
    | zero =>
      intro ci lows hn hle
      have h : ¬ ci < stop := by omega
      rw [interOuter, dif_neg h]
      have h0 : stop - ci = 0 := by omega
      rw [h0, interVals]
      simp
    | succ m ihn =>
      intro ci lows hn hle
      by_cases hlt : ci < stop
      · have hic1 : 1 ≤ min 32 (stop - ci) := by omega
        obtain ⟨arr', hloop, hlen', htake'⟩ := interBlockLoop_spec mA mB eA eB hA hB
          (min 32 (stop - ci)) ci 0 (List.replicate (min 32 (stop - ci) * 128) none) []
          (by
            rw [List.length_replicate]
            omega)
          (by simp)
        have hvlen := interVals_length_le mA mB eA eB hA hB (min 32 (stop - ci)) ci
        have hcommit : commit arr' (0 + (interVals mA mB eA eB ci (min 32 (stop - ci))).length) =
            some (interVals mA mB eA eB ci (min 32 (stop - ci))) := by
          apply commit_of_prefix
          · rw [hlen', List.length_replicate]
            omega
          · simpa using htake'
        rw [interOuter, dif_pos hlt, hloop]
        dsimp only
        rw [hcommit]
        dsimp only
        rw [ihn (ci + min 32 (stop - ci)) _ (by omega) (by omega)]
        rw [List.append_assoc]
        have hsplit : interVals mA mB eA eB ci (min 32 (stop - ci)) ++
            interVals mA mB eA eB (ci + min 32 (stop - ci)) (stop - (ci + min 32 (stop - ci))) =
            interVals mA mB eA eB ci (stop - ci) := by
          rw [← interVals_add]
          congr 1
          omega
        rw [hsplit]
      · rw [interOuter, dif_neg hlt]
        have h0 : stop - ci = 0 := by omega
        rw [h0, interVals]
        simp
  exact fun ci lows hle => H (stop - ci) ci lows le_rfl hle

theorem nlPosRange_off (l : Bytes) (a w : Nat) :
    nlPosRange l a (a + w) = (nlPos (sub l a w)).map (· + a) := by
  rw [nlPosRange]
  have h : a + w - a = w := by omega
  rw [h]

namespace compressed

/-- Stride A's pushed value: `chunk_i as u16 * 128 + bit_pos` (`u16`). -/
def emitLowA (ci bit : Nat) : Nat := (ci % 65536 * 128 % 65536 + bit) % 65536

/-- Stride B's pushed value:
`(chunk_i as u16 * 128).wrapping_add(64).wrapping_add(bit_pos)`. -/
def emitLowB (ci bit : Nat) : Nat := ((ci % 65536 * 128 % 65536 + 64) % 65536 + bit) % 65536

theorem emitLowA_eval (ci bit : Nat) (hci : ci * 128 + 128 ≤ 65536) (hbit : bit < 64) :
    emitLowA ci bit = ci * 128 + bit := by
  have h1 : ci < 65536 := by omega
  have h2 : ci * 128 < 65536 := by omega
  rw [emitLowA, Nat.mod_eq_of_lt h1, Nat.mod_eq_of_lt h2, Nat.mod_eq_of_lt (by omega)]

theorem emitLowB_eval (ci bit : Nat) (hci : ci * 128 + 128 ≤ 65536) (hbit : bit < 64) :
    emitLowB ci bit = ci * 128 + 64 + bit := by
  have h1 : ci < 65536 := by omega
  have h2 : ci * 128 < 65536 := by omega
  rw [emitLowB, Nat.mod_eq_of_lt h1, Nat.mod_eq_of_lt h2, Nat.mod_eq_of_lt (by omega),
    Nat.mod_eq_of_lt (by omega)]

theorem interVals_nlPosRange (blk : Bytes) (hle : blk.length ≤ 65536)
    (mA mB : Nat → Nat) (k : Nat) :
    ∀ ci, (ci + k) * 128 ≤ blk.length →
      (∀ j, ci ≤ j → j < ci + k → mA j = chunkMask (sub blk (j * 128) 64)) →
      (∀ j, ci ≤ j → j < ci + k → mB j = chunkMask (sub blk (j * 128 + 64) 64)) →
      interVals mA mB emitLowA emitLowB ci k = nlPosRange blk (ci * 128) ((ci + k) * 128) := by
  induction k with
  | zero =>
    intro ci hk hA hB
    rw [interVals, Nat.add_zero, nlPosRange_empty blk (ci * 128) (ci * 128) le_rfl]
  | succ k ih =>
    intro ci hk hA hB
    have hci128 : ci * 128 + 128 ≤ blk.length := by
      have h1 : (ci + 1) * 128 ≤ (ci + (k + 1)) * 128 := Nat.mul_le_mul_right 128 (by omega)
      rw [Nat.add_mul, Nat.one_mul] at h1
      omega
    have hfit : ci * 128 + 128 ≤ 65536 := by omega
    have hmaskA : mA ci = chunkMask (sub blk (ci * 128) 64) := hA ci le_rfl (by omega)
    have hmaskB : mB ci = chunkMask (sub blk (ci * 128 + 64) 64) := hB ci le_rfl (by omega)
    have hApart : (maskBits (mA ci)).map (emitLowA ci) =
        nlPosRange blk (ci * 128) (ci * 128 + 64) := by
      rw [hmaskA, maskBits_chunkMask, nlPosRange_off]
      apply List.map_congr_left
      intro b hb
      have hblt : b < 64 := by
        have := nlPos_lt hb
        rw [sub_length] at this
        omega
      rw [emitLowA_eval ci b hfit hblt]
      omega
    have hBpart : (maskBits (mB ci)).map (emitLowB ci) =
        nlPosRange blk (ci * 128 + 64) (ci * 128 + 128) := by
      have h64 : ci * 128 + 128 = (ci * 128 + 64) + 64 := by omega
      rw [hmaskB, maskBits_chunkMask, h64, nlPosRange_off]
      apply List.map_congr_left
      intro b hb
      have hblt : b < 64 := by
        have := nlPos_lt hb
        rw [sub_length] at this
        omega
      rw [emitLowB_eval ci b hfit hblt]
      omega
    have hrec : interVals mA mB emitLowA emitLowB (ci + 1) k =
        nlPosRange blk ((ci + 1) * 128) ((ci + 1 + k) * 128) := by
      apply ih (ci + 1)
      · have : ci + 1 + k = ci + (k + 1) := by omega
        rw [this]
        exact hk
      · intro j hj1 hj2
        exact hA j (by omega) (by omega)
      · intro j hj1 hj2
        exact hB j (by omega) (by omega)
    rw [interVals, hApart, hBpart, hrec]
    have hc1 : nlPosRange blk (ci * 128) ((ci + (k + 1)) * 128) =
        nlPosRange blk (ci * 128) (ci * 128 + 64) ++
          nlPosRange blk (ci * 128 + 64) ((ci + (k + 1)) * 128) := by
      apply nlPosRange_concat blk _ _ _ (by omega) _ (by omega)
      have h1 : (ci + 1) * 128 ≤ (ci + (k + 1)) * 128 := Nat.mul_le_mul_right 128 (by omega)
      rw [Nat.add_mul, Nat.one_mul] at h1
      omega
    have hc2 : nlPosRange blk (ci * 128 + 64) ((ci + (k + 1)) * 128) =
        nlPosRange blk (ci * 128 + 64) (ci * 128 + 128) ++
          nlPosRange blk (ci * 128 + 128) ((ci + (k + 1)) * 128) := by
      apply nlPosRange_concat blk _ _ _ (by omega) _ (by omega)
      have h1 : (ci + 1) * 128 ≤ (ci + (k + 1)) * 128 := Nat.mul_le_mul_right 128 (by omega)
      rw [Nat.add_mul, Nat.one_mul] at h1
      omega
    have hmid : (ci + 1) * 128 = ci * 128 + 128 := by
      rw [Nat.add_mul, Nat.one_mul]
    have hend : (ci + 1 + k) * 128 = (ci + (k + 1)) * 128 := by
      have : ci + 1 + k = ci + (k + 1) := by omega
      rw [this]
    rw [hmid, hend, hc1, hc2, List.append_assoc]

/-- Shared shape of the two interleaved kernels. -/
theorem inter_kernel_NF (mA mB : Bytes → Nat → Nat)
    (hmAlen : ∀ blk ci, (maskBits (mA blk ci)).length ≤ 64)
    (hmBlen : ∀ blk ci, (maskBits (mB blk ci)).length ≤ 64)
    (hmA : ∀ blk ci, ci < blk.length / 128 → mA blk ci = chunkMask (sub blk (ci * 128) 64))
    (hmB : ∀ blk ci, ci < blk.length / 128 →
      mB blk ci = chunkMask (sub blk (ci * 128 + 64) 64))
    (input : Bytes) (o : LineIndex) :
    (chunksOf 65536 input).foldlM (fun o blk =>
      match interOuter (mA blk) (mB blk) emitLowA emitLowB 0 (blk.length / 128) o.lows with
      | none => none
      | some lows' =>
        some (⟨lows', o.high_starts ++ [o.lows.length]⟩ : LineIndex)) o =
      some ((chunksOf 65536 input).foldl (fun o blk =>
        (⟨o.lows ++ nlPosRange blk 0 (blk.length / 128 * 128),
          o.high_starts ++ [o.lows.length]⟩ : LineIndex)) o) := by
  apply foldlM_eq_foldl
  intro blk hblk acc
  have hle := chunksOf_mem_length_le 65536 input blk hblk
  rw [interOuter_spec (mA blk) (mB blk) emitLowA emitLowB (hmAlen blk) (hmBlen blk)
    (blk.length / 128) 0 acc.lows (Nat.zero_le _)]
  rw [Nat.sub_zero]
  rw [interVals_nlPosRange blk hle (mA blk) (mB blk) (blk.length / 128) 0
    (by rw [Nat.zero_add]; exact Nat.div_mul_le_self blk.length 128)
    (fun j _ hj2 => hmA blk j (by omega))
    (fun j _ hj2 => hmB blk j (by omega))]
  rw [Nat.zero_add, Nat.zero_mul]

/-- `compressed::x86_64::sse42_unrollx4_interleavex2`: 128-byte chunks, two
interleaved 64-byte strides assembled from four 16-byte masks each, window
`min 32 (stop - chunk_i) * 128`, then `tail 128`. -/
def sse42_unrollx4_interleavex2 (input : Bytes) (o : LineIndex) : Option LineIndex :=
  match (chunksOf 65536 input).foldlM (fun o blk =>
      match interOuter ((fun blk ci => mask64x16 blk (ci * 128)) blk)
          ((fun blk ci => mask64x16 blk (ci * 128 + 64)) blk)
          emitLowA emitLowB 0 (blk.length / 128) o.lows with
      | none => none
      | some lows' =>
        some (⟨lows', o.high_starts ++ [o.lows.length]⟩ : LineIndex)) o with
  | none => none
  | some o' => some (tail 128 input o')

theorem sse42_unrollx4_interleavex2_eq_iter (input : Bytes) (o : LineIndex) :
    sse42_unrollx4_interleavex2 input o = some (iter input o) := by
  have h := inter_kernel_NF (fun blk ci => mask64x16 blk (ci * 128))
    (fun blk ci => mask64x16 blk (ci * 128 + 64))
    (fun blk ci => maskBits_length_le_of_lt 64 _ (mask64x16_lt blk (ci * 128)))
    (fun blk ci => maskBits_length_le_of_lt 64 _ (mask64x16_lt blk (ci * 128 + 64)))
    (fun blk ci hci => by
      apply mask64x16_eq
      have h1 : (ci + 1) * 128 ≤ blk.length / 128 * 128 := Nat.mul_le_mul_right 128 hci
      have h2 := Nat.div_mul_le_self blk.length 128
      rw [Nat.add_mul, Nat.one_mul] at h1
      omega)
    (fun blk ci hci => by
      apply mask64x16_eq
      have h1 : (ci + 1) * 128 ≤ blk.length / 128 * 128 := Nat.mul_le_mul_right 128 hci
      have h2 := Nat.div_mul_le_self blk.length 128
      rw [Nat.add_mul, Nat.one_mul] at h1
      omega)
    input o
  rw [sse42_unrollx4_interleavex2, h]
  show some (tail 128 input _) = _
  exact congrArg some (kernelNF_eq_iter 128 (by norm_num) (by norm_num) input o)

/-- `compressed::x86_64::avx2_unrollx2_interleavex2`: 128-byte chunks, two
interleaved 64-byte strides assembled from two 32-byte masks each, window
`min 32 (stop - chunk_i) * 128`, then `tail 128`. -/
def avx2_unrollx2_interleavex2 (input : Bytes) (o : LineIndex) : Option LineIndex :=
  match (chunksOf 65536 input).foldlM (fun o blk =>
      match interOuter ((fun blk ci => mask64x32 blk (ci * 128)) blk)
          ((fun blk ci => mask64x32 blk (ci * 128 + 64)) blk)
          emitLowA emitLowB 0 (blk.length / 128) o.lows with
      | none => none
      | some lows' =>
        some (⟨lows', o.high_starts ++ [o.lows.length]⟩ : LineIndex)) o with
  | none => none
  | some o' => some (tail 128 input o')

theorem avx2_unrollx2_interleavex2_eq_iter (input : Bytes) (o : LineIndex) :
    avx2_unrollx2_interleavex2 input o = some (iter input o) := by
  have h := inter_kernel_NF (fun blk ci => mask64x32 blk (ci * 128))
    (fun blk ci => mask64x32 blk (ci * 128 + 64))
    (fun blk ci => maskBits_length_le_of_lt 64 _ (mask64x32_lt blk (ci * 128)))
    (fun blk ci => maskBits_length_le_of_lt 64 _ (mask64x32_lt blk (ci * 128 + 64)))
    (fun blk ci hci => by
      apply mask64x32_eq
      have h1 : (ci + 1) * 128 ≤ blk.length / 128 * 128 := Nat.mul_le_mul_right 128 hci
      have h2 := Nat.div_mul_le_self blk.length 128
      rw [Nat.add_mul, Nat.one_mul] at h1
      omega)
    (fun blk ci hci => by
      apply mask64x32_eq
      have h1 : (ci + 1) * 128 ≤ blk.length / 128 * 128 := Nat.mul_le_mul_right 128 hci
      have h2 := Nat.div_mul_le_self blk.length 128
      rw [Nat.add_mul, Nat.one_mul] at h1
      omega)
    input o
  rw [avx2_unrollx2_interleavex2, h]
  show some (tail 128 input _) = _
  exact congrArg some (kernelNF_eq_iter 128 (by norm_num) (by norm_num) input o)

end compressed

/-! ## `avx512_compress`

Per 64-byte chunk: `compress` the newline bit positions to the front of a
byte vector (zero padding behind), widen to `u16` and add the running
`offset_v` (`64 * chunk_i` per 16-bit lane), store 32 lanes unconditionally
at `write_i`, 32 more at `write_i + 64` bytes if more than 32 lines, and
advance `write_i` by the popcount. -/

/-- `storeBlock`: an unmasked vector store of `vals.length` consecutive
slots; out of the window is undefined behaviour. -/
def storeBlock (arr : Scratch Nat) (i : Nat) (vals : List Nat) : Option (Scratch Nat) :=
  if i + vals.length ≤ arr.length then some (setSeg arr i vals) else none

namespace compressed

/-- The lane value: compressed bit position plus the `i16` running offset. -/
def emit512 (ci bit : Nat) : Nat := (bit + 64 * ci % 65536) % 65536

theorem emit512_eval (ci bit : Nat) (hci : ci * 64 + 64 ≤ 65536) (hbit : bit < 64) :
    emit512 ci bit = bit + ci * 64 := by
  have h2 : 64 * ci < 65536 := by omega
  rw [emit512, Nat.mod_eq_of_lt h2, Nat.mod_eq_of_lt (by omega)]
  omega

/-- One 64-byte chunk of `avx512_compress`. -/
def compress512Iter (maskAt : Nat → Nat) (ci wi : Nat) (arr : Scratch Nat) :
    Option (Scratch Nat × Nat) :=
  let padded := maskBits (maskAt ci) ++ List.replicate (64 - (maskBits (maskAt ci)).length) 0
  match storeBlock arr wi ((padded.take 32).map (emit512 ci)) with
  | none => none
  | some a1 =>
    match (if 32 < popCount (maskAt ci) then
        storeBlock a1 (wi + 32) (((padded.drop 32).take 32).map (emit512 ci))
      else some a1) with
    | none => none
    | some a2 => some (a2, wi + popCount (maskAt ci))

theorem compress512Iter_spec (maskAt : Nat → Nat) (ci wi : Nat) (arr : Scratch Nat)
    (done : List Nat) (hlen : (maskBits (maskAt ci)).length ≤ 64)
    (hroom : wi + 64 ≤ arr.length) (hpre : arr.take wi = done.map some) :
    ∃ arr', compress512Iter maskAt ci wi arr =
        some (arr', wi + (maskBits (maskAt ci)).length) ∧
      arr'.length = arr.length ∧
      arr'.take (wi + (maskBits (maskAt ci)).length) =
        (done ++ (maskBits (maskAt ci)).map (emit512 ci)).map some := by
  have hpc : popCount (maskAt ci) = (maskBits (maskAt ci)).length :=
    popCount_eq_length_maskBits (maskAt ci)
  set bits := maskBits (maskAt ci) with hbits
  set padded := bits ++ List.replicate (64 - bits.length) 0 with hpadded
  have hplen : padded.length = 64 := by
    rw [hpadded, List.length_append, List.length_replicate]
    omega
  have htk32 : (padded.take 32).length = 32 := by
    rw [List.length_take, hplen]
    omega
  have hv1len : ((padded.take 32).map (emit512 ci)).length = 32 := by
    rw [List.length_map, htk32]
  have hstore1 : storeBlock arr wi ((padded.take 32).map (emit512 ci)) =
      some (setSeg arr wi ((padded.take 32).map (emit512 ci))) := by
    rw [storeBlock, if_pos (by rw [hv1len]; omega)]
  have hs1len : (setSeg arr wi ((padded.take 32).map (emit512 ci))).length = arr.length :=
    setSeg_length _ _ _
  rw [compress512Iter]
  rw [hstore1]
  dsimp only
  by_cases hle32 : bits.length ≤ 32
  · -- a single store covers everything; the commit boundary cuts the padding.
    rw [if_neg (by omega)]
    dsimp only
    refine ⟨_, by rw [hpc], hs1len, ?_⟩
    have h2 := setSeg_take_partial ((padded.take 32).map (emit512 ci)) arr wi
      bits.length (by rw [hv1len]; omega) (by omega)
    rw [h2, hpre]
    have htk : (((padded.take 32).map (emit512 ci)).take bits.length) =
        bits.map (emit512 ci) := by
      rw [← List.map_take, List.take_take, Nat.min_eq_left hle32, hpadded]
      have h := List.take_left bits (List.replicate (64 - bits.length) 0)
      rw [h]
    rw [htk]
    simp [List.map_append]
  · -- more than 32 lines: the second store writes lanes 32..63.
    push_neg at hle32
    rw [if_pos (by omega)]
    have hd32 : padded.drop 32 = bits.drop 32 ++ List.replicate (64 - bits.length) 0 := by
      rw [hpadded, List.drop_append_eq_append_drop]
      have h0 : 32 - bits.length = 0 := by omega
      rw [h0, List.drop_zero]
    have hdlen : ((padded.drop 32).take 32).length = 32 := by
      rw [List.length_take, List.length_drop, hplen]
      omega
    have hv2len : (((padded.drop 32).take 32).map (emit512 ci)).length = 32 := by
      rw [List.length_map, hdlen]
    have hstore2 : storeBlock (setSeg arr wi ((padded.take 32).map (emit512 ci))) (wi + 32)
        (((padded.drop 32).take 32).map (emit512 ci)) =
        some (setSeg (setSeg arr wi ((padded.take 32).map (emit512 ci))) (wi + 32)
          (((padded.drop 32).take 32).map (emit512 ci))) := by
      rw [storeBlock, if_pos (by rw [hv2len, hs1len]; omega)]
    rw [hstore2]
    dsimp only
    refine ⟨_, by rw [hpc], by rw [setSeg_length, hs1len], ?_⟩
    have harith : wi + bits.length = (wi + 32) + (bits.length - 32) := by omega
    have h2 := setSeg_take_partial (((padded.drop 32).take 32).map (emit512 ci))
      (setSeg arr wi ((padded.take 32).map (emit512 ci))) (wi + 32)
      (bits.length - 32) (by rw [hv2len]; omega) (by rw [hs1len]; omega)
    rw [harith, h2]
    have h3 := setSeg_take_partial ((padded.take 32).map (emit512 ci)) arr wi 32
      (by rw [hv1len]) (by omega)
    rw [List.take_of_length_le (le_of_eq hv1len)] at h3
    rw [h3, hpre]
    have htkA : padded.take 32 = bits.take 32 := by
      rw [hpadded, List.take_append_eq_append_take]
      have h0 : 32 - bits.length = 0 := by omega
      rw [h0, List.take_zero, List.append_nil]
    have htkB : (((padded.drop 32).take 32).map (emit512 ci)).take (bits.length - 32) =
        (bits.drop 32).map (emit512 ci) := by
      rw [← List.map_take, List.take_take, Nat.min_eq_left (by omega), hd32]
      have h := List.take_left (bits.drop 32) (List.replicate (64 - bits.length) 0)
      rw [List.length_drop] at h
      rw [h]
    rw [htkA, htkB]
    have hcat : (bits.take 32).map (emit512 ci) ++ (bits.drop 32).map (emit512 ci) =
        bits.map (emit512 ci) := by
      rw [← List.map_append, List.take_append_drop]
    conv_rhs => rw [← hcat]
    simp [List.map_append, List.append_assoc]

/-- Unit-state emitter for the avx512 kernel's reference semantics. -/
def emitAt512 (ci : Nat) (x : Unit) (bit : Nat) : Nat × Unit := (emit512 ci bit, x)

theorem emitSeq_512 (ci : Nat) (ps : List Nat) :
    emitSeq (emitAt512 ci) () ps = (ps.map (emit512 ci), ()) :=
  emitSeq_unit (emit512 ci) _ ps (fun p _ => rfl)

/-- The guarded inner loop of `avx512_compress`:
`while write_i <= (256 - 64) && chunk_i < stop`. -/
def inner512 (maskAt : Nat → Nat) (chunk_i stop : Nat) (write_i : Nat)
    (arr : Scratch Nat) : Option (Scratch Nat × Nat × Nat) :=
  if h : write_i ≤ 256 - 64 ∧ chunk_i < stop then
    match compress512Iter maskAt chunk_i write_i arr with
    | none => none
    | some (arr', wi') => inner512 maskAt (chunk_i + 1) stop wi' arr'
  else some (arr, write_i, chunk_i)
termination_by stop - chunk_i
decreasing_by exact Nat.sub_lt_sub_left h.2 (Nat.lt_succ_self chunk_i)

theorem inner512_ci_le (maskAt : Nat → Nat) (stop : Nat) :
    ∀ (n chunk_i wi : Nat) (arr arr' : Scratch Nat) (wi' ci' : Nat),
      stop - chunk_i ≤ n →
      inner512 maskAt chunk_i stop wi arr = some (arr', wi', ci') → chunk_i ≤ ci' := by
  intro n
  induction n with
  | zero =>
    intro ci wi arr arr' wi' ci' hn h
    rw [inner512, dif_neg (by intro hc; omega)] at h
    cases h
    omega
  | succ k ihn =>
    intro ci wi arr arr' wi' ci' hn h
    rw [inner512] at h
    by_cases hcond : wi ≤ 256 - 64 ∧ ci < stop
    · rw [dif_pos hcond] at h
      cases hres : compress512Iter maskAt ci wi arr with
      | none => rw [hres] at h; cases h
      | some r =>
        rw [hres] at h
        have := ihn (ci + 1) r.2 r.1 arr' wi' ci' (by omega) h
        omega
    · rw [dif_neg hcond] at h
      cases h
      omega

theorem inner512_progress (maskAt : Nat → Nat) (chunk_i stop : Nat)
    (arr arr' : Scratch Nat) (wi' ci' : Nat) (hlt : chunk_i < stop)
    (h : inner512 maskAt chunk_i stop 0 arr = some (arr', wi', ci')) : chunk_i < ci' := by
  rw [inner512, dif_pos ⟨by omega, hlt⟩] at h
  cases hres : compress512Iter maskAt chunk_i 0 arr with
  | none => rw [hres] at h; cases h
  | some r =>
    rw [hres] at h
    have := inner512_ci_le maskAt stop (stop - (chunk_i + 1)) (chunk_i + 1) r.2 r.1
      arr' wi' ci' le_rfl h
    omega

theorem inner512_spec (maskAt : Nat → Nat) (stop : Nat)
    (hmask : ∀ ci, (maskBits (maskAt ci)).length ≤ 64) :
    ∀ (n chunk_i wi : Nat) (arr : Scratch Nat) (done : List Nat),
      stop - chunk_i ≤ n → chunk_i ≤ stop → arr.length = 256 → wi ≤ 256 →
      arr.take wi = done.map some →
      ∃ arr' ci', inner512 maskAt chunk_i stop wi arr =
          some (arr', wi + (emitChunks maskAt emitAt512 chunk_i ci' ()).1.length, ci') ∧
        arr'.length = 256 ∧ chunk_i ≤ ci' ∧ ci' ≤ stop ∧
        wi + (emitChunks maskAt emitAt512 chunk_i ci' ()).1.length ≤ 256 ∧
        arr'.take (wi + (emitChunks maskAt emitAt512 chunk_i ci' ()).1.length) =
          (done ++ (emitChunks maskAt emitAt512 chunk_i ci' ()).1).map some := by
  intro n
  induction n with
  | zero =>
    intro ci wi arr done hn hle hlen hwi hpre
    refine ⟨arr, ci, ?_, hlen, le_rfl, hle, ?_, ?_⟩ <;>
      rw [emitChunks_stop maskAt emitAt512 ci ci (lt_irrefl _) ()]
    · rw [inner512, dif_neg (by intro hc; omega)]
      simp
    · simpa using hwi
    · simpa using hpre
  | succ k ihn =>
    intro ci wi arr done hn hle hlen hwi hpre
    by_cases hcond : wi ≤ 256 - 64 ∧ ci < stop
    · obtain ⟨arr2, hit, hitlen, hittake⟩ := compress512Iter_spec maskAt ci wi arr done
        (hmask ci) (by omega) hpre
      obtain ⟨arr', ci', hin, hlen', hci1, hci2, hwi', htake'⟩ :=
        ihn (ci + 1) (wi + (maskBits (maskAt ci)).length) arr2
          (done ++ (maskBits (maskAt ci)).map (emit512 ci))
          (by omega) (by omega) (by rw [hitlen, hlen])
          (by have := hmask ci; omega) hittake
      have hsplit := emitChunks_split maskAt emitAt512 ci (ci + 1) ci' (Nat.le_succ ci) hci1 ()
      rw [emitChunks_single, emitSeq_512] at hsplit
      dsimp only at hsplit
      refine ⟨arr', ci', ?_, hlen', by omega, hci2, ?_, ?_⟩
      · have hstep : inner512 maskAt ci stop wi arr =
            inner512 maskAt (ci + 1) stop (wi + (maskBits (maskAt ci)).length) arr2 := by
          rw [inner512, dif_pos hcond, hit]
        rw [hstep, hin, hsplit]
        simp only [List.length_append, List.length_map]
        congr 3
        omega
      · rw [hsplit]
        simp only [List.length_append, List.length_map]
        omega
      · rw [hsplit]
        simp only [List.length_append, List.length_map]
        have harith : wi + ((maskBits (maskAt ci)).length +
            (emitChunks maskAt emitAt512 (ci + 1) ci' ()).1.length) =
            (wi + (maskBits (maskAt ci)).length) +
              (emitChunks maskAt emitAt512 (ci + 1) ci' ()).1.length := by omega
        rw [harith, htake']
        simp [List.map_append, List.append_assoc]
    · refine ⟨arr, ci, ?_, hlen, le_rfl, hle, ?_, ?_⟩ <;>
        rw [emitChunks_stop maskAt emitAt512 ci ci (lt_irrefl _) ()]
      · rw [inner512, dif_neg hcond]
        simp
      · simpa using hwi
      · simpa using hpre

/-- The reservation loop of `avx512_compress`: reserve 256, run the guarded
inner loop, commit. -/
def outer512 (maskAt : Nat → Nat) (chunk_i stop : Nat) (lows : List Nat) :
    Option (List Nat) :=
  if hlt : chunk_i < stop then
    match hin : inner512 maskAt chunk_i stop 0 (List.replicate 256 none) with
    | none => none
    | some (arr', wi', ci') =>
      match commit arr' wi' with
      | none => none
      | some items => outer512 maskAt ci' stop (lows ++ items)
  else some lows
termination_by stop - chunk_i
decreasing_by
  have := inner512_progress maskAt chunk_i stop (List.replicate 256 none) arr' wi' ci' hlt hin
  omega

theorem outer512_step (maskAt : Nat → Nat) (chunk_i stop : Nat) (lows : List Nat)
    (hlt : chunk_i < stop) (arr' : Scratch Nat) (wi' ci' : Nat) (items : List Nat)
    (hin : inner512 maskAt chunk_i stop 0 (List.replicate 256 none) =
      some (arr', wi', ci'))
    (hcommit : commit arr' wi' = some items) :
    outer512 maskAt chunk_i stop lows = outer512 maskAt ci' stop (lows ++ items) := by
  conv_lhs => rw [outer512]
  rw [dif_pos hlt]
  split
  · rename_i heq
    rw [hin] at heq
    cases heq
  · rename_i a w c heq
    rw [hin] at heq
    simp only [Option.some.injEq, Prod.mk.injEq] at heq
    obtain ⟨rfl, rfl, rfl⟩ := heq
    rw [hcommit]

theorem outer512_spec (maskAt : Nat → Nat) (stop : Nat)
    (hmask : ∀ ci, (maskBits (maskAt ci)).length ≤ 64) :
    ∀ (chunk_i : Nat) (lows : List Nat), chunk_i ≤ stop →
      outer512 maskAt chunk_i stop lows =
        some (lows ++ (emitChunks maskAt emitAt512 chunk_i stop ()).1) := by
  have H : ∀ (n ci : Nat) (lows : List Nat), stop - ci ≤ n → ci ≤ stop →
      outer512 maskAt ci stop lows =
        some (lows ++ (emitChunks maskAt emitAt512 ci stop ()).1) := by
    intro n
    induction n with
    | zero =>
      intro ci lows hn hle
      rw [outer512, dif_neg (by omega), emitChunks_stop maskAt emitAt512 ci stop (by omega) ()]
      simp
    | succ k ihn =>
      intro ci lows hn hle
      by_cases hlt : ci < stop
      · obtain ⟨arr', ci', hin, hlen', hci1, hci2, hwi', htake'⟩ :=
          inner512_spec maskAt stop hmask (stop - ci) ci 0 (List.replicate 256 none) []
            le_rfl (by omega) (List.length_replicate 256 none) (by omega) (by simp)
        have hprog := inner512_progress maskAt ci stop (List.replicate 256 none) arr' _ ci'
          hlt hin
        have hcommit : commit arr' (0 + (emitChunks maskAt emitAt512 ci ci' ()).1.length) =
            some (emitChunks maskAt emitAt512 ci ci' ()).1 := by
          apply commit_of_prefix
          · rw [hlen']
            omega
          · simpa using htake'
        rw [outer512_step maskAt ci stop lows hlt arr'
          (0 + (emitChunks maskAt emitAt512 ci ci' ()).1.length) ci'
          (emitChunks maskAt emitAt512 ci ci' ()).1 hin hcommit,
          ihn ci' _ (by omega) hci2,
          emitChunks_split maskAt emitAt512 ci ci' stop (by omega) hci2 ()]
        have hunit : (emitChunks maskAt emitAt512 ci ci' ()).2 = () := rfl
        rw [hunit]
        simp [List.append_assoc]
      · rw [outer512, dif_neg hlt, emitChunks_stop maskAt emitAt512 ci stop hlt ()]
        simp
  exact fun ci lows hle => H (stop - ci) ci lows le_rfl hle

theorem emitChunks_512_lows (blk : Bytes) (b : Nat) (hb : b * 64 ≤ blk.length)
    (hle : blk.length ≤ 65536) : ∀ a,
    (emitChunks (fun ci => chunkMask (sub blk (ci * 64) 64)) emitAt512 a b ()).1 =
      nlPosRange blk (a * 64) (b * 64) := by
  have H : ∀ (n a : Nat), b - a ≤ n →
      (emitChunks (fun ci => chunkMask (sub blk (ci * 64) 64)) emitAt512 a b ()).1 =
        nlPosRange blk (a * 64) (b * 64) := by
    intro n
    induction n with
    | zero =>
      intro a hn
      rw [emitChunks_stop _ _ a b (by omega) (),
        nlPosRange_empty blk (a * 64) (b * 64) (Nat.mul_le_mul_right 64 (by omega))]
    | succ k ihn =>
      intro a hn
      by_cases hlt : a < b
      · rw [emitChunks_step _ _ a b hlt (), maskBits_chunkMask, emitSeq_512]
        dsimp only
        have h64 : a * 64 + 64 ≤ 65536 := by
          have h1 : (a + 1) * 64 ≤ b * 64 := Nat.mul_le_mul_right 64 (by omega)
          rw [Nat.add_mul, Nat.one_mul] at h1
          omega
        have hemit : (nlPos (sub blk (a * 64) 64)).map (emit512 a) =
            nlPosRange blk (a * 64) (a * 64 + 64) := by
          rw [nlPosRange_off]
          apply List.map_congr_left
          intro p hp
          have hplt : p < 64 := by
            have := nlPos_lt hp
            rw [sub_length] at this
            omega
          rw [emit512_eval a p h64 hplt]
        rw [hemit, ihn (a + 1) (by omega)]
        have hmid : (a + 1) * 64 = a * 64 + 64 := by
          rw [Nat.add_mul, Nat.one_mul]
        rw [hmid]
        rw [(nlPosRange_concat blk (a * 64) (a * 64 + 64) (b * 64) (by omega)
          (by
            have h1 : (a + 1) * 64 ≤ b * 64 := Nat.mul_le_mul_right 64 (by omega)
            rw [Nat.add_mul, Nat.one_mul] at h1
            omega)
          (by omega)).symm]
      · rw [emitChunks_stop _ _ a b hlt (),
          nlPosRange_empty blk (a * 64) (b * 64) (Nat.mul_le_mul_right 64 (by omega))]
  exact fun a => H (b - a) a le_rfl

/-- `compressed::x86_64::avx512_compress` (nightly): 64-byte chunks via
`compress`-store, window 256, guard `write_i <= 256 - 64`, then `tail 64`. -/
def avx512_compress (input : Bytes) (o : LineIndex) : Option LineIndex :=
  match (chunksOf 65536 input).foldlM (fun o blk =>
      match outer512 ((fun blk ci => chunkMask (sub blk (ci * 64) 64)) blk)
          0 (blk.length / 64) o.lows with
      | none => none
      | some lows' =>
        some (⟨lows', o.high_starts ++ [o.lows.length]⟩ : LineIndex)) o with
  | none => none
  | some o' => some (tail 64 input o')

theorem avx512_compress_eq_iter (input : Bytes) (o : LineIndex) :
    avx512_compress input o = some (iter input o) := by
  have h : (chunksOf 65536 input).foldlM (fun o blk =>
      match outer512 ((fun blk ci => chunkMask (sub blk (ci * 64) 64)) blk)
          0 (blk.length / 64) o.lows with
      | none => none
      | some lows' =>
        some (⟨lows', o.high_starts ++ [o.lows.length]⟩ : LineIndex)) o =
      some ((chunksOf 65536 input).foldl (fun o blk =>
        (⟨o.lows ++ nlPosRange blk 0 (blk.length / 64 * 64),
          o.high_starts ++ [o.lows.length]⟩ : LineIndex)) o) := by
    apply foldlM_eq_foldl
    intro blk hblk acc
    have hle := chunksOf_mem_length_le 65536 input blk hblk
    rw [outer512_spec (fun ci => chunkMask (sub blk (ci * 64) 64)) (blk.length / 64)
      (fun ci => maskBits_length_le_of_lt 64 _ (chunkMask_sub_lt blk (ci * 64) 64))
      0 acc.lows (Nat.zero_le _)]
    rw [emitChunks_512_lows blk (blk.length / 64) (Nat.div_mul_le_self blk.length 64) hle 0]
    try rw [Nat.zero_mul]
  rw [avx512_compress, h]
  show some (tail 64 input _) = _
  exact congrArg some (kernelNF_eq_iter 64 (by norm_num) (by norm_num) input o)

end compressed

/-! ## `LineIndex` invariants and reconstruction (claim C3) -/

namespace compressed

theorem highList_length (blocks : List Bytes) : ∀ n, (highList blocks n).length = blocks.length := by
  induction blocks with
  | nil =>
    intro n
    rfl
  | cons b bs ih =>
    intro n
    rw [highList, List.length_cons, ih]
    rfl

theorem highList_chain (blocks : List Bytes) :
    ∀ n, List.Chain' (· ≤ ·) (highList blocks n) := by
  induction blocks with
  | nil =>
    intro n
    exact List.chain'_nil
  | cons b bs ih =>
    intro n
    rw [highList]
    cases bs with
    | nil => simp [highList]
    | cons b2 bs2 =>
      rw [highList]
      exact List.chain'_cons.mpr ⟨by omega, by rw [← highList]; exact ih _⟩

theorem chunksOf65536_length (l : List α) :
    (chunksOf 65536 l).length = (l.length + 65535) / 65536 := by
  have H : ∀ (f : Nat) (l : List α), l.length ≤ f →
      (chunksOf 65536 l).length = (l.length + 65535) / 65536 := by
    intro f
    induction f with
    | zero =>
      intro l hf
      have h0 : l = [] := by
        cases l with
        | nil => rfl
        | cons x xs => simp at hf
      subst h0
      rw [chunksOf_nil]
      simp
    | succ k ihn =>
      intro l hf
      by_cases h0 : l = []
      · subst h0
        rw [chunksOf_nil]
        simp
      · have hpos : 0 < l.length := List.length_pos.mpr h0
        rw [chunksOf_cons 65536 l h0 (by omega), List.length_cons,
          ihn (l.drop 65536) (by simp only [List.length_drop]; omega)]
        simp only [List.length_drop]
        omega
  exact H l.length l le_rfl

/-- Absolute newline positions, block by block, starting at block `j`. -/
def absLows (blocks : List Bytes) (j : Nat) : List Nat :=
  match blocks with
  | [] => []
  | b :: bs => (nlPos b).map (· + j * 65536) ++ absLows bs (j + 1)

theorem blocksLows_length (blocks : List Bytes) :
    ∀ j, (blocksLows blocks).length = (absLows blocks j).length := by
  induction blocks with
  | nil =>
    intro j
    rfl
  | cons b bs ih =>
    intro j
    rw [blocksLows, absLows, List.length_append, List.length_append, List.length_map, ih (j + 1)]

theorem absLows_chunksOf (input : Bytes) :
    ∀ j, absLows (chunksOf 65536 input) j = (nlPos input).map (· + j * 65536) := by
  have H : ∀ (n : Nat) (input : Bytes), input.length ≤ n → ∀ j,
      absLows (chunksOf 65536 input) j = (nlPos input).map (· + j * 65536) := by
    intro n
    induction n with
    | zero =>
      intro input hn j
      have h0 : input = [] := by
        cases input with
        | nil => rfl
        | cons x xs => simp at hn
      subst h0
      rw [chunksOf_nil]
      simp [absLows, nlPos]
    | succ k ihn =>
      intro input hn j
      by_cases h0 : input = []
      · subst h0
        rw [chunksOf_nil]
        simp [absLows, nlPos]
      · by_cases hsmall : input.length ≤ 65536
        · have htake : input.take 65536 = input := List.take_of_length_le hsmall
          have hdrop : input.drop 65536 = [] := List.drop_eq_nil_of_le hsmall
          rw [chunksOf_cons 65536 input h0 (by omega), htake, hdrop, chunksOf_nil,
            absLows, absLows]
          simp
        · push_neg at hsmall
          have htlen : (input.take 65536).length = 65536 := by
            rw [List.length_take]
            omega
          rw [chunksOf_cons 65536 input h0 (by omega), absLows,
            ihn (input.drop 65536) (by simp only [List.length_drop]; omega) (j + 1)]
          have hsplit : nlPos input = nlPos (input.take 65536) ++
              (nlPos (input.drop 65536)).map (· + 65536) := by
            conv_lhs => rw [← List.take_append_drop 65536 input]
            rw [nlPos_append, htlen]
          rw [hsplit, List.map_append, List.map_map]
          congr 1
          apply List.map_congr_left
          intro p hp
          simp only [Function.comp]
          ring
  exact fun j => H input.length input le_rfl j

/-- The claim's reconstruction: for each block `b` (multiplier `j`), the
slice of `lows` between `high_starts[b]` and `high_starts[b+1]` (the final
bound being `lows.len()`), shifted by `b * 65536`. -/
def reconAux (lows : List Nat) (hs : List Nat) (j : Nat) : List Nat :=
  match hs with
  | [] => []
  | [s] => ((lows.drop s).take (lows.length - s)).map (· + j * 65536)
  | s :: s' :: rest => ((lows.drop s).take (s' - s)).map (· + j * 65536) ++
      reconAux lows (s' :: rest) (j + 1)

def reconstruct (ix : LineIndex) : List Nat := reconAux ix.lows ix.high_starts 0

theorem reconAux_highList (blocks : List Bytes) :
    ∀ (pre : List Nat) (j : Nat),
      reconAux (pre ++ blocksLows blocks) (highList blocks pre.length) j =
        absLows blocks j := by
  induction blocks with
  | nil =>
    intro pre j
    rfl
  | cons b bs ih =>
    intro pre j
    cases bs with
    | nil =>
      rw [highList, highList, blocksLows, blocksLows, List.append_nil, reconAux, absLows,
        absLows, List.append_nil, List.drop_left]
      have hlen : (pre ++ nlPos b).length - pre.length = (nlPos b).length := by
        rw [List.length_append]
        omega
      rw [hlen, List.take_length]
    | cons b2 bs2 =>
      rw [highList, highList, reconAux]
      have hslice : (((pre ++ blocksLows (b :: b2 :: bs2)).drop pre.length).take
          (pre.length + (nlPos b).length - pre.length)).map (· + j * 65536) =
          (nlPos b).map (· + j * 65536) := by
        rw [List.drop_left]
        have h1 : pre.length + (nlPos b).length - pre.length = (nlPos b).length := by omega
        rw [h1, blocksLows]
        have h := List.take_left (nlPos b) (blocksLows (b2 :: bs2))
        rw [h]
      have hrec : reconAux (pre ++ blocksLows (b :: b2 :: bs2))
          (highList (b2 :: bs2) (pre.length + (nlPos b).length)) (j + 1) =
          absLows (b2 :: bs2) (j + 1) := by
        have hpre' : (pre ++ nlPos b).length = pre.length + (nlPos b).length := by
          rw [List.length_append]
        have hassoc : pre ++ blocksLows (b :: b2 :: bs2) =
            (pre ++ nlPos b) ++ blocksLows (b2 :: bs2) := by
          rw [blocksLows, List.append_assoc]
        rw [hassoc, ← hpre', ih (pre ++ nlPos b) (j + 1)]
      rw [← highList, hslice, hrec]
      simp [absLows]

theorem reconstruct_iter (input : Bytes) :
    reconstruct (iter input ⟨[], []⟩) = nlPos input := by
  rw [iter_spec, reconstruct]
  show reconAux ([] ++ blocksLows (chunksOf 65536 input))
    (highList (chunksOf 65536 input) ([] : List Nat).length) 0 = nlPos input
  rw [reconAux_highList (chunksOf 65536 input) [] 0, absLows_chunksOf input 0]
  simp

/-! ## Harness model (`main`)

Per stage, the harness prepares the scratch buffer, then runs each
registered kernel whose CPU-feature predicate passes, printing a skip line
otherwise.  Only the compressed family is verified: after each compressed
kernel, `assert!(out == test_compressed_buf)` aborts naming the kernel and
the stage; slice outputs are never compared. -/

end compressed

namespace harness

/-- The pre-allocated scratch buffer: `vec![b'a'; 1024 * 1024 * 1024]`. -/
def scratchLen : Nat := 1024 * 1024 * 1024

/-- The `"single line"` stage's prep: `|vec| vec.len()`. -/
def singleLineLen (len : Nat) : Nat := len

/-- `prep_vec_range::<M, N>`'s return: `vec.len().min(256 * 1024 * 1024)`. -/
def prepVecRangeLen (len : Nat) : Nat := min len (256 * 1024 * 1024)

/-- The `"0-0"` all-newlines stage's return: `vec.len().min(64 * 1024 * 1024)`. -/
def allNewlinesLen (len : Nat) : Nat := min len (64 * 1024 * 1024)

/-- The active lengths of the eight benchmark stages on a buffer of `len`
bytes, in registration order. -/
def stageLens (len : Nat) : List Nat :=
  [singleLineLen len, prepVecRangeLen len, prepVecRangeLen len, prepVecRangeLen len,
    prepVecRangeLen len, prepVecRangeLen len, prepVecRangeLen len, allNewlinesLen len]

/-- What a bench-loop iteration shows the user. -/
inductive Event where
  | ran (label : String)
  | skipped (msg : String)
  | aborted (msg : String)
deriving DecidableEq

def skipMsg (label : String) : String :=
  "skipping " ++ label ++ " because of missing CPU features"

def abortMsg (label stage : String) : String :=
  "(compressed) " ++ label ++ " failed during " ++ stage

structure SliceCase where
  label : String
  feat : Bool
  run : Bytes → List Bytes → Option (List Bytes)

structure CompCase where
  label : String
  feat : Bool
  run : Bytes → LineIndex → Option LineIndex

def emptyIndex : LineIndex := ⟨[], []⟩

/-- One slice bench iteration: skip on a failed feature check, otherwise run
the kernel on a cleared buffer.  The output is never compared to anything. -/
def runSliceCase (input : Bytes) (c : SliceCase) : Event × Option (List Bytes) :=
  if c.feat then (.ran c.label, c.run input []) else (.skipped (skipMsg c.label), none)

def runSlice (input : Bytes) (cases : List SliceCase) : List Event :=
  cases.map (fun c => (runSliceCase input c).1)

/-- The compressed bench loop: per kernel, skip on a failed feature check,
otherwise run it on a cleared `LineIndex` and compare against the `iter`
reference computed for this stage; a mismatch aborts the run with a message
naming the kernel and the stage. -/
def runCompressed (stage : String) (input : Bytes) : List CompCase → List Event
  | [] => []
  | c :: cs =>
    if c.feat then
      if c.run input emptyIndex = some (compressed.iter input emptyIndex) then
        .ran c.label :: runCompressed stage input cs
      else [.aborted (abortMsg c.label stage)]
    else .skipped (skipMsg c.label) :: runCompressed stage input cs

/-- The slice-family registry of `main` (labels and feature predicates as
registered; the AVX2 entries share `can_run_avx2`). -/
def sliceCases (avx2feat : Bool) : List SliceCase :=
  [⟨"std_reuse", true, fun i o => some (slice.std_reuse i o)⟩,
    ⟨"sse2", true, fun i o => some (slice.sse2 i o)⟩,
    ⟨"sse2_unsafe", true, fun i o => some (slice.sse2_unchecked i o)⟩,
    ⟨"sse2_unroll", true, fun i o => (slice.sse2_unroll i o).map Prod.fst⟩,
    ⟨"sse2_unrollx4", true, fun i o => (slice.sse2_unrollx4 i o).map Prod.fst⟩,
    ⟨"avx2", avx2feat, fun i o => some (slice.avx2 i o)⟩,
    ⟨"avx2_unsafe", avx2feat, fun i o => some (slice.avx2_unchecked i o)⟩,
    ⟨"avx2_unroll", avx2feat, fun i o => (slice.avx2_unroll i o).map Prod.fst⟩,
    ⟨"avx2_unrollx2", avx2feat, fun i o => (slice.avx2_unrollx2 i o).map Prod.fst⟩]

/-- The compressed-family registry of `main` (the AVX512 entry is gated on
the nightly feature's predicate). -/
def compCases (sse42feat avx2feat avx512feat : Bool) : List CompCase :=
  [⟨"iter", true, fun i o => some (compressed.iter i o)⟩,
    ⟨"sse2", true, fun i o => some (compressed.sse2 i o)⟩,
    ⟨"sse2 unroll", true, compressed.sse2_unroll⟩,
    ⟨"sse2 unrollx4", true, compressed.sse2_unrollx4⟩,
    ⟨"sse4 intrlv", sse42feat, compressed.sse42_unrollx4_interleavex2⟩,
    ⟨"avx2 unroll", avx2feat, compressed.avx2_unroll⟩,
    ⟨"avx2 unrollx2", avx2feat, compressed.avx2_unrollx2⟩,
    ⟨"avx2 intrlv", avx2feat, compressed.avx2_unrollx2_interleavex2⟩,
    ⟨"avx512", avx512feat, compressed.avx512_compress⟩]

theorem runSlice_events (input : Bytes) (cases : List SliceCase) :
    runSlice input cases = cases.map
      (fun c => if c.feat then Event.ran c.label else Event.skipped (skipMsg c.label)) := by
  apply List.map_congr_left
  intro c _
  by_cases h : c.feat
  · simp [runSliceCase, h]
  · simp [runSliceCase, h]

theorem runCompressed_abort_iff (stage : String) (input : Bytes) (cases : List CompCase) :
    (∃ m, Event.aborted m ∈ runCompressed stage input cases) ↔
      (∃ c, c ∈ cases ∧ c.feat = true ∧
        c.run input emptyIndex ≠ some (compressed.iter input emptyIndex)) := by
  induction cases with
  | nil => simp [runCompressed]
  | cons c cs ih =>
    rw [runCompressed]
    by_cases hf : c.feat
    · rw [if_pos hf]
      by_cases hr : c.run input emptyIndex = some (compressed.iter input emptyIndex)
      · rw [if_pos hr]
        simp only [List.mem_cons]
        constructor
        · intro ⟨m, hm⟩
          rcases hm with hm | hm
          · cases hm
          · obtain ⟨c', hc', hcf, hcr⟩ := ih.mp ⟨m, hm⟩
            exact ⟨c', Or.inr hc', hcf, hcr⟩
        · intro ⟨c', hc', hcf, hcr⟩
          rcases hc' with rfl | hc'
          · exact absurd hr hcr
          · obtain ⟨m, hm⟩ := ih.mpr ⟨c', hc', hcf, hcr⟩
            exact ⟨m, Or.inr hm⟩
      · rw [if_neg hr]
        constructor
        · intro _
          exact ⟨c, List.mem_cons_self c cs, hf, hr⟩
        · intro _
          exact ⟨abortMsg c.label stage, List.mem_singleton.mpr rfl⟩
    · rw [if_neg hf]
      simp only [List.mem_cons]
      constructor
      · intro ⟨m, hm⟩
        rcases hm with hm | hm
        · cases hm
        · obtain ⟨c', hc', hcf, hcr⟩ := ih.mp ⟨m, hm⟩
          exact ⟨c', Or.inr hc', hcf, hcr⟩
      · intro ⟨c', hc', hcf, hcr⟩
        rcases hc' with rfl | hc'
        · rw [hcf] at hf
          exact absurd rfl hf
        · obtain ⟨m, hm⟩ := ih.mpr ⟨c', hc', hcf, hcr⟩
          exact ⟨m, Or.inr hm⟩

/-- With the actual registry, every enabled compressed kernel matches the
`iter` reference, so the run never aborts, whatever the CPU features. -/
theorem runCompressed_registry (stage : String) (input : Bytes) (a b c : Bool) :
    runCompressed stage input (compCases a b c) = (compCases a b c).map
      (fun cse => if cse.feat then Event.ran cse.label
        else Event.skipped (skipMsg cse.label)) := by
  cases a <;> cases b <;> cases c <;>
    simp [compCases, runCompressed, compressed.sse2_eq_iter,
      compressed.sse2_unroll_eq_iter, compressed.sse2_unrollx4_eq_iter,
      compressed.sse42_unrollx4_interleavex2_eq_iter, compressed.avx2_unroll_eq_iter,
      compressed.avx2_unrollx2_eq_iter, compressed.avx2_unrollx2_interleavex2_eq_iter,
      compressed.avx512_compress_eq_iter]

end harness

/-! ## The claims -/

/-- Claim C1 (corrected).  Every compressed-family x86 kernel produces the
`LineIndex` the scalar oracle `iter` produces, for every input and starting
index.  Every slice-family x86 kernel appends exactly `refSplit input` — one
view per newline plus the non-empty residual — but the scalar oracle
`std_reuse` (`str::lines`) agrees with that only on inputs without a
carriage return immediately before a newline: `lines()` strips the `\r`,
the kernels do not, so the claimed kernel-equals-oracle identity for the
slice family holds only in the absence of CRLF sequences. -/
theorem C1 :
    (∀ input o, compressed.sse2 input o = compressed.iter input o) ∧
    (∀ input o, compressed.sse2_unroll input o = some (compressed.iter input o)) ∧
    (∀ input o, compressed.sse2_unrollx4 input o = some (compressed.iter input o)) ∧
    (∀ input o, compressed.sse42_unrollx4_interleavex2 input o =
      some (compressed.iter input o)) ∧
    (∀ input o, compressed.avx2_unroll input o = some (compressed.iter input o)) ∧
    (∀ input o, compressed.avx2_unrollx2 input o = some (compressed.iter input o)) ∧
    (∀ input o, compressed.avx2_unrollx2_interleavex2 input o =
      some (compressed.iter input o)) ∧
    (∀ input o, compressed.avx512_compress input o = some (compressed.iter input o)) ∧
    (∀ input out, slice.sse2 input out = out ++ slice.refSplit input) ∧
    (∀ input out, slice.sse2_unchecked input out = out ++ slice.refSplit input) ∧
    (∀ input out, slice.avx2 input out = out ++ slice.refSplit input) ∧
    (∀ input out, slice.avx2_unchecked input out = out ++ slice.refSplit input) ∧
    (∀ input out, ∃ k, slice.sse2_unroll input out =
      some (out ++ slice.refSplit input, List.replicate k unrollR)) ∧
    (∀ input out, ∃ k, slice.sse2_unrollx4 input out =
      some (out ++ slice.refSplit input, List.replicate k unrollR)) ∧
    (∀ input out, ∃ k, slice.avx2_unroll input out =
      some (out ++ slice.refSplit input, List.replicate k unrollR)) ∧
    (∀ input out, ∃ k, slice.avx2_unrollx2 input out =
      some (out ++ slice.refSplit input, List.replicate k unrollR)) ∧
    (∀ input out, hasCRLF input = false →
      slice.std_reuse input out = out ++ slice.refSplit input) :=
  ⟨compressed.sse2_eq_iter, compressed.sse2_unroll_eq_iter,
    compressed.sse2_unrollx4_eq_iter, compressed.sse42_unrollx4_interleavex2_eq_iter,
    compressed.avx2_unroll_eq_iter, compressed.avx2_unrollx2_eq_iter,
    compressed.avx2_unrollx2_interleavex2_eq_iter, compressed.avx512_compress_eq_iter,
    slice.sse2_eq, fun input out => slice.sse2_eq input out,
    slice.avx2_eq, fun input out => slice.avx2_eq input out,
    slice.sse2_unroll_eq, slice.sse2_unrollx4_eq, slice.avx2_unroll_eq,
    slice.avx2_unrollx2_eq,
    fun input out hcr => by
      rw [slice.std_reuse, slice.rustLines_eq_refSplit input hcr]⟩

/-- Witness for C1: on the CRLF-free input `"a\n"`, the scalar slice oracle
agrees with the kernels' `refSplit`. -/
theorem C1_witness : hasCRLF [97, 10] = false ∧
    slice.std_reuse [97, 10] [] = [] ++ slice.refSplit [97, 10] :=
  ⟨by decide, C1.2.2.2.2.2.2.2.2.2.2.2.2.2.2.2.2 [97, 10] [] (by decide)⟩

/- Counterexample to C1 as stated: on the input `"a\r\n"` the sse2 slice
kernel emits the view `"a\r"` while the scalar oracle `std_reuse` emits
`"a"`. -/
unseal tzc maskBits maskLoopP chunkLoopP slice.tailLoop in
theorem C1_cex : slice.sse2 [97, 13, 10] [] ≠ slice.std_reuse [97, 13, 10] [] := by
  decide

/-- Claim C2 (corrected).  The scalar slice oracle is `str::lines`, which
recognizes only `0x0A` as a delimiter but DOES strip a carriage return that
immediately precedes the newline: each emitted view is the bytes strictly
between consecutive newlines with one trailing `0x0D` removed, and the
final non-terminated residual is kept verbatim.  Only on CRLF-free input do
the views equal the raw between-newline ranges. -/
theorem C2 :
    (∀ input, slice.std input = slice.linesSpec input) ∧
    (∀ input out, slice.std_reuse input out = out ++ slice.linesSpec input) ∧
    (∀ input, hasCRLF input = false → slice.std input = slice.refSplit input) :=
  ⟨fun input => slice.rustLines_eq_linesSpec input,
    fun input out => by rw [slice.std_reuse, slice.rustLines_eq_linesSpec input],
    fun input hcr => slice.rustLines_eq_refSplit input hcr⟩

/-- Witness for C2: on the CRLF-free input `"a\n"` the oracle emits the raw
between-newline view. -/
theorem C2_witness : hasCRLF [97, 10] = false ∧
    slice.std [97, 10] = slice.refSplit [97, 10] :=
  ⟨by decide, C2.2.2 [97, 10] (by decide)⟩

/-- Counterexample to C2 as stated: the claim predicts `"a\r\n"` yields the
single view `"a\r"`; `str::lines` actually yields `"a"`. -/
theorem C2_cex : slice.std [97, 13, 10] ≠ [[97, 13]] := by
  decide

/-- Claim C3 (confirmed).  After `iter` on an empty `LineIndex`:
`high_starts` has `⌈L / 65536⌉` entries, is non-decreasing and starts at 0
(when the input is non-empty); `lows` has one entry per newline byte; and
re-expanding each block's slice of `lows` by `b * 65536` reconstructs
exactly the newline positions of the input, in strictly increasing order. -/
theorem C3 (input : Bytes) :
    (compressed.iter input ⟨[], []⟩).high_starts.length =
      (input.length + 65535) / 65536 ∧
    List.Chain' (· ≤ ·) (compressed.iter input ⟨[], []⟩).high_starts ∧
    (input ≠ [] → (compressed.iter input ⟨[], []⟩).high_starts.head? = some 0) ∧
    (compressed.iter input ⟨[], []⟩).lows.length = (nlPos input).length ∧
    compressed.reconstruct (compressed.iter input ⟨[], []⟩) = nlPos input ∧
    List.Chain' (· < ·) (compressed.reconstruct (compressed.iter input ⟨[], []⟩)) := by
  refine ⟨?_, ?_, ?_, ?_, compressed.reconstruct_iter input, ?_⟩
  · rw [compressed.iter_spec]
    show (([] : List Nat) ++ compressed.highList (chunksOf 65536 input) ([] : List Nat).length).length = _
    rw [List.nil_append, compressed.highList_length, compressed.chunksOf65536_length]
  · rw [compressed.iter_spec]
    show List.Chain' (· ≤ ·) (([] : List Nat) ++ compressed.highList (chunksOf 65536 input) ([] : List Nat).length)
    rw [List.nil_append]
    exact compressed.highList_chain _ _
  · intro h0
    rw [compressed.iter_spec]
    show (([] : List Nat) ++ compressed.highList (chunksOf 65536 input) ([] : List Nat).length).head? = some 0
    rw [List.nil_append, chunksOf_cons 65536 input h0 (by omega), compressed.highList]
    rfl
  · rw [compressed.iter_spec]
    show (([] : List Nat) ++ compressed.blocksLows (chunksOf 65536 input)).length = _
    rw [List.nil_append, compressed.blocksLows_length (chunksOf 65536 input) 0,
      compressed.absLows_chunksOf input 0, List.length_map]
  · rw [compressed.reconstruct_iter input]
    exact nlPos_chain input

/-- Witness for C3: on the non-empty input `"a\n"` the single
`high_starts` entry is 0. -/
theorem C3_witness : ([97, 10] : Bytes) ≠ [] ∧
    (compressed.iter [97, 10] ⟨[], []⟩).high_starts.head? = some 0 :=
  ⟨by decide, (C3 [97, 10]).2.2.1 (by decide)⟩

/-- Claim C4 (corrected).  Joining the views emitted by the x86 slice
kernels (`refSplit`) with single `0x0A` separators yields the input exactly,
minus the trailing `0x0A` when the input ends in one.  For the scalar
oracle `std_reuse` the law fails in general, because `str::lines` strips a
carriage return before each newline; it holds there too on CRLF-free
inputs via C1/C2's equivalences. -/
theorem C4 (input : Bytes) :
    joinNL (slice.sse2 input []) =
      (if input.getLast? = some 10 then input.dropLast else input) ∧
    joinNL (slice.refSplit input) =
      (if input.getLast? = some 10 then input.dropLast else input) := by
  constructor
  · rw [slice.sse2_eq input [], List.nil_append]
    exact slice.join_refSplit input
  · exact slice.join_refSplit input

/- Counterexample to C4 as stated for the scalar oracle: on `"a\r\n"` the
join of `std_reuse`'s views is `"a"`, not the input minus its trailing
newline (`"a\r"`). -/
theorem C4_cex : joinNL (slice.std_reuse [97, 13, 10] []) ≠ [97, 13] := by
  decide

/-- Claim C5 (confirmed).  For the x86 slice kernels (all of which emit
`refSplit`): an empty input yields no views; an input ending in `0x0A`
yields exactly one view per newline with no empty trailing element; and an
input not ending in `0x0A` has the non-empty residual
`[finalLineStart, len)` appended as the final view. -/
theorem C5 (input : Bytes) :
    slice.sse2 input [] = slice.refSplit input ∧
    slice.avx2 input [] = slice.refSplit input ∧
    (input = [] → slice.refSplit input = []) ∧
    (input.getLast? = some 10 →
      slice.refSplit input = (slice.emitAllViews input 0 (nlPos input)).1 ∧
      (slice.refSplit input).length = (nlPos input).length) ∧
    (input ≠ [] → input.getLast? ≠ some 10 →
      slice.refSplit input = (slice.emitAllViews input 0 (nlPos input)).1 ++
        [slice.view input (slice.finalLineStart input) input.length] ∧
      slice.view input (slice.finalLineStart input) input.length ≠ []) := by
  refine ⟨?_, ?_, ?_, ?_, ?_⟩
  · rw [slice.sse2_eq input [], List.nil_append]
  · rw [slice.avx2_eq input [], List.nil_append]
  · intro h
    subst h
    exact slice.refSplit_nil
  · intro h
    exact ⟨slice.refSplit_terminated input h, slice.refSplit_terminated_length input h⟩
  · intro h0 h10
    exact slice.refSplit_unterminated input h0 h10

/-- Witness for C5: the newline-terminated input `"a\n"` gets no trailing
empty view. -/
theorem C5_witness : ([97, 10] : Bytes).getLast? = some 10 ∧
    slice.refSplit [97, 10] = (slice.emitAllViews [97, 10] 0 (nlPos [97, 10])).1 :=
  ⟨by decide, ((C5 [97, 10]).2.2.2.1 (by decide)).1⟩

/-- Claim C6 (confirmed).  In the model every raw indexed store into the
reservation window fails (`none`) if its index is outside the window, and
every `set_len` commit fails if it covers a never-written slot; each unroll
and interleave kernel returning `some` for every input therefore shows all
its raw writes stay inside the caller-allocated reservation and every
committed slot was written in that inner loop. -/
theorem C6 (input : Bytes) (out : List Bytes) (o : LineIndex) :
    (∃ r, slice.sse2_unroll input out = some r) ∧
    (∃ r, slice.sse2_unrollx4 input out = some r) ∧
    (∃ r, slice.avx2_unroll input out = some r) ∧
    (∃ r, slice.avx2_unrollx2 input out = some r) ∧
    (∃ o2, compressed.sse2_unroll input o = some o2) ∧
    (∃ o2, compressed.sse2_unrollx4 input o = some o2) ∧
    (∃ o2, compressed.sse42_unrollx4_interleavex2 input o = some o2) ∧
    (∃ o2, compressed.avx2_unroll input o = some o2) ∧
    (∃ o2, compressed.avx2_unrollx2 input o = some o2) ∧
    (∃ o2, compressed.avx2_unrollx2_interleavex2 input o = some o2) ∧
    (∃ o2, compressed.avx512_compress input o = some o2) := by
  obtain ⟨k1, h1⟩ := slice.sse2_unroll_eq input out
  obtain ⟨k2, h2⟩ := slice.sse2_unrollx4_eq input out
  obtain ⟨k3, h3⟩ := slice.avx2_unroll_eq input out
  obtain ⟨k4, h4⟩ := slice.avx2_unrollx2_eq input out
  exact ⟨⟨_, h1⟩, ⟨_, h2⟩, ⟨_, h3⟩, ⟨_, h4⟩,
    ⟨_, compressed.sse2_unroll_eq_iter input o⟩,
    ⟨_, compressed.sse2_unrollx4_eq_iter input o⟩,
    ⟨_, compressed.sse42_unrollx4_interleavex2_eq_iter input o⟩,
    ⟨_, compressed.avx2_unroll_eq_iter input o⟩,
    ⟨_, compressed.avx2_unrollx2_eq_iter input o⟩,
    ⟨_, compressed.avx2_unrollx2_interleavex2_eq_iter input o⟩,
    ⟨_, compressed.avx512_compress_eq_iter input o⟩⟩

/-- Claim C7 (corrected).  The branch-free bit-scan primitive of the
interleaved kernels (`rep_bsf`, executing as `tzcnt`; `_tzcnt_u64`) returns
64 — the operand width — on input 0, not 0 as the spec claims (`rep_bsf`'s
own doc comment declares the zero case undefined). -/
theorem C7 :
    rep_bsf 0 = 64 ∧ tzcnt64 0 = 64 ∧ (∀ m, m ≠ 0 → rep_bsf m = tzc m) := by
  refine ⟨rfl, rfl, ?_⟩
  intro m hm
  rw [rep_bsf, tzcnt64, if_neg hm]

/-- Witness for C7: on the non-zero mask 4 the primitive counts the two
trailing zeros. -/
theorem C7_witness : (4 : Nat) ≠ 0 ∧ rep_bsf 4 = tzc 4 :=
  ⟨by decide, C7.2.2 4 (by decide)⟩

/- Counterexample to C7 as stated: the primitive does not return 0 on 0. -/
theorem C7_cex : rep_bsf 0 ≠ 0 := by
  decide

/-- Claim C8 (corrected).  Every unroll-variant slice kernel reserves a
window of `unrollR = 256` output slots per outer iteration — including the
16-line variants `sse2_unroll` and `sse2_unrollx4`, which the spec claims
reserve only 64.  The reservation trace of each run is `replicate k 256`. -/
theorem C8 :
    unrollR = 256 ∧
    (∀ input out, ∃ k, slice.sse2_unroll input out =
      some (out ++ slice.refSplit input, List.replicate k unrollR)) ∧
    (∀ input out, ∃ k, slice.sse2_unrollx4 input out =
      some (out ++ slice.refSplit input, List.replicate k unrollR)) ∧
    (∀ input out, ∃ k, slice.avx2_unroll input out =
      some (out ++ slice.refSplit input, List.replicate k unrollR)) ∧
    (∀ input out, ∃ k, slice.avx2_unrollx2 input out =
      some (out ++ slice.refSplit input, List.replicate k unrollR)) :=
  ⟨rfl, slice.sse2_unroll_eq, slice.sse2_unrollx4_eq, slice.avx2_unroll_eq,
    slice.avx2_unrollx2_eq⟩

/- Counterexample to C8 as stated: on a 16-byte input the 16-line variant
`sse2_unroll` records exactly one reservation, of 256 slots, not 64. -/
unseal tzc maskBits maskLoopP chunkLoopP slice.tailLoop maskLoopU innerLoopU outerLoopU in
theorem C8_cex :
    (slice.sse2_unroll (10 :: List.replicate 15 97) []).map Prod.snd = some [256] ∧
    (256 : Nat) ≠ 64 :=
  ⟨rfl, by decide⟩

/-- Claim C9 (confirmed).  Per stage the harness runs a kernel exactly when
its feature predicate passes, otherwise printing a skip line and moving on;
a run aborts, naming kernel and stage, exactly when an enabled
compressed-family kernel's output differs from the `iter` reference of that
stage — and with the registered kernels that never happens; slice-family
outputs are never compared, so the slice loop only ever runs or skips. -/
theorem C9 :
    (∀ (input : Bytes) (cases : List harness.SliceCase),
      harness.runSlice input cases = cases.map
        (fun c => if c.feat then harness.Event.ran c.label
          else harness.Event.skipped (harness.skipMsg c.label))) ∧
    (∀ (stage : String) (input : Bytes) (cases : List harness.CompCase),
      (∃ m, harness.Event.aborted m ∈ harness.runCompressed stage input cases) ↔
        (∃ c, c ∈ cases ∧ c.feat = true ∧
          c.run input harness.emptyIndex ≠
            some (compressed.iter input harness.emptyIndex))) ∧
    (∀ (stage : String) (input : Bytes) (a b c : Bool),
      harness.runCompressed stage input (harness.compCases a b c) =
        (harness.compCases a b c).map
          (fun cse => if cse.feat then harness.Event.ran cse.label
            else harness.Event.skipped (harness.skipMsg cse.label))) :=
  ⟨harness.runSlice_events, harness.runCompressed_abort_iff,
    harness.runCompressed_registry⟩

/-- Witness for C9: with no optional CPU features, a stage runs the four
always-available compressed kernels and skips the rest; nothing aborts. -/
theorem C9_witness :
    harness.runCompressed "single line" [10] (harness.compCases false false false) =
      [harness.Event.ran "iter", harness.Event.ran "sse2",
        harness.Event.ran "sse2 unroll", harness.Event.ran "sse2 unrollx4",
        harness.Event.skipped (harness.skipMsg "sse4 intrlv"),
        harness.Event.skipped (harness.skipMsg "avx2 unroll"),
        harness.Event.skipped (harness.skipMsg "avx2 unrollx2"),
        harness.Event.skipped (harness.skipMsg "avx2 intrlv"),
        harness.Event.skipped (harness.skipMsg "avx512")] :=
  (C9.2.2 "single line" [10] false false false).trans (by rfl)

/-- Claim C10 (corrected).  The `prep_vec_range` stages cap the active
length at 256 MiB and the all-newlines stage at 64 MiB, but the
`"single line"` stage returns the scratch buffer's length unchanged —
1 GiB, far above the claimed 256 MiB bound. -/
theorem C10 :
    (∀ len, harness.prepVecRangeLen len ≤ 256 * 1024 * 1024) ∧
    (∀ len, harness.allNewlinesLen len ≤ 64 * 1024 * 1024) ∧
    harness.singleLineLen harness.scratchLen = 1024 * 1024 * 1024 :=
  ⟨fun _ => min_le_right _ _, fun _ => min_le_right _ _, rfl⟩

/- Counterexample to C10 as stated: the single-line stage's active length on
the 1 GiB scratch buffer exceeds 256 MiB. -/
theorem C10_cex : ¬ harness.singleLineLen harness.scratchLen ≤ 256 * 1024 * 1024 := by
  decide
